import Mathlib

/-!
Verification development for the fashion-product-scraper repository.

The Python source (app/scrapers/base.py, app/cache.py, app/scrapers/config.py)
is shallowly embedded below.  Python strings are modelled as `List Char`
(sequences of Unicode scalar values, exactly Python's `str` model), bytes as
`List Nat` (each < 256).  The parts of the Python standard library the code
calls (urllib.parse, base64, re on the four fixed patterns, json values) are
modelled faithfully on the fragment the program exercises; each model carries
a comment naming the CPython function it follows.
-/

set_option maxRecDepth 4000

namespace Scraper

/-- A Python `str`: a sequence of Unicode scalar values. -/
abbrev Str := List Char

/-- Coerce a Lean string literal to the model's string type. -/
def ofString (s : String) : Str := s.toList

/-- ASCII decimal digit test (Python `str.isdigit` / regex `\d`, ASCII part;
non-ASCII digits are outside the modelled input space). -/
def isAsciiDigitC (c : Char) : Bool := 48 ≤ c.toNat && c.toNat ≤ 57

/-- ASCII letter test. -/
def isAsciiAlphaC (c : Char) : Bool :=
  (65 ≤ c.toNat && c.toNat ≤ 90) || (97 ≤ c.toNat && c.toNat ≤ 122)

/-- Python whitespace (`str.strip`, regex `\s`), ASCII part:
space, tab, newline, carriage return, vertical tab, form feed. -/
def isPySpace (c : Char) : Bool :=
  c = ' ' || c = '\t' || c = '\n' || c = '\r' || c.toNat = 11 || c.toNat = 12

/-- Regex `\w` word character (ASCII part): letters, digits, underscore. -/
def isWordC (c : Char) : Bool := isAsciiDigitC c || isAsciiAlphaC c || c = '_'

/-- ASCII lower-casing of one character (`str.lower` on the ASCII range;
the strings the code lower-cases before comparing are ASCII keyword sets). -/
def lowerC (c : Char) : Char :=
  if 65 ≤ c.toNat && c.toNat ≤ 90 then Char.ofNat (c.toNat + 32) else c

/-- ASCII upper-casing of one character (`str.upper` on the ASCII range). -/
def upperC (c : Char) : Char :=
  if 97 ≤ c.toNat && c.toNat ≤ 122 then Char.ofNat (c.toNat - 32) else c

/-- `str.lower`. -/
def pyLower (s : Str) : Str := s.map lowerC

/-- `str.upper`. -/
def pyUpper (s : Str) : Str := s.map upperC

/-- `str.strip()`: drop leading and trailing whitespace. -/
def pyStrip (s : Str) : Str :=
  ((s.dropWhile isPySpace).reverse.dropWhile isPySpace).reverse

/-- Python substring containment (`needle in hay`). -/
def containsStr (needle hay : Str) : Bool :=
  match hay with
  | [] => needle.isEmpty
  | _ :: rest => needle.isPrefixOf hay || containsStr needle rest

/-- `str.startswith`. -/
def startsWithStr (pre s : Str) : Bool := pre.isPrefixOf s

/-- Python `s.split(sep)` for a single-character separator:
`"".split(sep) == [""]`, and separators delimit (possibly empty) fields. -/
def pySplitChar (sep : Char) : Str → List Str
  | [] => [[]]
  | c :: rest =>
    if c = sep then [] :: pySplitChar sep rest
    else
      match pySplitChar sep rest with
      | r :: rs => (c :: r) :: rs
      | [] => [[c]]

/-- Python `s.split(sep, 1)` for a single-character separator: split at the
first occurrence of `sep`; `none` when `sep` does not occur. -/
def splitOnce (sep : Char) : Str → Option (Str × Str)
  | [] => none
  | c :: rest =>
    if c = sep then some ([], rest)
    else
      match splitOnce sep rest with
      | some (a, b) => some (c :: a, b)
      | none => none

/- ### UTF-8 (`str.encode("utf-8")` / `bytes.decode("utf-8")`) -/

/-- UTF-8 encoding of one scalar value (CPython `str.encode("utf-8")`,
one code point). -/
def utf8EncodeChar (c : Char) : List Nat :=
  let v := c.toNat
  if v < 0x80 then [v]
  else if v < 0x800 then [0xC0 + v / 64, 0x80 + v % 64]
  else if v < 0x10000 then [0xE0 + v / 4096, 0x80 + v / 64 % 64, 0x80 + v % 64]
  else [0xF0 + v / 262144, 0x80 + v / 4096 % 64, 0x80 + v / 64 % 64, 0x80 + v % 64]

/-- UTF-8 encoding of a string. -/
def utf8Encode : Str → List Nat
  | [] => []
  | c :: rest => utf8EncodeChar c ++ utf8Encode rest

/-- The replacement character U+FFFD used by `errors="replace"` decoding. -/
def uFFFD : Char := Char.ofNat 0xFFFD

/-- UTF-8 continuation byte test. -/
def isCont (b : Nat) : Bool := 0x80 ≤ b && b < 0xC0

/-- Number of continuation bytes demanded by a UTF-8 leading byte
(99 marks a byte that can never lead a valid sequence). -/
def contCount (b : Nat) : Nat :=
  if b < 0xC2 then 99 else if b < 0xE0 then 1 else if b < 0xF0 then 2
  else if b < 0xF5 then 3 else 99

/-- The payload bits carried by a UTF-8 leading byte. -/
def leadVal (b : Nat) : Nat :=
  if b < 0xE0 then b - 0xC0 else if b < 0xF0 then b - 0xE0 else b - 0xF0

/-- UTF-8 decoding (CPython `bytes.decode("utf-8", errors="replace")`).
Valid sequences decode to their scalar value; malformed bytes yield the
replacement character (the exact replacement-character count for malformed
input differs from CPython in corner cases, but the program only ever decodes
byte strings produced by the matching encoder, where the two agree). -/
def utf8DecodeAux : Nat → List Nat → Str
  | _, [] => []
  | 0, _ :: _ => []
  | fuel + 1, b :: rest =>
    if b < 0x80 then Char.ofNat b :: utf8DecodeAux fuel rest
    else
      let k := contCount b
      if k ≤ 3 ∧ k ≤ rest.length ∧ (rest.take k).all isCont then
        Char.ofNat ((rest.take k).foldl (fun acc x => acc * 64 + (x - 0x80)) (leadVal b)) ::
          utf8DecodeAux fuel (rest.drop k)
      else uFFFD :: utf8DecodeAux fuel rest

def utf8Decode (l : List Nat) : Str := utf8DecodeAux l.length l

theorem utf8DecodeAux_irrel (fuel fuel2 : Nat) (l : List Nat)
    (h : l.length ≤ fuel) (h2 : l.length ≤ fuel2) :
    utf8DecodeAux fuel l = utf8DecodeAux fuel2 l := by
  induction fuel generalizing l fuel2 with
  | zero =>
    cases l with
    | nil => cases fuel2 <;> rfl
    | cons b rest => simp at h
  | succ fuel ih =>
    cases l with
    | nil => cases fuel2 <;> rfl
    | cons b rest =>
      cases fuel2 with
      | zero => simp at h2
      | succ fuel2 =>
        rw [utf8DecodeAux, utf8DecodeAux]
        simp only [List.length_cons] at h h2
        by_cases hb : b < 0x80
        · simp only [hb, if_pos]
          rw [ih fuel2 rest (by omega) (by omega)]
        · simp only [hb, Bool.false_eq_true, if_false]
          have hd : (rest.drop (contCount b)).length ≤ rest.length := by
            simp [List.length_drop]
          rw [ih fuel2 (rest.drop (contCount b)) (by omega) (by omega),
            ih fuel2 rest (by omega) (by omega)]

theorem toNat_ofNat_valid (n : Nat) (h : n.isValidChar) : (Char.ofNat n).toNat = n := by
  simp only [Char.ofNat, h, reduceDIte, Char.ofNatAux, Char.toNat, UInt32.toNat]
  rfl

theorem char_valid (c : Char) : c.toNat < 0xD800 ∨ (0xE000 ≤ c.toNat ∧ c.toNat < 0x110000) := by
  have h := c.valid
  rcases h with h | h
  · exact Or.inl h
  · exact Or.inr ⟨h.1, h.2⟩

theorem utf8Decode_b1 (b : Nat) (h : b < 0x80) (rest : List Nat) :
    utf8Decode (b :: rest) = Char.ofNat b :: utf8Decode rest := by
  rw [utf8Decode, utf8Decode, List.length_cons, utf8DecodeAux]
  simp only [h, reduceIte]

theorem utf8Decode_b2 (b b1 : Nat) (h0 : 0xC2 ≤ b) (h : b < 0xE0) (hc : isCont b1 = true)
    (rest : List Nat) :
    utf8Decode (b :: b1 :: rest) = Char.ofNat ((b - 0xC0) * 64 + (b1 - 0x80)) :: utf8Decode rest := by
  have h1 : ¬ b < 0x80 := by omega
  have h2 : ¬ b < 0xC2 := by omega
  rw [utf8Decode, utf8Decode]
  simp only [List.length_cons]
  rw [utf8DecodeAux]
  simp only [contCount, leadVal, h1, h2, h, reduceIte, List.take_succ_cons, List.take_zero,
    List.all_cons, List.all_nil, hc, Bool.and_self, List.length_cons, List.foldl_cons,
    List.foldl_nil, List.drop_succ_cons, List.drop_zero]
  rw [utf8DecodeAux_irrel (rest.length + 1) rest.length rest (by omega) (by omega)]
  simp

theorem utf8Decode_b3 (b b1 b2 : Nat) (h0 : 0xE0 ≤ b) (h : b < 0xF0)
    (hc1 : isCont b1 = true) (hc2 : isCont b2 = true) (rest : List Nat) :
    utf8Decode (b :: b1 :: b2 :: rest) =
      Char.ofNat (((b - 0xE0) * 64 + (b1 - 0x80)) * 64 + (b2 - 0x80)) :: utf8Decode rest := by
  have h1 : ¬ b < 0x80 := by omega
  have h2 : ¬ b < 0xC2 := by omega
  have h3 : ¬ b < 0xE0 := by omega
  rw [utf8Decode, utf8Decode]
  simp only [List.length_cons]
  rw [utf8DecodeAux]
  simp only [contCount, leadVal, h1, h2, h3, h, reduceIte, List.take_succ_cons, List.take_zero,
    List.all_cons, List.all_nil, hc1, hc2, Bool.and_self, List.length_cons, List.foldl_cons,
    List.foldl_nil, List.drop_succ_cons, List.drop_zero]
  rw [utf8DecodeAux_irrel (rest.length + 1 + 1) rest.length rest (by omega) (by omega)]
  simp

theorem utf8Decode_b4 (b b1 b2 b3 : Nat) (h0 : 0xF0 ≤ b) (h : b < 0xF5)
    (hc1 : isCont b1 = true) (hc2 : isCont b2 = true) (hc3 : isCont b3 = true)
    (rest : List Nat) :
    utf8Decode (b :: b1 :: b2 :: b3 :: rest) =
      Char.ofNat ((((b - 0xF0) * 64 + (b1 - 0x80)) * 64 + (b2 - 0x80)) * 64 + (b3 - 0x80)) ::
        utf8Decode rest := by
  have h1 : ¬ b < 0x80 := by omega
  have h2 : ¬ b < 0xC2 := by omega
  have h3 : ¬ b < 0xE0 := by omega
  have h4 : ¬ b < 0xF0 := by omega
  rw [utf8Decode, utf8Decode]
  simp only [List.length_cons]
  rw [utf8DecodeAux]
  simp only [contCount, leadVal, h1, h2, h3, h4, h, reduceIte, List.take_succ_cons, List.take_zero,
    List.all_cons, List.all_nil, hc1, hc2, hc3, Bool.and_self, List.length_cons, List.foldl_cons,
    List.foldl_nil, List.drop_succ_cons, List.drop_zero]
  rw [utf8DecodeAux_irrel (rest.length + 1 + 1 + 1) rest.length rest (by omega) (by omega)]
  simp

theorem isCont_of_mid (v : Nat) : isCont (0x80 + v % 64) = true := by
  simp only [isCont, Bool.and_eq_true, decide_eq_true_eq]
  omega

theorem utf8Decode_encodeChar (c : Char) (rest : List Nat) :
    utf8Decode (utf8EncodeChar c ++ rest) = c :: utf8Decode rest := by
  have hvalid := char_valid c
  unfold utf8EncodeChar
  by_cases h1 : c.toNat < 0x80
  · simp only [h1, reduceIte, List.cons_append, List.nil_append]
    rw [utf8Decode_b1 _ h1, Char.ofNat_toNat]
  · by_cases h2 : c.toNat < 0x800
    · simp only [h1, h2, reduceIte, List.cons_append, List.nil_append]
      rw [utf8Decode_b2 _ _ (by omega) (by omega) (isCont_of_mid _)]
      have hval : (0xC0 + c.toNat / 64 - 0xC0) * 64 + (0x80 + c.toNat % 64 - 0x80) = c.toNat := by
        omega
      rw [hval, Char.ofNat_toNat]
    · by_cases h3 : c.toNat < 0x10000
      · simp only [h1, h2, h3, reduceIte, List.cons_append, List.nil_append]
        have hm : isCont (0x80 + c.toNat / 64 % 64) = true := isCont_of_mid _
        rw [utf8Decode_b3 _ _ _ (by omega) (by omega) hm (isCont_of_mid _)]
        have hval : ((0xE0 + c.toNat / 4096 - 0xE0) * 64 + (0x80 + c.toNat / 64 % 64 - 0x80)) * 64 +
            (0x80 + c.toNat % 64 - 0x80) = c.toNat := by omega
        rw [hval, Char.ofNat_toNat]
      · have h4 : c.toNat < 0x110000 := by omega
        simp only [h1, h2, h3, reduceIte, List.cons_append, List.nil_append]
        have hm1 : isCont (0x80 + c.toNat / 4096 % 64) = true := isCont_of_mid _
        have hm2 : isCont (0x80 + c.toNat / 64 % 64) = true := isCont_of_mid _
        rw [utf8Decode_b4 _ _ _ _ (by omega) (by omega) hm1 hm2 (isCont_of_mid _)]
        have hval : (((0xF0 + c.toNat / 262144 - 0xF0) * 64 +
            (0x80 + c.toNat / 4096 % 64 - 0x80)) * 64 +
            (0x80 + c.toNat / 64 % 64 - 0x80)) * 64 + (0x80 + c.toNat % 64 - 0x80) = c.toNat := by
          omega
        rw [hval, Char.ofNat_toNat]

/-- Round trip: decoding an encoded string recovers the string. -/
theorem utf8Decode_encode (s : Str) : utf8Decode (utf8Encode s) = s := by
  induction s with
  | nil => rfl
  | cons c rest ih => rw [utf8Encode, utf8Decode_encodeChar, ih]

theorem utf8EncodeChar_lt_256 (c : Char) (b : Nat) (hb : b ∈ utf8EncodeChar c) : b < 256 := by
  have hvalid := char_valid c
  unfold utf8EncodeChar at hb
  by_cases h1 : c.toNat < 0x80 <;> by_cases h2 : c.toNat < 0x800 <;>
    by_cases h3 : c.toNat < 0x10000 <;>
      simp_all <;> omega

theorem utf8Encode_lt_256 (s : Str) (b : Nat) (hb : b ∈ utf8Encode s) : b < 256 := by
  induction s with
  | nil => simp [utf8Encode] at hb
  | cons c rest ih =>
    rw [utf8Encode] at hb
    rcases List.mem_append.mp hb with h | h
    · exact utf8EncodeChar_lt_256 c b h
    · exact ih h

theorem utf8EncodeChar_ne_nil (c : Char) : utf8EncodeChar c ≠ [] := by
  unfold utf8EncodeChar
  by_cases h1 : c.toNat < 0x80 <;> by_cases h2 : c.toNat < 0x800 <;>
    by_cases h3 : c.toNat < 0x10000 <;> simp [h1, h2, h3]

/- ### Percent encoding (`urllib.parse.quote_plus` / `unquote_plus`) -/

/-- Characters `urllib.parse.quote` never encodes (`_ALWAYS_SAFE`):
ASCII letters, digits, and `_.-~` (the call sites pass `safe=""`). -/
def isQuoteSafe (c : Char) : Bool :=
  isAsciiDigitC c || isAsciiAlphaC c || c = '_' || c = '.' || c = '-' || c = '~'

/-- Upper-case hex digit, as produced by `urllib.parse.quote`. -/
def hexDigitC (n : Nat) : Char :=
  match n with
  | 0 => '0' | 1 => '1' | 2 => '2' | 3 => '3' | 4 => '4' | 5 => '5' | 6 => '6' | 7 => '7'
  | 8 => '8' | 9 => '9' | 10 => 'A' | 11 => 'B' | 12 => 'C' | 13 => 'D' | 14 => 'E' | 15 => 'F'
  | _ => '0'

/-- Hex digit value, either case (as accepted by `urllib.parse.unquote`). -/
def hexVal (c : Char) : Option Nat :=
  if 48 ≤ c.toNat ∧ c.toNat ≤ 57 then some (c.toNat - 48)
  else if 65 ≤ c.toNat ∧ c.toNat ≤ 70 then some (c.toNat - 55)
  else if 97 ≤ c.toNat ∧ c.toNat ≤ 102 then some (c.toNat - 87)
  else none

/-- `%XX` escapes for a byte string. -/
def pctRun : List Nat → Str
  | [] => []
  | b :: bs => '%' :: hexDigitC (b / 16) :: hexDigitC (b % 16) :: pctRun bs

/-- One character of `urllib.parse.quote_plus(s, safe="")`: always-safe
characters pass through, a space becomes `+`, anything else is
percent-encoded per UTF-8 byte.  (CPython reaches this effect through
`quote` with space temporarily marked safe followed by `str.replace`;
per character the result is exactly this.) -/
def quotePlusChar (c : Char) : Str :=
  if isQuoteSafe c then [c]
  else if c = ' ' then ['+']
  else pctRun (utf8EncodeChar c)

/-- `urllib.parse.quote_plus(s, safe="")`. -/
def quotePlus : Str → Str
  | [] => []
  | c :: rest => quotePlusChar c ++ quotePlus rest

/-- Value of a two-hex-digit pair, when both characters are hex digits. -/
def hexPair (h1 h2 : Char) : Option Nat :=
  match hexVal h1, hexVal h2 with
  | some a, some b => some (a * 16 + b)
  | _, _ => none

/-- Collect the maximal leading run of `%XX` escapes as bytes, returning the
bytes and the remaining characters (helper for `unquote`). -/
def takePct : Str → (List Nat × Str)
  | c :: h1 :: h2 :: rest =>
    match (if c = '%' then hexPair h1 h2 else none) with
    | some v => let p := takePct rest; (v :: p.1, p.2)
    | none => ([], c :: h1 :: h2 :: rest)
  | s => ([], s)

theorem takePct_not_cons3 (s : Str)
    (hs : ∀ (c h1 h2 : Char) (rest : List Char), s = c :: h1 :: h2 :: rest → False) :
    takePct s = ([], s) := by
  rw [takePct.eq_def]
  split
  · rename_i c h1 h2 rest
    exact absurd rfl (fun h => hs c h1 h2 rest h)
  · rfl

theorem takePct_snd_le (s : Str) : (takePct s).2.length ≤ s.length := by
  induction s using takePct.induct with
  | case1 c h1 h2 rest v hv ih =>
    rw [takePct, hv]
    simp only [List.length_cons]
    omega
  | case2 c h1 h2 rest hv =>
    rw [takePct, hv]
  | case3 s hs =>
    rw [takePct_not_cons3 s hs]

theorem takePct_snd_lt (s : Str) (h : (takePct s).1 ≠ []) : (takePct s).2.length < s.length := by
  rw [takePct.eq_def] at h ⊢
  split at h
  · rename_i c h1 h2 rest
    split at h
    · rename_i v hv
      simp only
      have := takePct_snd_le rest
      simp only [List.length_cons]
      omega
    · simp at h
  · simp at h

/-- Fuel-indexed helper for `unquote`; with fuel at least the string length
the fuel never runs out. -/
def unquoteAux : Nat → Str → Str
  | _, [] => []
  | 0, c :: rest => c :: rest
  | fuel + 1, c :: rest =>
    if (takePct (c :: rest)).1 = [] then c :: unquoteAux fuel rest
    else utf8Decode (takePct (c :: rest)).1 ++ unquoteAux fuel (takePct (c :: rest)).2

/-- `urllib.parse.unquote`: literal characters pass through; each maximal run
of `%XX` escapes is decoded as a UTF-8 byte string. -/
def unquote (s : Str) : Str := unquoteAux s.length s

theorem unquoteAux_irrel (fuel fuel2 : Nat) (s : Str)
    (h : s.length ≤ fuel) (h2 : s.length ≤ fuel2) :
    unquoteAux fuel s = unquoteAux fuel2 s := by
  induction fuel generalizing s fuel2 with
  | zero =>
    cases s with
    | nil => cases fuel2 <;> rfl
    | cons c rest => simp at h
  | succ fuel ih =>
    cases s with
    | nil => cases fuel2 <;> rfl
    | cons c rest =>
      cases fuel2 with
      | zero => simp at h2
      | succ fuel2 =>
        rw [unquoteAux, unquoteAux]
        simp only [List.length_cons] at h h2
        by_cases hp : (takePct (c :: rest)).1 = []
        · rw [if_pos hp, if_pos hp, ih fuel2 rest (by omega) (by omega)]
        · have hlt := takePct_snd_lt (c :: rest) hp
          simp only [List.length_cons] at hlt
          rw [if_neg hp, if_neg hp,
            ih fuel2 ((takePct (c :: rest)).2) (by omega) (by omega)]

/-- `urllib.parse.unquote_plus`: `+` becomes space, then percent-decoding. -/
def unquotePlus (s : Str) : Str :=
  unquote (s.map (fun c => if c = '+' then ' ' else c))

theorem hexPair_hexDigitC (b : Nat) (hb : b < 256) :
    hexPair (hexDigitC (b / 16)) (hexDigitC (b % 16)) = some b := by
  have h1 : b / 16 < 16 := by omega
  have h2 : b % 16 < 16 := by omega
  have key : ∀ x < 16, ∀ y < 16,
      hexPair (hexDigitC x) (hexDigitC y) = some (x * 16 + y) := by decide
  rw [key _ h1 _ h2]
  congr 1
  omega

theorem hexDigitC_ne (n : Nat) : hexDigitC n ≠ '+' ∧ hexDigitC n ≠ '%' := by
  unfold hexDigitC
  split <;> exact ⟨by decide, by decide⟩

theorem takePct_pctRun (bs : List Nat) (hbs : ∀ b ∈ bs, b < 256) (t : Str) :
    takePct (pctRun bs ++ t) = (bs ++ (takePct t).1, (takePct t).2) := by
  induction bs with
  | nil => simp [pctRun]
  | cons b rest ih =>
    have hb : b < 256 := hbs b (by simp)
    rw [pctRun]
    simp only [List.cons_append]
    rw [takePct]
    simp only [reduceIte, hexPair_hexDigitC b hb]
    rw [ih (fun x hx => hbs x (by simp [hx]))]

theorem takePct_not_pct (c : Char) (hc : c ≠ '%') (rest : Str) :
    takePct (c :: rest) = ([], c :: rest) := by
  match rest with
  | [] => rfl
  | [h1] => rfl
  | h1 :: h2 :: r2 =>
    rw [takePct]
    simp [hc]

theorem unquote_lit (c : Char) (hc : c ≠ '%') (rest : Str) :
    unquote (c :: rest) = c :: unquote rest := by
  rw [unquote, unquote, List.length_cons, unquoteAux]
  simp [takePct_not_pct c hc rest]

theorem unquote_run (s : Str) (b : Nat) (bs : List Nat)
    (h : takePct s = (b :: bs, (takePct s).2)) :
    unquote s = utf8Decode (b :: bs) ++ unquote (takePct s).2 := by
  match s with
  | [] =>
    rw [takePct_not_cons3 [] (by intro c h1 h2 r hcontra; cases hcontra)] at h
    simp at h
  | c :: rest =>
    have hne : (takePct (c :: rest)).1 ≠ [] := by
      rw [h]
      simp
    have h1 : (takePct (c :: rest)).1 = b :: bs := by rw [h]
    have hlt := takePct_snd_lt (c :: rest) hne
    simp only [List.length_cons] at hlt
    simp only [unquote, List.length_cons]
    rw [unquoteAux, if_neg hne, h1]
    congr 1
    exact unquoteAux_irrel _ _ _ (by omega) (by omega)

/-- The characters emitted by `quotePlus` for an unsafe, non-space character
(a percent run) translate unchanged under the plus-to-space map. -/
theorem pctRun_map_plus (bs : List Nat) :
    (pctRun bs).map (fun c => if c = '+' then ' ' else c) = pctRun bs := by
  induction bs with
  | nil => rfl
  | cons b rest ih =>
    rw [pctRun]
    simp only [List.map_cons, ih]
    have h1 := hexDigitC_ne (b / 16)
    have h2 := hexDigitC_ne (b % 16)
    simp [h1.1, h2.1]

/-- Predicate for characters that `quotePlus` percent-encodes. -/
def isPctEncC (c : Char) : Bool := !isQuoteSafe c && c ≠ ' '

theorem safe_ne_reserved (c : Char) (hsafe : isQuoteSafe c = true) : c ≠ '%' ∧ c ≠ '+' := by
  constructor
  · intro hEq
    rw [hEq] at hsafe
    exact absurd hsafe (by decide)
  · intro hEq
    rw [hEq] at hsafe
    exact absurd hsafe (by decide)

/-- One step of `quotePlus` after the plus-to-space map, split by character
class. -/
theorem mapPlus_quotePlus_cons (c : Char) (rest : Str) :
    (quotePlus (c :: rest)).map (fun x => if x = '+' then ' ' else x) =
      (if isQuoteSafe c then [c] else if c = ' ' then [' ']
        else pctRun (utf8EncodeChar c)) ++
        (quotePlus rest).map (fun x => if x = '+' then ' ' else x) := by
  rw [quotePlus, quotePlusChar]
  by_cases hsafe : isQuoteSafe c
  · have h := safe_ne_reserved c hsafe
    simp [hsafe, h.2]
  · by_cases hsp : c = ' '
    · have hs2 : isQuoteSafe ' ' = false := by decide
      subst hsp
      simp [hsafe, hs2]
    · simp [hsafe, hsp, pctRun_map_plus]

theorem takePct_quotePlus (s : Str) :
    takePct ((quotePlus s).map (fun x => if x = '+' then ' ' else x)) =
      (utf8Encode (s.takeWhile isPctEncC),
        (quotePlus (s.dropWhile isPctEncC)).map (fun x => if x = '+' then ' ' else x)) := by
  induction s with
  | nil =>
    simp only [List.takeWhile_nil, List.dropWhile_nil]
    rw [quotePlus]
    simp [takePct, utf8Encode]
  | cons c rest ih =>
    rw [mapPlus_quotePlus_cons]
    by_cases hsafe : isQuoteSafe c
    · have hpe : isPctEncC c = false := by simp [isPctEncC, hsafe]
      have h := safe_ne_reserved c hsafe
      simp only [hsafe, reduceIte, List.cons_append, List.nil_append,
        List.takeWhile_cons, List.dropWhile_cons, hpe, Bool.false_eq_true, if_false]
      rw [takePct_not_pct _ h.1]
      rw [mapPlus_quotePlus_cons]
      simp [hsafe, utf8Encode]
    · by_cases hsp : c = ' '
      · have hpe : isPctEncC c = false := by simp [isPctEncC, hsp]
        subst hsp
        simp only [hsafe, reduceIte, Bool.false_eq_true, if_false, if_pos rfl,
          List.cons_append, List.nil_append, List.takeWhile_cons, List.dropWhile_cons, hpe]
        rw [takePct_not_pct ' ' (by decide)]
        rw [mapPlus_quotePlus_cons]
        have hs2 : isQuoteSafe ' ' = false := by decide
        simp [hs2, utf8Encode]
      · have hpe : isPctEncC c = true := by simp [isPctEncC, hsafe, hsp]
        simp only [hsafe, hsp, reduceIte, Bool.false_eq_true, if_false,
          List.takeWhile_cons, List.dropWhile_cons, hpe, if_true]
        rw [takePct_pctRun _ (utf8EncodeChar_lt_256 c) _, ih]
        simp [utf8Encode]

theorem unquotePlus_quotePlus (s : Str) : unquotePlus (quotePlus s) = s := by
  unfold unquotePlus
  suffices key : ∀ n (s : Str), s.length = n →
      unquote ((quotePlus s).map (fun c => if c = '+' then ' ' else c)) = s by
    exact key s.length s rfl
  intro n
  induction n using Nat.strong_induction_on with
  | _ n ih =>
    intro s hn
    match s with
    | [] =>
      rw [quotePlus]
      simp [unquote, unquoteAux]
    | c :: rest =>
      rw [mapPlus_quotePlus_cons]
      by_cases hsafe : isQuoteSafe c
      · have h := safe_ne_reserved c hsafe
        simp only [hsafe, reduceIte, List.cons_append, List.nil_append]
        rw [unquote_lit c h.1]
        rw [ih rest.length (by simp [← hn]) rest rfl]
      · by_cases hsp : c = ' '
        · subst hsp
          simp only [hsafe, reduceIte, Bool.false_eq_true, if_false, if_pos rfl,
            List.cons_append, List.nil_append]
          rw [unquote_lit ' ' (by decide)]
          rw [ih rest.length (by simp [← hn]) rest rfl]
        · -- c is percent-encoded: the whole leading pct-encoded block decodes at once
          have hpe : isPctEncC c = true := by simp [isPctEncC, hsafe, hsp]
          have hkey := takePct_quotePlus (c :: rest)
          simp only [List.takeWhile_cons, List.dropWhile_cons, hpe, if_true] at hkey
          have henc : utf8Encode (c :: rest.takeWhile isPctEncC) =
              utf8EncodeChar c ++ utf8Encode (rest.takeWhile isPctEncC) := by
            rw [utf8Encode]
          rw [henc] at hkey
          obtain ⟨b0, bs0, hb0⟩ : ∃ b0 bs0, utf8EncodeChar c ++
              utf8Encode (rest.takeWhile isPctEncC) = b0 :: bs0 := by
            cases hcc : utf8EncodeChar c with
            | nil => exact absurd hcc (utf8EncodeChar_ne_nil c)
            | cons x xs => exact ⟨x, xs ++ utf8Encode (rest.takeWhile isPctEncC), by simp⟩
          rw [hb0] at hkey
          rw [mapPlus_quotePlus_cons] at hkey
          simp only [hsafe, hsp, reduceIte, Bool.false_eq_true, if_false] at hkey ⊢
          rw [unquote_run _ b0 bs0 (by rw [hkey])]
          rw [hkey]
          simp only
          rw [← hb0, ← henc, utf8Decode_encode]
          have hlen : (rest.dropWhile isPctEncC).length < n := by
            have hdw : (rest.dropWhile isPctEncC).length ≤ rest.length :=
              (List.dropWhile_suffix isPctEncC).sublist.length_le
            simp only [← hn, List.length_cons]
            omega
          rw [ih (rest.dropWhile isPctEncC).length hlen (rest.dropWhile isPctEncC) rfl]
          have htd : rest.takeWhile isPctEncC ++ rest.dropWhile isPctEncC = rest :=
            List.takeWhile_append_dropWhile isPctEncC rest
          rw [List.cons_append]
          rw [htd]

/- ### URL splitting (`urllib.parse.urlsplit` / `urlunsplit`)

The Python code calls `urlparse`/`urlunparse`, which additionally split the
`;params` suffix off the last path segment and rejoin it verbatim on unparse.
The scraper never touches the params component (it only replaces `query`), and
splitting params then rejoining them is the identity on `path ++ ";" ++ params`,
so the five-component `urlsplit` model below is extensionally the same. -/

/-- The five URL components. -/
structure UrlParts where
  scheme : Str
  netloc : Str
  path : Str
  query : Str
  fragment : Str
deriving DecidableEq

/-- Characters allowed in a URL scheme (`urllib.parse.scheme_chars`). -/
def isSchemeChar (c : Char) : Bool :=
  isAsciiAlphaC c || isAsciiDigitC c || c = '+' || c = '-' || c = '.'

/-- CPython `urlsplit` scheme detection: the text before the first `:` must
be nonempty, start with an ASCII letter, and consist of scheme characters;
the detected scheme is lower-cased.  Returns `(scheme, rest)`, or
`("", url)` when no scheme is present. -/
def splitScheme (u : Str) : Str × Str :=
  match splitOnce ':' u with
  | some (bef, aft) =>
    match bef with
    | [] => ([], u)
    | c0 :: _ =>
      if isAsciiAlphaC c0 && bef.all isSchemeChar then (pyLower bef, aft)
      else ([], u)
  | none => ([], u)

/-- CPython `_splitnetloc`: the netloc extends to the next `/`, `?` or `#`. -/
def notNetlocEnd (c : Char) : Bool := !(c = '/' || c = '?' || c = '#')

/-- Netloc extraction step of `urlsplit`: when the remainder begins with
`//`, the netloc runs to the next `/`, `?` or `#`. -/
def splitNetlocStage (rest1 : Str) : Str × Str :=
  if startsWithStr (ofString "//") rest1 then
    ((rest1.drop 2).takeWhile notNetlocEnd, (rest1.drop 2).dropWhile notNetlocEnd)
  else ([], rest1)

/-- Fragment split step of `urlsplit`: split at the first `#`. -/
def splitFragStage (rest2 : Str) : Str × Str :=
  match splitOnce '#' rest2 with
  | some (a, b) => (a, b)
  | none => (rest2, [])

/-- Query split step of `urlsplit`: split at the first `?`. -/
def splitQueryStage (s : Str) : Str × Str :=
  match splitOnce '?' s with
  | some (a, b) => (a, b)
  | none => (s, [])

/-- `urllib.parse.urlsplit` with a default scheme (used by `urljoin`):
scheme detection, then netloc, then fragment, then query, in CPython's
order. -/
def urlsplitD (u : Str) (defaultScheme : Str) : UrlParts :=
  let sr := splitScheme u
  let nl := splitNetlocStage sr.2
  let fr := splitFragStage nl.2
  let pq := splitQueryStage fr.1
  ⟨if sr.1 = [] then defaultScheme else sr.1, nl.1, pq.1, pq.2, fr.2⟩

/-- `urllib.parse.urlsplit` (default scheme `""`). -/
def urlsplit (u : Str) : UrlParts := urlsplitD u []

/-- `urllib.parse.urlunsplit`. -/
def urlunsplit (p : UrlParts) : Str :=
  let url0 := p.path
  let url1 :=
    if p.netloc ≠ [] || startsWithStr (ofString "//") url0 then
      ofString "//" ++ p.netloc ++
        (if url0 ≠ [] && !startsWithStr (ofString "/") url0 then '/' :: url0 else url0)
    else url0
  let url2 := if p.scheme ≠ [] then p.scheme ++ ':' :: url1 else url1
  let url3 := if p.query ≠ [] then url2 ++ '?' :: p.query else url2
  if p.fragment ≠ [] then url3 ++ '#' :: p.fragment else url3

/- ### Query strings (`parse_qs` / `urlencode`) -/

/-- `urllib.parse.parse_qsl` with default arguments (`keep_blank_values=False`,
separator `&`): empty fields are skipped, fields without `=` are skipped,
fields with an empty value are skipped, names and values are
`unquote_plus`-decoded. -/
def qslDecodeField (nv : Str) : Option (Str × Str) :=
  match splitOnce '=' nv with
  | none => none
  | some (nm, value) =>
    if value = [] then none else some (unquotePlus nm, unquotePlus value)

def parseQslPairs (qs : Str) : List (Str × Str) :=
  ((pySplitChar '&' qs).filter (fun f => f ≠ [])).filterMap qslDecodeField

/-- Append a value under a key in an association list, preserving insertion
order (Python dict update as done by `parse_qs`). -/
def upsertDict (k : Str) (v : Str) : List (Str × List Str) → List (Str × List Str)
  | [] => [(k, [v])]
  | (k2, vs) :: rest =>
    if k = k2 then (k2, vs ++ [v]) :: rest else (k2, vs) :: upsertDict k v rest

/-- `urllib.parse.parse_qs` with default arguments: group the `parse_qsl`
pairs into an insertion-ordered dict of value lists. -/
def parse_qs (qs : Str) : List (Str × List Str) :=
  (parseQslPairs qs).foldl (fun d kv => upsertDict kv.1 kv.2 d) []

/-- `"&".join`. -/
def joinAmp : List Str → Str
  | [] => []
  | [x] => x
  | x :: y :: rest => x ++ '&' :: joinAmp (y :: rest)

/-- `urllib.parse.urlencode(query, doseq=True)` on a dict of string lists:
one `quote_plus(k)=quote_plus(v)` field per value, joined by `&`. -/
def urlencode (q : List (Str × List Str)) : Str :=
  joinAmp (q.foldr (fun kv acc =>
    kv.2.map (fun v => quotePlus kv.1 ++ '=' :: quotePlus v) ++ acc) [])

/- ### The scraper's URL helpers (app/scrapers/base.py) -/

/-- `TRACKING_QUERY_PARAMS` (base.py lines 75-85). -/
def TRACKING_QUERY_PARAMS : List Str :=
  [ofString "cid", ofString "session", ofString "utm_source", ofString "utm_medium",
   ofString "utm_campaign", ofString "utm_term", ofString "utm_content",
   ofString "gclid", ofString "fbclid"]

/-- The key test in `_normalize_product_url`:
`key in TRACKING_QUERY_PARAMS or key.startswith("utm_")`. -/
def isTrackingKey (k : Str) : Bool :=
  TRACKING_QUERY_PARAMS.contains k || startsWithStr (ofString "utm_") k

/-- `SiteScraper._normalize_product_url` (base.py lines 336-343): parse the
URL, drop tracking query parameters (popping keys from a Python dict keeps
the order of the remaining keys, i.e. an order-preserving filter), re-encode
the query, and unparse.  The code uses `urlparse`/`urlunparse`; since only
the query is replaced, the `;`-params component they split off the path is
re-attached verbatim, so the pair acts exactly like `urlsplit`/`urlunsplit`
here. -/
def normalizeProductUrl (url : Str) : Str :=
  let parsed := urlsplit url
  let query := parse_qs parsed.query
  let cleaned := query.filter (fun kv => !isTrackingKey kv.1)
  urlunsplit { parsed with query := urlencode cleaned }

/-- Fuel-indexed helper for `natToDigits`; with fuel at least `n` the fuel
never runs out. -/
def natToDigitsAux : Nat → Nat → Str
  | 0, n => [Char.ofNat (48 + n % 10)]
  | fuel + 1, n =>
    if n < 10 then [Char.ofNat (48 + n)]
    else natToDigitsAux fuel (n / 10) ++ [Char.ofNat (48 + n % 10)]

/-- Base-10 digits of a natural number (Python `str(n)` for `n ≥ 0`). -/
def natToDigits (n : Nat) : Str := natToDigitsAux n n

theorem natToDigitsAux_irrel (fuel fuel2 n : Nat) (h : n ≤ fuel) (h2 : n ≤ fuel2) :
    natToDigitsAux fuel n = natToDigitsAux fuel2 n := by
  induction fuel generalizing n fuel2 with
  | zero =>
    have hn : n = 0 := by omega
    subst hn
    cases fuel2 with
    | zero => rfl
    | succ f => rfl
  | succ fuel ih =>
    cases fuel2 with
    | zero =>
      have hn : n = 0 := by omega
      subst hn
      rfl
    | succ fuel2 =>
      rw [natToDigitsAux, natToDigitsAux]
      by_cases hn : n < 10
      · rw [if_pos hn, if_pos hn]
      · rw [if_neg hn, if_neg hn, ih fuel2 (n / 10) (by omega) (by omega)]

/-- Python dict assignment `d[k] = v`: replace in place or append. -/
def setKey (d : List (Str × List Str)) (k : Str) (v : List Str) :
    List (Str × List Str) :=
  if d.any (fun kv => kv.1 = k) then
    d.map (fun kv => if kv.1 = k then (k, v) else kv)
  else d ++ [(k, v)]

/-- `SiteScraper._with_pagination_param` (base.py lines 345-349): set
`query[param] = [str(page)]` and unparse. -/
def withPaginationParam (url : Str) (param : Str) (page : Nat) : Str :=
  let parsed := urlsplit url
  let query := parse_qs parsed.query
  urlunsplit { parsed with query := urlencode (setKey query param [natToDigits page]) }

/- ### `urllib.parse.urljoin` -/

/-- `urllib.parse.uses_relative`. -/
def usesRelative : List Str :=
  [[], ofString "ftp", ofString "http", ofString "gopher", ofString "nntp",
   ofString "imap", ofString "wais", ofString "file", ofString "https",
   ofString "shttp", ofString "mms", ofString "prospero", ofString "rtsp",
   ofString "rtspu", ofString "sftp", ofString "svn", ofString "svn+ssh",
   ofString "ws", ofString "wss"]

/-- `urllib.parse.uses_netloc`. -/
def usesNetloc : List Str :=
  [[], ofString "ftp", ofString "http", ofString "gopher", ofString "nntp",
   ofString "telnet", ofString "imap", ofString "wais", ofString "file",
   ofString "mms", ofString "https", ofString "shttp", ofString "snews",
   ofString "prospero", ofString "rtsp", ofString "rtspu", ofString "rsync",
   ofString "svn", ofString "svn+ssh", ofString "sftp", ofString "nfs",
   ofString "git", ofString "git+ssh", ofString "ws", ofString "wss",
   ofString "itms-services"]

/-- `segments[1:-1] = filter(None, segments[1:-1])` from `urljoin`: drop empty
segments, keeping the first and last elements. -/
def filterMiddle (segs : List Str) : List Str :=
  match segs with
  | [] => []
  | [x] => [x]
  | x :: rest => x :: (rest.dropLast.filter (fun s => s ≠ []) ++ [rest.getLastD []])

/-- The `..`/`.` resolution loop from `urljoin`. -/
def resolveSegments (segs : List Str) : List Str :=
  segs.foldl (fun acc seg =>
    if seg = ofString ".." then acc.dropLast
    else if seg = ofString "." then acc
    else acc ++ [seg]) []

/-- `urllib.parse.urljoin` (CPython 3.11). -/
def urljoin (base url : Str) : Str :=
  if base = [] then url
  else if url = [] then base
  else
    let b := urlsplit base
    let p := urlsplitD url b.scheme
    if p.scheme ≠ b.scheme || !usesRelative.contains p.scheme then url
    else if usesNetloc.contains p.scheme && p.netloc ≠ [] then urlunsplit p
    else
      let netloc := if usesNetloc.contains p.scheme then b.netloc else p.netloc
      if p.path = [] then
        urlunsplit ⟨p.scheme, netloc, b.path,
          (if p.query = [] then b.query else p.query), p.fragment⟩
      else
        let baseParts := pySplitChar '/' b.path
        let baseParts2 :=
          if baseParts.getLastD [] ≠ [] then baseParts.dropLast else baseParts
        let segments :=
          if startsWithStr (ofString "/") p.path then pySplitChar '/' p.path
          else filterMiddle (baseParts2 ++ pySplitChar '/' p.path)
        let resolved := resolveSegments segments
        let resolved2 :=
          if segments.getLastD [] = ofString "." || segments.getLastD [] = ofString ".." then
            resolved ++ [[]]
          else resolved
        let joined := List.intercalate [ '/' ] resolved2
        urlunsplit ⟨p.scheme, netloc,
          (if joined = [] then ofString "/" else joined), p.query, p.fragment⟩

/- ### Query round trip: `parse_qs (urlencode q) = q` -/

/-- Characters that can appear in `quotePlus` output. -/
def quoteOutOk (c : Char) : Bool :=
  isQuoteSafe c || c = '+' || c = '%' ||
    (65 ≤ c.toNat && c.toNat ≤ 70)

theorem hexDigitC_ok (n : Nat) : quoteOutOk (hexDigitC n) = true := by
  unfold hexDigitC
  split <;> decide

theorem mem_pctRun_ok (bs : List Nat) (c : Char) (hc : c ∈ pctRun bs) :
    quoteOutOk c = true := by
  induction bs with
  | nil => simp [pctRun] at hc
  | cons b rest ih =>
    rw [pctRun] at hc
    simp only [List.mem_cons] at hc
    rcases hc with h | h | h | h
    · subst h; decide
    · rw [h]; exact hexDigitC_ok _
    · rw [h]; exact hexDigitC_ok _
    · exact ih h

theorem mem_quotePlus_ok (s : Str) (c : Char) (hc : c ∈ quotePlus s) :
    quoteOutOk c = true := by
  induction s with
  | nil => simp [quotePlus] at hc
  | cons x rest ih =>
    rw [quotePlus] at hc
    rcases List.mem_append.mp hc with h | h
    · rw [quotePlusChar] at h
      by_cases hsafe : isQuoteSafe x
      · simp only [hsafe, reduceIte, List.mem_singleton] at h
        subst h
        simp [quoteOutOk, hsafe]
      · by_cases hsp : x = ' '
        · have hs2 : isQuoteSafe ' ' = false := by decide
          subst hsp
          simp only [hs2, reduceIte, Bool.false_eq_true, if_false,
            List.mem_singleton] at h
          subst h
          decide
        · simp only [hsafe, hsp, reduceIte, Bool.false_eq_true, if_false] at h
          exact mem_pctRun_ok _ _ h
    · exact ih h

theorem quoteOut_ne (c : Char) (h : quoteOutOk c = true) :
    c ≠ '&' ∧ c ≠ '=' ∧ c ≠ '#' ∧ c ≠ '?' := by
  refine ⟨?_, ?_, ?_, ?_⟩ <;> intro hEq <;> subst hEq <;> exact absurd h (by decide)

theorem not_mem_quotePlus_amp (s : Str) : '&' ∉ quotePlus s := by
  intro h
  exact (quoteOut_ne _ (mem_quotePlus_ok s _ h)).1 rfl

theorem not_mem_quotePlus_eq (s : Str) : '=' ∉ quotePlus s := by
  intro h
  exact (quoteOut_ne _ (mem_quotePlus_ok s _ h)).2.1 rfl

theorem quotePlusChar_ne_nil (c : Char) : quotePlusChar c ≠ [] := by
  rw [quotePlusChar]
  by_cases hsafe : isQuoteSafe c
  · simp [hsafe]
  · by_cases hsp : c = ' '
    · have hs2 : isQuoteSafe ' ' = false := by decide
      subst hsp
      simp [hs2]
    · simp only [hsafe, hsp, reduceIte, Bool.false_eq_true, if_false]
      cases hcc : utf8EncodeChar c with
      | nil => exact absurd hcc (utf8EncodeChar_ne_nil c)
      | cons b bs => rw [pctRun]; simp

theorem quotePlus_ne_nil (s : Str) (h : s ≠ []) : quotePlus s ≠ [] := by
  cases s with
  | nil => exact absurd rfl h
  | cons c rest =>
    rw [quotePlus]
    intro hcontra
    exact quotePlusChar_ne_nil c (List.append_eq_nil.mp hcontra).1

theorem pySplitChar_no_sep (sep : Char) (s : Str) (h : sep ∉ s) :
    pySplitChar sep s = [s] := by
  induction s with
  | nil => rfl
  | cons c rest ih =>
    rw [pySplitChar]
    have hc : c ≠ sep := fun hEq => h (hEq ▸ List.mem_cons_self c rest)
    have hr : sep ∉ rest := fun hmem => h (List.mem_cons_of_mem c hmem)
    simp only [hc, reduceIte, ih hr]

theorem pySplitChar_append (sep : Char) (a b : Str) (h : sep ∉ a) :
    pySplitChar sep (a ++ sep :: b) = a :: pySplitChar sep b := by
  induction a with
  | nil =>
    simp only [List.nil_append]
    rw [pySplitChar]
    simp
  | cons c rest ih =>
    have hc : c ≠ sep := fun hEq => h (hEq ▸ List.mem_cons_self c rest)
    have hr : sep ∉ rest := fun hmem => h (List.mem_cons_of_mem c hmem)
    rw [List.cons_append, pySplitChar]
    simp only [hc, reduceIte, ih hr]

theorem splitOnce_not_mem (sep : Char) (s : Str) (h : sep ∉ s) :
    splitOnce sep s = none := by
  induction s with
  | nil => rfl
  | cons c rest ih =>
    rw [splitOnce]
    have hc : c ≠ sep := fun hEq => h (hEq ▸ List.mem_cons_self c rest)
    have hr : sep ∉ rest := fun hmem => h (List.mem_cons_of_mem c hmem)
    simp only [hc, reduceIte, ih hr]

theorem splitOnce_append_sep (sep : Char) (a b : Str) (h : sep ∉ a) :
    splitOnce sep (a ++ sep :: b) = some (a, b) := by
  induction a with
  | nil =>
    simp only [List.nil_append]
    rw [splitOnce]
    simp
  | cons c rest ih =>
    have hc : c ≠ sep := fun hEq => h (hEq ▸ List.mem_cons_self c rest)
    have hr : sep ∉ rest := fun hmem => h (List.mem_cons_of_mem c hmem)
    rw [List.cons_append, splitOnce]
    simp only [hc, reduceIte, ih hr]

theorem splitOnce_append (sep : Char) (a b : Str) (h : sep ∉ a) :
    splitOnce sep (a ++ b) =
      match splitOnce sep b with
      | some (x, y) => some (a ++ x, y)
      | none => none := by
  induction a with
  | nil =>
    simp only [List.nil_append]
    cases hb : splitOnce sep b with
    | none => simp
    | some xy => simp
  | cons c rest ih =>
    have hc : c ≠ sep := fun hEq => h (hEq ▸ List.mem_cons_self c rest)
    have hr : sep ∉ rest := fun hmem => h (List.mem_cons_of_mem c hmem)
    rw [List.cons_append, splitOnce]
    simp only [hc, reduceIte, ih hr]
    cases hb : splitOnce sep b with
    | none => simp
    | some xy => simp

/-- The flat pair sequence a query dict denotes. -/
def flatPairs (q : List (Str × List Str)) : List (Str × Str) :=
  q.foldr (fun kv acc => kv.2.map (fun v => (kv.1, v)) ++ acc) []

/-- The `k=v` fields `urlencode` produces. -/
def encFields (q : List (Str × List Str)) : List Str :=
  q.foldr (fun kv acc =>
    kv.2.map (fun v => quotePlus kv.1 ++ '=' :: quotePlus v) ++ acc) []

theorem urlencode_eq_join (q : List (Str × List Str)) :
    urlencode q = joinAmp (encFields q) := rfl

theorem mem_encFields (q : List (Str × List Str)) (f : Str) (hf : f ∈ encFields q) :
    ∃ k v, f = quotePlus k ++ '=' :: quotePlus v := by
  induction q with
  | nil => simp [encFields] at hf
  | cons kv rest ih =>
    rw [encFields] at hf
    simp only [List.foldr_cons] at hf
    rcases List.mem_append.mp hf with h | h
    · obtain ⟨v, _, hfv⟩ := List.mem_map.mp h
      exact ⟨kv.1, v, hfv.symm⟩
    · exact ih h

theorem amp_not_mem_encField (k v : Str) : '&' ∉ quotePlus k ++ '=' :: quotePlus v := by
  intro h
  rcases List.mem_append.mp h with h | h
  · exact not_mem_quotePlus_amp k h
  · rcases List.mem_cons.mp h with h | h
    · exact absurd h (by decide)
    · exact not_mem_quotePlus_amp v h

theorem joinAmp_split (fs : List Str) (hne : fs ≠ [])
    (hf : ∀ f ∈ fs, '&' ∉ f) :
    pySplitChar '&' (joinAmp fs) = fs := by
  induction fs with
  | nil => exact absurd rfl hne
  | cons f rest ih =>
    cases rest with
    | nil =>
      rw [joinAmp]
      exact pySplitChar_no_sep '&' f (hf f (by simp))
    | cons f2 r2 =>
      rw [joinAmp]
      rw [pySplitChar_append '&' f _ (hf f (by simp))]
      have ih2 := ih (List.cons_ne_nil f2 r2) (fun x hx => hf x (List.mem_cons_of_mem f hx))
      rw [ih2]

theorem qslDecodeField_enc (k v : Str) (hv : v ≠ []) :
    qslDecodeField (quotePlus k ++ '=' :: quotePlus v) = some (k, v) := by
  rw [qslDecodeField]
  rw [splitOnce_append_sep '=' _ _ (not_mem_quotePlus_eq k)]
  have hvne : quotePlus v ≠ [] := quotePlus_ne_nil v hv
  simp only [hvne, reduceIte]
  rw [unquotePlus_quotePlus, unquotePlus_quotePlus]

theorem fieldBlock_decode (k : Str) (vs : List Str) (hvs : ∀ v ∈ vs, v ≠ []) :
    (vs.map (fun v => quotePlus k ++ '=' :: quotePlus v)).filterMap qslDecodeField =
      vs.map (fun v => (k, v)) := by
  induction vs with
  | nil => rfl
  | cons v rest ih =>
    simp only [List.map_cons, List.filterMap_cons]
    rw [qslDecodeField_enc k v (hvs v (by simp))]
    rw [ih (fun x hx => hvs x (List.mem_cons_of_mem v hx))]

theorem parseQsl_urlencode (q : List (Str × List Str))
    (hv : ∀ kv ∈ q, ∀ v ∈ kv.2, v ≠ []) (hq : q ≠ []) (hqv : ∀ kv ∈ q, kv.2 ≠ []) :
    parseQslPairs (urlencode q) = flatPairs q := by
  have hfs : encFields q ≠ [] := by
    cases q with
    | nil => exact absurd rfl hq
    | cons kv rest =>
      rw [encFields]
      simp only [List.foldr_cons]
      intro hcontra
      have h2 := (List.append_eq_nil.mp hcontra).1
      rw [List.map_eq_nil_iff] at h2
      exact hqv kv (by simp) h2
  have hsplit : pySplitChar '&' (urlencode q) = encFields q := by
    rw [urlencode_eq_join]
    refine joinAmp_split _ hfs ?_
    intro f hf
    obtain ⟨k, v, hfv⟩ := mem_encFields q f hf
    rw [hfv]
    exact amp_not_mem_encField k v
  rw [parseQslPairs, hsplit]
  have hfilter : (encFields q).filter (fun f => f ≠ []) = encFields q := by
    refine List.filter_eq_self.mpr ?_
    intro f hf
    obtain ⟨k, v, hfv⟩ := mem_encFields q f hf
    rw [hfv]
    simp
  rw [hfilter]
  clear hfs hsplit hfilter hq
  induction q with
  | nil => rfl
  | cons kv rest ih =>
    rw [encFields, flatPairs]
    simp only [List.foldr_cons]
    rw [List.filterMap_append]
    rw [fieldBlock_decode kv.1 kv.2 (hv kv (by simp))]
    have hrest := ih (fun kv2 h2 => hv kv2 (List.mem_cons_of_mem kv h2))
      (fun kv2 h2 => hqv kv2 (List.mem_cons_of_mem kv h2))
    rw [encFields, flatPairs] at hrest
    rw [hrest]

/- ### Grouping round trip: `parse_qs (urlencode q) = q` -/

theorem upsert_fresh (k : Str) (v : Str) (d : List (Str × List Str))
    (h : k ∉ d.map Prod.fst) : upsertDict k v d = d ++ [(k, [v])] := by
  induction d with
  | nil => rfl
  | cons kv rest ih =>
    rw [show kv = (kv.1, kv.2) from rfl, upsertDict]
    have hk : k ≠ kv.1 := by
      intro hEq
      exact h (by simp [hEq])
    simp only [hk, reduceIte, List.cons_append]
    rw [ih (fun hmem => h (by simp at hmem ⊢; exact Or.inr hmem))]

theorem upsert_hit (k : Str) (v : Str) (d1 d2 : List (Str × List Str)) (vs : List Str)
    (h : k ∉ d1.map Prod.fst) :
    upsertDict k v (d1 ++ (k, vs) :: d2) = d1 ++ (k, vs ++ [v]) :: d2 := by
  induction d1 with
  | nil =>
    simp only [List.nil_append]
    rw [upsertDict]
    simp
  | cons kv rest ih =>
    rw [List.cons_append, show kv = (kv.1, kv.2) from rfl, upsertDict]
    have hk : k ≠ kv.1 := by
      intro hEq
      exact h (by simp [hEq])
    simp only [hk, reduceIte, List.cons_append]
    rw [ih (fun hmem => h (by simp at hmem ⊢; exact Or.inr hmem))]

theorem foldl_upsert_vals (k : Str) (vs : List Str) (d : List (Str × List Str))
    (acc : List Str) (h : k ∉ d.map Prod.fst) :
    (vs.map (fun v => (k, v))).foldl (fun d kv => upsertDict kv.1 kv.2 d)
      (d ++ [(k, acc)]) = d ++ [(k, acc ++ vs)] := by
  induction vs generalizing acc with
  | nil => simp
  | cons v rest ih =>
    simp only [List.map_cons, List.foldl_cons]
    rw [show d ++ [(k, acc)] = d ++ (k, acc) :: [] from rfl]
    rw [upsert_hit k v d [] acc h]
    rw [show d ++ [(k, acc ++ [v])] = d ++ (k, acc ++ [v]) :: [] from rfl] at *
    have := ih (acc ++ [v])
    rw [this]
    simp

theorem foldl_upsert_flat (q : List (Str × List Str)) (d : List (Str × List Str))
    (hnodup : (q.map Prod.fst).Nodup)
    (hdisj : ∀ k ∈ q.map Prod.fst, k ∉ d.map Prod.fst)
    (hvs : ∀ kv ∈ q, kv.2 ≠ []) :
    (flatPairs q).foldl (fun d kv => upsertDict kv.1 kv.2 d) d = d ++ q := by
  induction q generalizing d with
  | nil => simp [flatPairs]
  | cons kv rest ih =>
    rw [flatPairs]
    simp only [List.foldr_cons]
    rw [show (rest.foldr (fun kv acc => kv.2.map (fun v => (kv.1, v)) ++ acc) []) =
      flatPairs rest from rfl]
    rw [List.foldl_append]
    cases hkv2 : kv.2 with
    | nil => exact absurd hkv2 (hvs kv (by simp))
    | cons v vtl =>
      simp only [List.map_cons, List.foldl_cons]
      have hknotin : kv.1 ∉ d.map Prod.fst := hdisj kv.1 (by simp)
      rw [upsert_fresh kv.1 v d hknotin]
      have hstep := foldl_upsert_vals kv.1 vtl d [v] hknotin
      rw [hstep]
      have hrest := ih (d ++ [(kv.1, [v] ++ vtl)])
        (by simp only [List.map_cons] at hnodup; exact hnodup.of_cons)
        (by
          intro k hk hmem
          simp only [List.map_append, List.mem_append] at hmem
          rcases hmem with hm | hm
          · exact hdisj k (by simp [hk]) hm
          · simp at hm
            simp only [List.map_cons] at hnodup
            rw [hm] at hk
            exact (List.nodup_cons.mp hnodup).1 hk)
        (fun kv2 h2 => hvs kv2 (List.mem_cons_of_mem kv h2))
      rw [hrest]
      simp only [List.append_assoc, List.singleton_append, List.cons_append, List.nil_append]
      have hkveq : (kv.1, v :: vtl) = kv := by rw [← hkv2]
      rw [hkveq]

theorem parse_qs_urlencode (q : List (Str × List Str))
    (hnodup : (q.map Prod.fst).Nodup)
    (hvs : ∀ kv ∈ q, kv.2 ≠ [])
    (hv : ∀ kv ∈ q, ∀ v ∈ kv.2, v ≠ []) :
    parse_qs (urlencode q) = q := by
  cases hq : q with
  | nil => rfl
  | cons kv rest =>
    rw [← hq]
    rw [parse_qs, parseQsl_urlencode q hv (by rw [hq]; exact List.cons_ne_nil kv rest) hvs]
    exact foldl_upsert_flat q [] hnodup (by simp) hvs

/- ### Structural invariants of `parse_qs` output -/

theorem upsert_keys (k : Str) (v : Str) (d : List (Str × List Str)) :
    (upsertDict k v d).map Prod.fst =
      if k ∈ d.map Prod.fst then d.map Prod.fst else d.map Prod.fst ++ [k] := by
  induction d with
  | nil => rfl
  | cons kv rest ih =>
    rw [show kv = (kv.1, kv.2) from rfl, upsertDict]
    by_cases hk : k = kv.1
    · simp [hk]
    · simp only [hk, reduceIte, List.map_cons, ih]
      by_cases hmem : k ∈ rest.map Prod.fst
      · simp [hmem, hk]
      · simp [hmem, hk]

theorem foldl_upsert_nodup (pairs : List (Str × Str)) (d : List (Str × List Str))
    (h : (d.map Prod.fst).Nodup) :
    ((pairs.foldl (fun d kv => upsertDict kv.1 kv.2 d) d).map Prod.fst).Nodup := by
  induction pairs generalizing d with
  | nil => exact h
  | cons kv rest ih =>
    simp only [List.foldl_cons]
    refine ih _ ?_
    rw [upsert_keys]
    by_cases hmem : kv.1 ∈ d.map Prod.fst
    · simp only [hmem, reduceIte]
      exact h
    · simp only [hmem, reduceIte]
      refine List.Nodup.append h (by simp) ?_
      intro x hx1 hx2
      simp only [List.mem_singleton] at hx2
      rw [hx2] at hx1
      exact hmem hx1

theorem parse_qs_keys_nodup (qs : Str) : ((parse_qs qs).map Prod.fst).Nodup := by
  rw [parse_qs]
  exact foldl_upsert_nodup _ [] (by simp)

theorem upsert_mem_val (k : Str) (v : Str) (d : List (Str × List Str))
    (kv : Str × List Str) (hkv : kv ∈ upsertDict k v d) :
    kv ∈ d ∨ kv = (k, [v]) ∨ ∃ kv2 ∈ d, kv = (kv2.1, kv2.2 ++ [v]) := by
  induction d with
  | nil =>
    rw [upsertDict] at hkv
    simp at hkv
    exact Or.inr (Or.inl hkv)
  | cons kv2 rest ih =>
    rw [show kv2 = (kv2.1, kv2.2) from rfl, upsertDict] at hkv
    by_cases hk : k = kv2.1
    · simp only [hk, reduceIte] at hkv
      rcases List.mem_cons.mp hkv with h | h
      · exact Or.inr (Or.inr ⟨(kv2.1, kv2.2), by simp, by rw [h]⟩)
      · exact Or.inl (List.mem_cons_of_mem _ h)
    · simp only [hk, reduceIte] at hkv
      rcases List.mem_cons.mp hkv with h | h
      · exact Or.inl (by rw [h]; simp)
      · rcases ih h with h2 | h2 | h2
        · exact Or.inl (List.mem_cons_of_mem _ h2)
        · exact Or.inr (Or.inl h2)
        · obtain ⟨kv3, hkv3, hEq⟩ := h2
          exact Or.inr (Or.inr ⟨kv3, List.mem_cons_of_mem _ hkv3, hEq⟩)

theorem foldl_upsert_vals_invariant (pairs : List (Str × Str))
    (P : Str → Prop)
    (hpairs : ∀ p ∈ pairs, P p.2) (d : List (Str × List Str))
    (hd : ∀ kv ∈ d, kv.2 ≠ [] ∧ ∀ v ∈ kv.2, P v) :
    ∀ kv ∈ pairs.foldl (fun d kv => upsertDict kv.1 kv.2 d) d,
      kv.2 ≠ [] ∧ ∀ v ∈ kv.2, P v := by
  induction pairs generalizing d with
  | nil => exact hd
  | cons p rest ih =>
    simp only [List.foldl_cons]
    refine ih (fun p2 h2 => hpairs p2 (List.mem_cons_of_mem p h2)) _ ?_
    intro kv hkv
    rcases upsert_mem_val p.1 p.2 d kv hkv with h | h | h
    · exact hd kv h
    · rw [h]
      refine ⟨by simp, ?_⟩
      intro v hv
      simp at hv
      rw [hv]
      exact hpairs p (by simp)
    · obtain ⟨kv2, hkv2, hEq⟩ := h
      rw [hEq]
      refine ⟨by simp, ?_⟩
      intro v hv
      simp only [List.mem_append, List.mem_singleton] at hv
      rcases hv with hv | hv
      · exact (hd kv2 hkv2).2 v hv
      · rw [hv]
        exact hpairs p (by simp)

theorem utf8Decode_cons_ne_nil (b : Nat) (bs : List Nat) : utf8Decode (b :: bs) ≠ [] := by
  rw [utf8Decode, List.length_cons, utf8DecodeAux]
  by_cases h1 : b < 0x80
  · simp [h1]
  · simp only [h1, reduceIte]
    split <;> simp

theorem unquote_ne_nil (s : Str) (h : s ≠ []) : unquote s ≠ [] := by
  cases s with
  | nil => exact absurd rfl h
  | cons c rest =>
    rw [unquote, List.length_cons, unquoteAux]
    by_cases hp : (takePct (c :: rest)).1 = []
    · rw [if_pos hp]
      simp
    · rw [if_neg hp]
      cases hfst : (takePct (c :: rest)).1 with
      | nil => exact absurd hfst hp
      | cons b bs =>
        intro hcontra
        exact utf8Decode_cons_ne_nil b bs (List.append_eq_nil.mp hcontra).1

theorem unquotePlus_ne_nil (s : Str) (h : s ≠ []) : unquotePlus s ≠ [] := by
  rw [unquotePlus]
  refine unquote_ne_nil _ ?_
  cases s with
  | nil => exact absurd rfl h
  | cons c rest => simp

theorem parseQsl_snd_ne_nil (qs : Str) (p : Str × Str) (hp : p ∈ parseQslPairs qs) :
    p.2 ≠ [] := by
  rw [parseQslPairs] at hp
  obtain ⟨nv, _, hnv⟩ := List.mem_filterMap.mp hp
  rw [qslDecodeField] at hnv
  split at hnv
  · exact absurd hnv (by simp)
  · rename_i nm value heq
    split at hnv
    · exact absurd hnv (by simp)
    · rename_i hvne
      have := Option.some.inj hnv
      rw [← this]
      exact unquotePlus_ne_nil value hvne

theorem parse_qs_vals (qs : Str) :
    ∀ kv ∈ parse_qs qs, kv.2 ≠ [] ∧ ∀ v ∈ kv.2, v ≠ [] := by
  rw [parse_qs]
  exact foldl_upsert_vals_invariant (parseQslPairs qs) (fun v => v ≠ [])
    (fun p hp => parseQsl_snd_ne_nil qs p hp) [] (by simp)

/- ### Stability: `urlsplit (urlunsplit p) = p` for parse-shaped parts -/

theorem splitOnce_eq_some (sep : Char) (s a b : Str) (h : splitOnce sep s = some (a, b)) :
    s = a ++ sep :: b ∧ sep ∉ a := by
  induction s generalizing a b with
  | nil => simp [splitOnce] at h
  | cons c rest ih =>
    rw [splitOnce] at h
    by_cases hc : c = sep
    · simp only [hc, reduceIte, Option.some.injEq, Prod.mk.injEq] at h
      rw [← h.1, ← h.2]
      simp [hc]
    · simp only [hc, reduceIte] at h
      cases hr : splitOnce sep rest with
      | none => rw [hr] at h; simp at h
      | some ab =>
        rw [hr] at h
        simp only [Option.some.injEq] at h
        have hab : ab = (ab.1, ab.2) := rfl
        have hih := ih ab.1 ab.2 (by rw [hr, hab])
        have h1 : c :: ab.1 = a := by
          have := congrArg Prod.fst h
          simpa using this
        have h2 : ab.2 = b := by
          have := congrArg Prod.snd h
          simpa using this
        rw [← h1, ← h2]
        constructor
        · rw [List.cons_append, hih.1]
        · intro hmem
          rcases List.mem_cons.mp hmem with hm | hm
          · exact hc hm.symm
          · exact hih.2 hm

theorem splitOnce_eq_none (sep : Char) (s : Str) (h : splitOnce sep s = none) : sep ∉ s := by
  induction s with
  | nil => simp
  | cons c rest ih =>
    rw [splitOnce] at h
    by_cases hc : c = sep
    · simp [hc] at h
    · simp only [hc, reduceIte] at h
      cases hr : splitOnce sep rest with
      | none =>
        intro hmem
        rcases List.mem_cons.mp hmem with hm | hm
        · exact hc hm.symm
        · exact ih hr hm
      | some ab => rw [hr] at h; simp at h

/-- A character that cannot begin a scheme makes scheme detection fail. -/
theorem splitScheme_fail_head (c : Char) (t : Str) (h : isAsciiAlphaC c = false) :
    splitScheme (c :: t) = ([], c :: t) := by
  rw [splitScheme]
  by_cases hc : c = ':'
  · subst hc
    rw [show splitOnce ':' (':' :: t) = some ([], t) by rw [splitOnce]; simp]
  · rw [splitOnce]
    simp only [hc, reduceIte]
    cases hr : splitOnce ':' t with
    | none => simp
    | some ab =>
      simp only [h, Bool.false_and, Bool.false_eq_true, if_false]

theorem splitScheme_pos (sch rest : Str) (hne : sch ≠ [])
    (halpha : isAsciiAlphaC (sch.headD ' ') = true) (hall : sch.all isSchemeChar = true) :
    splitScheme (sch ++ ':' :: rest) = (pyLower sch, rest) := by
  have hnc : ':' ∉ sch := by
    intro hmem
    have := List.all_eq_true.mp hall _ hmem
    exact absurd this (by decide)
  rw [splitScheme, splitOnce_append_sep ':' sch rest hnc]
  cases sch with
  | nil => exact absurd rfl hne
  | cons c0 t =>
    simp only [List.headD_cons] at halpha
    simp only [halpha, hall, Bool.and_self, reduceIte]

/-- Scheme detection failure transfers from a string to any of its prefixes. -/
theorem splitScheme_fail_of_prefix (u pre t : Str) (hu : u = pre ++ t)
    (hfail : splitScheme u = ([], u)) : splitScheme pre = ([], pre) := by
  cases hmem : decide (':' ∈ pre) with
  | false =>
    have : ':' ∉ pre := of_decide_eq_false hmem
    rw [splitScheme, splitOnce_not_mem ':' pre this]
  | true =>
    have hin : ':' ∈ pre := of_decide_eq_true hmem
    obtain ⟨a, b, hab⟩ : ∃ a b, splitOnce ':' pre = some (a, b) := by
      clear hfail hu hmem
      induction pre with
      | nil => simp at hin
      | cons c rest ih =>
        rw [splitOnce]
        by_cases hc : c = ':'
        · exact ⟨[], rest, by simp [hc]⟩
        · have : ':' ∈ rest := by
            rcases List.mem_cons.mp hin with hm | hm
            · exact absurd hm.symm hc
            · exact hm
          obtain ⟨a2, b2, hab2⟩ := ih this
          exact ⟨c :: a2, b2, by simp [hc, hab2]⟩
    obtain ⟨hpre, hna⟩ := splitOnce_eq_some ':' pre a b hab
    have huo : splitOnce ':' u = some (a, b ++ t) := by
      rw [hu, hpre]
      rw [show (a ++ ':' :: b) ++ t = a ++ ':' :: (b ++ t) by simp]
      exact splitOnce_append_sep ':' a (b ++ t) hna
    rw [splitScheme, hab]
    rw [splitScheme, huo] at hfail
    cases a with
    | nil => rfl
    | cons c0 t0 =>
      by_cases hchk : isAsciiAlphaC c0 && (c0 :: t0).all isSchemeChar
      · simp only [hchk, reduceIte] at hfail
        have : pyLower (c0 :: t0) ≠ [] := by simp [pyLower]
        exact absurd (congrArg Prod.fst hfail) (by simpa using this)
      · simp only [hchk, Bool.false_eq_true, if_false]

/-- Scheme detection failure extends across a `?`- or `#`-headed tail. -/
theorem splitScheme_fail_append (pre t : Str)
    (hfail : splitScheme pre = ([], pre))
    (ht : t = [] ∨ t.headD ' ' = '?' ∨ t.headD ' ' = '#') :
    splitScheme (pre ++ t) = ([], pre ++ t) := by
  cases hmem : decide (':' ∈ pre) with
  | true =>
    have hin : ':' ∈ pre := of_decide_eq_true hmem
    obtain ⟨a, b, hab⟩ : ∃ a b, splitOnce ':' pre = some (a, b) := by
      clear hfail ht hmem
      induction pre with
      | nil => simp at hin
      | cons c rest ih =>
        rw [splitOnce]
        by_cases hc : c = ':'
        · exact ⟨[], rest, by simp [hc]⟩
        · have : ':' ∈ rest := by
            rcases List.mem_cons.mp hin with hm | hm
            · exact absurd hm.symm hc
            · exact hm
          obtain ⟨a2, b2, hab2⟩ := ih this
          exact ⟨c :: a2, b2, by simp [hc, hab2]⟩
    obtain ⟨hpre, hna⟩ := splitOnce_eq_some ':' pre a b hab
    have huo : splitOnce ':' (pre ++ t) = some (a, b ++ t) := by
      rw [hpre]
      rw [show (a ++ ':' :: b) ++ t = a ++ ':' :: (b ++ t) by simp]
      exact splitOnce_append_sep ':' a (b ++ t) hna
    rw [splitScheme, huo]
    rw [splitScheme, hab] at hfail
    cases a with
    | nil => rfl
    | cons c0 t0 =>
      by_cases hchk : isAsciiAlphaC c0 && (c0 :: t0).all isSchemeChar
      · simp only [hchk, reduceIte] at hfail
        have : pyLower (c0 :: t0) ≠ [] := by simp [pyLower]
        exact absurd (congrArg Prod.fst hfail) (by simpa using this)
      · simp only [hchk, Bool.false_eq_true, if_false]
  | false =>
    have hnpre : ':' ∉ pre := of_decide_eq_false hmem
    rw [splitScheme]
    rw [splitOnce_append ':' pre t hnpre]
    cases hrt : splitOnce ':' t with
    | none => simp
    | some ab =>
      obtain ⟨hteq, hna⟩ := splitOnce_eq_some ':' t ab.1 ab.2 (by rw [hrt])
      -- the tail starts with '?' or '#', so the candidate scheme contains it
      have htne : t ≠ [] := by
        rw [hteq]
        simp
      have hhead : t.headD ' ' = '?' ∨ t.headD ' ' = '#' := by
        rcases ht with h | h | h
        · exact absurd h htne
        · exact Or.inl h
        · exact Or.inr h
      simp only
      cases hcand : pre ++ ab.1 with
      | nil => rfl
      | cons c0 t0 =>
        -- the '?' or '#' head of t lies inside pre ++ ab.1
        have hbad : ∃ c2 ∈ pre ++ ab.1, isSchemeChar c2 = false := by
          cases hab1 : ab.1 with
          | nil =>
            -- then t starts with ':', contradicting the head hypothesis
            rw [hab1] at hteq
            rw [hteq] at hhead
            simp only [List.nil_append, List.headD_cons] at hhead
            rcases hhead with h | h <;> exact absurd h (by decide)
          | cons tc tt =>
            refine ⟨tc, by simp [hab1], ?_⟩
            rw [hab1] at hteq
            rw [hteq] at hhead
            simp only [List.cons_append, List.headD_cons] at hhead
            rcases hhead with h | h <;> rw [h] <;> decide
        obtain ⟨c2, hc2mem, hc2⟩ := hbad
        have hallf : ((pre ++ ab.1).all isSchemeChar) = false := by
          refine Bool.eq_false_iff.mpr ?_
          intro hall
          have h3 := List.all_eq_true.mp hall c2 hc2mem
          rw [hc2] at h3
          exact Bool.false_ne_true h3
        rw [hcand] at hallf
        simp only [hallf, Bool.and_false, Bool.false_eq_true, if_false]

theorem takeWhile_append_all (p : Char → Bool) (a b : Str) (ha : ∀ c ∈ a, p c = true)
    (hb : b = [] ∨ p (b.headD ' ') = false) :
    (a ++ b).takeWhile p = a ∧ (a ++ b).dropWhile p = b := by
  induction a with
  | nil =>
    simp only [List.nil_append]
    rcases hb with h | h
    · simp [h]
    · cases b with
      | nil => simp
      | cons c t =>
        simp only [List.headD_cons] at h
        simp [List.takeWhile_cons, List.dropWhile_cons, h]
  | cons c rest ih =>
    have hc : p c = true := ha c (by simp)
    simp only [List.cons_append, List.takeWhile_cons, List.dropWhile_cons, hc, if_true]
    have := ih (fun x hx => ha x (List.mem_cons_of_mem c hx))
    exact ⟨by rw [this.1], this.2⟩

theorem dropWhile_head_false (p : Char → Bool) (l t : Str) (c : Char)
    (h : l.dropWhile p = c :: t) : p c = false := by
  induction l with
  | nil => simp at h
  | cons x rest ih =>
    rw [List.dropWhile_cons] at h
    by_cases hx : p x
    · simp only [hx, if_true] at h
      exact ih h
    · simp only [hx, Bool.false_eq_true, if_false] at h
      injection h with h1 _
      rw [← h1]
      exact Bool.eq_false_iff.mpr hx

/-- The shape of `urlsplit` results: exactly the conditions under which
`urlunsplit` then `urlsplit` is the identity. -/
structure PartsWF (p : UrlParts) : Prop where
  scheme_ok : p.scheme = [] ∨
    (p.scheme ≠ [] ∧ isAsciiAlphaC (p.scheme.headD ' ') = true ∧
      p.scheme.all isSchemeChar = true ∧ pyLower p.scheme = p.scheme)
  netloc_ok : ∀ c ∈ p.netloc, notNetlocEnd c = true
  path_nq : '?' ∉ p.path
  path_nf : '#' ∉ p.path
  query_nf : '#' ∉ p.query
  netloc_path : p.netloc ≠ [] →
    p.path = [] ∨ startsWithStr (ofString "/") p.path = true
  no_scheme_path : p.scheme = [] → splitScheme p.path = ([], p.path)

theorem startsWith_slash_iff (s : Str) :
    startsWithStr (ofString "/") s = true ↔ ∃ t, s = '/' :: t := by
  cases s with
  | nil => simp [startsWithStr, ofString, List.isPrefixOf]
  | cons c t =>
    simp only [startsWithStr, ofString]
    constructor
    · intro h
      simp [List.isPrefixOf] at h
      exact ⟨t, by rw [← h]⟩
    · intro ⟨t2, ht2⟩
      injection ht2 with h1 h2
      rw [h1, h2]
      simp [List.isPrefixOf]

theorem startsWith_slash2_iff (s : Str) :
    startsWithStr (ofString "//") s = true ↔ ∃ t, s = '/' :: '/' :: t := by
  match s with
  | [] => simp [startsWithStr, ofString, List.isPrefixOf]
  | [c] =>
    simp only [startsWithStr, ofString]
    constructor
    · intro h
      simp [List.isPrefixOf] at h
    · intro ⟨t2, ht2⟩
      exact absurd ht2 (by simp)
  | c1 :: c2 :: t =>
    simp only [startsWithStr, ofString]
    constructor
    · intro h
      simp [List.isPrefixOf] at h
      exact ⟨t, by rw [← h.1, ← h.2]⟩
    · intro ⟨t2, ht2⟩
      injection ht2 with h1 h2
      injection h2 with h2 h3
      rw [h1, h2, h3]
      simp [List.isPrefixOf]

/-- The query/fragment tail appended by `urlunsplit`. -/
def qfTail (p : UrlParts) : Str :=
  (if p.query ≠ [] then '?' :: p.query else []) ++
    (if p.fragment ≠ [] then '#' :: p.fragment else [])

theorem qfTail_head (p : UrlParts) :
    qfTail p = [] ∨ (qfTail p).headD ' ' = '?' ∨ (qfTail p).headD ' ' = '#' := by
  rw [qfTail]
  by_cases hq : p.query = []
  · by_cases hf : p.fragment = []
    · simp [hq, hf]
    · simp [hq, hf]
  · simp [hq]

theorem qfTail_no_hash_before (p : UrlParts) (hq : '#' ∉ p.query) :
    '#' ∉ (if p.query ≠ [] then '?' :: p.query else []) := by
  by_cases hqe : p.query = []
  · simp [hqe]
  · simp only [hqe, ne_eq, not_false_eq_true, reduceIte]
    intro hmem
    rcases List.mem_cons.mp hmem with h | h
    · exact absurd h.symm (by decide)
    · exact hq h

theorem urlunsplit_no_prepend (p : UrlParts) (wf : PartsWF p) :
    urlunsplit p =
      (if p.scheme ≠ [] then p.scheme ++ [':'] else []) ++
        (if p.netloc ≠ [] || startsWithStr (ofString "//") p.path then
          '/' :: '/' :: (p.netloc ++ p.path) else p.path) ++ qfTail p := by
  simp only [urlunsplit]
  by_cases hb : p.netloc ≠ [] || startsWithStr (ofString "//") p.path
  · have hnoprep : (p.path ≠ [] && !startsWithStr (ofString "/") p.path) = false := by
      rcases (Bool.or_eq_true _ _).mp hb with h | h
      · have hn : p.netloc ≠ [] := by simpa using h
        rcases wf.netloc_path hn with h2 | h2
        · simp [h2]
        · simp [h2]
      · obtain ⟨t, ht⟩ := (startsWith_slash2_iff p.path).mp h
        have : startsWithStr (ofString "/") p.path = true := by
          rw [ht]
          exact (startsWith_slash_iff _).mpr ⟨'/' :: t, rfl⟩
        simp [this]
    simp only [hb, if_true, hnoprep, Bool.false_eq_true, if_false]
    by_cases hs : p.scheme = []
    · simp [hs, qfTail, ofString]
      by_cases hq : p.query = [] <;> by_cases hf : p.fragment = [] <;>
        simp [hq, hf]
    · simp [hs, qfTail, ofString]
      by_cases hq : p.query = [] <;> by_cases hf : p.fragment = [] <;>
        simp [hq, hf]
  · simp only [hb, Bool.false_eq_true, if_false]
    by_cases hs : p.scheme = []
    · simp [hs, qfTail]
      by_cases hq : p.query = [] <;> by_cases hf : p.fragment = [] <;>
        simp [hq, hf]
    · simp [hs, qfTail]
      by_cases hq : p.query = [] <;> by_cases hf : p.fragment = [] <;>
        simp [hq, hf]

theorem if_nil_self (s : Str) : (if s = [] then ([] : Str) else s) = s := by
  by_cases h : s = [] <;> simp [h]

/-- Scheme step of the stability proof: the scheme prefix written by
`urlunsplit` is recovered by `splitScheme`. -/
theorem splitScheme_out (s rest : Str)
    (hS : s = [] ∨ (s ≠ [] ∧ isAsciiAlphaC (s.headD ' ') = true ∧
      s.all isSchemeChar = true ∧ pyLower s = s))
    (hfail : s = [] → splitScheme rest = ([], rest)) :
    splitScheme ((if s ≠ [] then s ++ [':'] else []) ++ rest) = (s, rest) := by
  by_cases hs : s = []
  · simp only [hs, ne_eq, not_true_eq_false, Bool.false_eq_true, if_false, List.nil_append]
    rw [hfail hs]
  · rcases hS with h | ⟨_, halpha, hall, hlow⟩
    · exact absurd h hs
    · simp only [hs, ne_eq, not_false_eq_true, if_true]
      rw [show (s ++ [':']) ++ rest = s ++ ':' :: rest by simp]
      rw [splitScheme_pos s rest hs halpha hall, hlow]

theorem notNetlocEnd_qm : notNetlocEnd '?' = false := by decide

theorem notNetlocEnd_hash : notNetlocEnd '#' = false := by decide

theorem tail_shape_head (T : Str) (hT : T = [] ∨ T.headD ' ' = '?' ∨ T.headD ' ' = '#') :
    T = [] ∨ ∃ t2, (T = '?' :: t2 ∨ T = '#' :: t2) := by
  cases T with
  | nil => exact Or.inl rfl
  | cons c t2 =>
    rcases hT with h | h | h
    · exact absurd h (by simp)
    · simp only [List.headD_cons] at h
      exact Or.inr ⟨t2, Or.inl (by rw [h])⟩
    · simp only [List.headD_cons] at h
      exact Or.inr ⟨t2, Or.inr (by rw [h])⟩

theorem netloc_stop_head (pa T : Str) (hpa : pa = [] ∨ ∃ t, pa = '/' :: t)
    (hT : T = [] ∨ T.headD ' ' = '?' ∨ T.headD ' ' = '#') :
    pa ++ T = [] ∨ notNetlocEnd ((pa ++ T).headD ' ') = false := by
  rcases hpa with h | ⟨t, ht⟩
  · rw [h, List.nil_append]
    rcases tail_shape_head T hT with h2 | ⟨t2, h2 | h2⟩
    · exact Or.inl h2
    · rw [h2]
      refine Or.inr ?_
      rw [List.headD_cons]
      decide
    · rw [h2]
      refine Or.inr ?_
      rw [List.headD_cons]
      decide
  · rw [ht]
    refine Or.inr ?_
    simp only [List.cons_append, List.headD_cons]
    decide

theorem no_slash2_append (pa T : Str)
    (hnost : startsWithStr (ofString "//") pa = false)
    (hT : T = [] ∨ T.headD ' ' = '?' ∨ T.headD ' ' = '#') :
    startsWithStr (ofString "//") (pa ++ T) = false := by
  refine Bool.eq_false_iff.mpr ?_
  intro hcontra
  obtain ⟨t, ht⟩ := (startsWith_slash2_iff _).mp hcontra
  match pa, ht with
  | [], ht =>
    simp only [List.nil_append] at ht
    rcases tail_shape_head T hT with h2 | ⟨t2, h2 | h2⟩ <;> rw [h2] at ht <;>
      first
        | exact List.noConfusion ht
        | (injection ht with h3 _; exact absurd h3 (by decide))
  | [c], ht =>
    simp only [List.cons_append, List.nil_append] at ht
    injection ht with h1 h2
    rcases tail_shape_head T hT with h3 | ⟨t2, h3 | h3⟩ <;> rw [h3] at h2 <;>
      first
        | exact List.noConfusion h2
        | (injection h2 with h4 _; exact absurd h4 (by decide))
  | c1 :: c2 :: t2, ht =>
    simp only [List.cons_append] at ht
    injection ht with h1 h2
    injection h2 with h2 h3
    rw [h1, h2] at hnost
    have : startsWithStr (ofString "//") ('/' :: '/' :: t2) = true :=
      (startsWith_slash2_iff _).mpr ⟨t2, rfl⟩
    rw [this] at hnost
    exact absurd hnost (by decide)

theorem urlsplit_urlunsplit (p : UrlParts) (wf : PartsWF p) :
    urlsplit (urlunsplit p) = p := by
  obtain ⟨s, n, pa, q, f⟩ := p
  have wfS := wf.scheme_ok
  have wfN := wf.netloc_ok
  have wfPQ := wf.path_nq
  have wfPF := wf.path_nf
  have wfQF := wf.query_nf
  have wfNP := wf.netloc_path
  have wfNS := wf.no_scheme_path
  simp only at wfS wfN wfPQ wfPF wfQF wfNP wfNS
  rw [urlunsplit_no_prepend _ wf]
  simp only
  have htail := qfTail_head ⟨s, n, pa, q, f⟩
  have htailhash : '#' ∉ pa ++ (if q ≠ [] then '?' :: q else []) := by
    intro hmem
    rcases List.mem_append.mp hmem with h | h
    · exact wfPF h
    · exact qfTail_no_hash_before ⟨s, n, pa, q, f⟩ wfQF h
  have hquery : splitQueryStage (pa ++ (if q ≠ [] then '?' :: q else [])) = (pa, q) := by
    rw [splitQueryStage]
    by_cases hq : q = []
    · simp only [hq, ne_eq, not_true_eq_false, Bool.false_eq_true, if_false, List.append_nil]
      rw [splitOnce_not_mem '?' pa wfPQ]
    · simp only [hq, ne_eq, not_false_eq_true, if_true]
      rw [splitOnce_append_sep '?' pa q wfPQ]
  have hfrag : splitFragStage (pa ++ qfTail ⟨s, n, pa, q, f⟩) =
      (pa ++ (if q ≠ [] then '?' :: q else []), f) := by
    rw [splitFragStage, qfTail]
    simp only
    by_cases hf : f = []
    · simp only [hf, ne_eq, not_true_eq_false, Bool.false_eq_true, if_false, List.append_nil]
      rw [splitOnce_not_mem '#' _ htailhash]
    · simp only [hf, ne_eq, not_false_eq_true, if_true]
      rw [show pa ++ ((if q ≠ [] then '?' :: q else []) ++ '#' :: f) =
        (pa ++ (if q ≠ [] then '?' :: q else [])) ++ '#' :: f by simp]
      rw [splitOnce_append_sep '#' _ f htailhash]
  by_cases hb : n ≠ [] || startsWithStr (ofString "//") pa
  · -- netloc branch: the body is "//" ++ n ++ pa
    simp only [hb, if_true]
    have hpahead : pa = [] ∨ ∃ t, pa = '/' :: t := by
      rcases (Bool.or_eq_true _ _).mp hb with h | h
      · have hn : n ≠ [] := by simpa using h
        rcases wfNP hn with h2 | h2
        · exact Or.inl h2
        · exact Or.inr ((startsWith_slash_iff pa).mp h2)
      · obtain ⟨t, ht⟩ := (startsWith_slash2_iff pa).mp h
        exact Or.inr ⟨'/' :: t, ht⟩
    have hrest := netloc_stop_head pa (qfTail ⟨s, n, pa, q, f⟩) hpahead htail
    have htw := takeWhile_append_all notNetlocEnd n (pa ++ qfTail ⟨s, n, pa, q, f⟩) wfN hrest
    have hsch : splitScheme ((if s ≠ [] then s ++ [':'] else []) ++
        ('/' :: '/' :: (n ++ (pa ++ qfTail ⟨s, n, pa, q, f⟩)))) =
        (s, '/' :: '/' :: (n ++ (pa ++ qfTail ⟨s, n, pa, q, f⟩))) := by
      refine splitScheme_out s _ wfS ?_
      intro _
      exact splitScheme_fail_head '/' _ (by decide)
    rw [urlsplit, urlsplitD.eq_def]
    simp only [List.append_assoc, List.cons_append]
    simp only [hsch, if_nil_self]
    have hstart : startsWithStr (ofString "//")
        ('/' :: '/' :: (n ++ (pa ++ qfTail ⟨s, n, pa, q, f⟩))) = true := by
      refine (startsWith_slash2_iff _).mpr ?_
      exact ⟨n ++ (pa ++ qfTail ⟨s, n, pa, q, f⟩), rfl⟩
    rw [splitNetlocStage]
    simp only [hstart, if_true, List.drop_succ_cons, List.drop_zero]
    rw [htw.1, htw.2]
    simp only [hfrag, hquery]
  · -- no netloc: the body is just the path
    simp only [hb, Bool.false_eq_true, if_false]
    have hn : n = [] := by
      by_cases h : n = []
      · exact h
      · exact absurd (by simp [h] : (n ≠ [] || startsWithStr (ofString "//") pa) = true) hb
    have hnost : startsWithStr (ofString "//") pa = false := by
      by_cases h : startsWithStr (ofString "//") pa
      · exact absurd (by simp [h] : (n ≠ [] || startsWithStr (ofString "//") pa) = true) hb
      · exact Bool.eq_false_iff.mpr h
    have hsch : splitScheme ((if s ≠ [] then s ++ [':'] else []) ++
        (pa ++ qfTail ⟨s, n, pa, q, f⟩)) = (s, pa ++ qfTail ⟨s, n, pa, q, f⟩) := by
      refine splitScheme_out s _ wfS ?_
      intro hs
      exact splitScheme_fail_append pa _ (wfNS hs) htail
    rw [urlsplit, urlsplitD.eq_def]
    simp only [List.append_assoc, List.cons_append]
    simp only [hsch, if_nil_self]
    have hnostart := no_slash2_append pa (qfTail ⟨s, n, pa, q, f⟩) hnost htail
    rw [splitNetlocStage]
    simp only [hnostart, Bool.false_eq_true, if_false]
    simp only [hfrag, hquery]
    rw [hn]

/- ### `urlsplit` outputs are well-formed -/

theorem lowerC_props (c : Char) :
    (isAsciiAlphaC c = true → isAsciiAlphaC (lowerC c) = true) ∧
    (isSchemeChar c = true → isSchemeChar (lowerC c) = true) ∧
    lowerC (lowerC c) = lowerC c := by
  by_cases h : (65 ≤ c.toNat && c.toNat ≤ 90) = true
  · have hcc : lowerC c = Char.ofNat (c.toNat + 32) := by rw [lowerC, if_pos h]
    have hb : 65 ≤ c.toNat ∧ c.toNat ≤ 90 := by simpa using h
    have hval : (Char.ofNat (c.toNat + 32)).toNat = c.toNat + 32 :=
      toNat_ofNat_valid _ (Or.inl (by omega))
    rw [hcc]
    have hrange : 97 ≤ (Char.ofNat (c.toNat + 32)).toNat ∧
        (Char.ofNat (c.toNat + 32)).toNat ≤ 122 := by
      rw [hval]
      omega
    refine ⟨?_, ?_, ?_⟩
    · intro _
      simp only [isAsciiAlphaC, Bool.or_eq_true, Bool.and_eq_true, decide_eq_true_eq]
      exact Or.inr hrange
    · intro _
      simp only [isSchemeChar, isAsciiAlphaC, isAsciiDigitC, Bool.or_eq_true,
        Bool.and_eq_true, decide_eq_true_eq]
      exact Or.inl (Or.inl (Or.inl (Or.inl (Or.inr hrange))))
    · rw [lowerC, hval]
      have hno : ¬ ((65 ≤ c.toNat + 32 && c.toNat + 32 ≤ 90) = true) := by
        simp only [Bool.and_eq_true, decide_eq_true_eq]
        omega
      rw [if_neg hno]
  · have hcc : lowerC c = c := by rw [lowerC, if_neg h]
    rw [hcc]
    exact ⟨fun h2 => h2, fun h2 => h2, hcc⟩

theorem pyLower_scheme_props (s : Str) (hne : s ≠ [])
    (halpha : isAsciiAlphaC (s.headD ' ') = true)
    (hall : s.all isSchemeChar = true) :
    pyLower s ≠ [] ∧ isAsciiAlphaC ((pyLower s).headD ' ') = true ∧
      (pyLower s).all isSchemeChar = true ∧ pyLower (pyLower s) = pyLower s := by
  cases s with
  | nil => exact absurd rfl hne
  | cons c t =>
    simp only [List.headD_cons] at halpha
    refine ⟨by simp [pyLower], ?_, ?_, ?_⟩
    · simp only [pyLower, List.map_cons, List.headD_cons]
      exact (lowerC_props c).1 halpha
    · simp only [pyLower, List.all_eq_true] at hall ⊢
      intro x hx
      obtain ⟨y, hy, hxy⟩ := List.mem_map.mp hx
      rw [← hxy]
      exact (lowerC_props y).2.1 (hall y hy)
    · simp only [pyLower, List.map_map]
      refine List.map_congr_left ?_
      intro x _
      exact (lowerC_props x).2.2

/-- Characterization of `splitScheme` results. -/
theorem splitScheme_spec (u : Str) :
    splitScheme u = ([], u) ∨
    (∃ bef aft, splitScheme u = (pyLower bef, aft) ∧ bef ≠ [] ∧
      isAsciiAlphaC (bef.headD ' ') = true ∧ bef.all isSchemeChar = true ∧
      u = bef ++ ':' :: aft) := by
  cases hso : splitOnce ':' u with
  | none => exact Or.inl (by rw [splitScheme, hso])
  | some ab =>
    obtain ⟨a1, a2⟩ := ab
    obtain ⟨hu, hna⟩ := splitOnce_eq_some ':' u a1 a2 hso
    cases hab1 : a1 with
    | nil => exact Or.inl (by rw [splitScheme, hso, hab1])
    | cons c0 t0 =>
      by_cases hchk : (isAsciiAlphaC c0 && (c0 :: t0).all isSchemeChar) = true
      · refine Or.inr ⟨c0 :: t0, a2, ?_, by simp, ?_, ?_, ?_⟩
        · rw [splitScheme, hso, hab1]
          simp only [hchk, reduceIte]
        · simpa using ((Bool.and_eq_true _ _).mp hchk).1
        · exact ((Bool.and_eq_true _ _).mp hchk).2
        · rw [hu, hab1]
      · refine Or.inl ?_
        rw [splitScheme, hso, hab1]
        simp only [hchk, Bool.false_eq_true, if_false]

theorem notNetlocEnd_false_iff (c : Char) :
    notNetlocEnd c = false ↔ (c = '/' ∨ c = '?' ∨ c = '#') := by
  rw [notNetlocEnd]
  by_cases h1 : c = '/'
  · simp [h1]
  · by_cases h2 : c = '?'
    · simp [h1, h2]
    · by_cases h3 : c = '#'
      · simp [h1, h2, h3]
      · simp [h1, h2, h3]

/-- The path produced by the fragment/query stages is a prefix of their
input, and contains no `?` or `#`; the query contains no `#`. -/
theorem fragQuery_spec (rest2 : Str) :
    (∃ t, rest2 = (splitQueryStage (splitFragStage rest2).1).1 ++ t) ∧
    '?' ∉ (splitQueryStage (splitFragStage rest2).1).1 ∧
    '#' ∉ (splitQueryStage (splitFragStage rest2).1).1 ∧
    '#' ∉ (splitQueryStage (splitFragStage rest2).1).2 := by
  have hfr : ∃ tf, rest2 = (splitFragStage rest2).1 ++ tf ∧ '#' ∉ (splitFragStage rest2).1 := by
    rw [splitFragStage]
    cases hso : splitOnce '#' rest2 with
    | none =>
      exact ⟨[], by simp, splitOnce_eq_none '#' rest2 hso⟩
    | some ab =>
      obtain ⟨a1, a2⟩ := ab
      obtain ⟨hu, hna⟩ := splitOnce_eq_some '#' rest2 a1 a2 hso
      exact ⟨'#' :: a2, by simpa using hu, hna⟩
  obtain ⟨tf, hrest2, hnf⟩ := hfr
  have hpq : ∃ tq, (splitFragStage rest2).1 =
      (splitQueryStage (splitFragStage rest2).1).1 ++ tq ∧
      '?' ∉ (splitQueryStage (splitFragStage rest2).1).1 ∧
      ∀ c ∈ (splitQueryStage (splitFragStage rest2).1).2, c ∈ (splitFragStage rest2).1 := by
    rw [splitQueryStage]
    cases hso : splitOnce '?' (splitFragStage rest2).1 with
    | none =>
      exact ⟨[], by simp, splitOnce_eq_none '?' _ hso, by simp⟩
    | some ab =>
      obtain ⟨a1, a2⟩ := ab
      obtain ⟨hu, hna⟩ := splitOnce_eq_some '?' (splitFragStage rest2).1 a1 a2 hso
      refine ⟨'?' :: a2, by simpa using hu, hna, ?_⟩
      intro c hc
      rw [hu]
      simp [hc]
  obtain ⟨tq, hfr1, hnq, hqmem⟩ := hpq
  have hdecomp : rest2 = (splitQueryStage (splitFragStage rest2).1).1 ++ (tq ++ tf) := by
    calc rest2 = (splitFragStage rest2).1 ++ tf := hrest2
      _ = ((splitQueryStage (splitFragStage rest2).1).1 ++ tq) ++ tf := by
          conv_lhs => rw [hfr1]
      _ = (splitQueryStage (splitFragStage rest2).1).1 ++ (tq ++ tf) := by
          rw [List.append_assoc]
  refine ⟨⟨tq ++ tf, hdecomp⟩, hnq, ?_, ?_⟩
  · intro hmem
    exact hnf (by rw [hfr1]; exact List.mem_append.mpr (Or.inl hmem))
  · intro hmem
    exact hnf (hqmem '#' hmem)

theorem urlsplit_wf (u : Str) : PartsWF (urlsplit u) := by
  rw [urlsplit, urlsplitD.eq_def]
  simp only
  have hspec := splitScheme_spec u
  have hfq := fragQuery_spec (splitNetlocStage (splitScheme u).2).2
  obtain ⟨⟨tpq, htpq⟩, hpnq, hpnf, hqnf⟩ := hfq
  constructor
  · -- scheme_ok
    rcases hspec with h | ⟨bef, aft, h1, h2, h3, h4, h5⟩
    · simp only [h]
      exact Or.inl rfl
    · simp only [h1]
      obtain ⟨hne2, halpha2, hall2, hlow2⟩ := pyLower_scheme_props bef h2 h3 h4
      simp only [hne2, Bool.false_eq_true, if_neg hne2]
      exact Or.inr ⟨hne2, halpha2, hall2, hlow2⟩
  · -- netloc_ok
    intro c hc
    rw [splitNetlocStage] at hc
    by_cases hs2 : startsWithStr (ofString "//") (splitScheme u).2
    · simp only [hs2, if_true] at hc
      exact List.mem_takeWhile_imp hc
    · simp only [hs2, Bool.false_eq_true, if_false] at hc
      simp at hc
  · exact hpnq
  · exact hpnf
  · exact hqnf
  · -- netloc_path
    intro hnet
    cases hpa : (splitQueryStage (splitFragStage (splitNetlocStage
        (splitScheme u).2).2).1).1 with
    | nil => exact Or.inl rfl
    | cons c0 pt =>
      refine Or.inr ?_
      rw [hpa] at htpq hpnq hpnf
      rw [splitNetlocStage] at hnet htpq
      by_cases hs2 : startsWithStr (ofString "//") (splitScheme u).2
      · simp only [hs2, if_true] at hnet htpq
        have hdrop : (((splitScheme u).2.drop 2).dropWhile notNetlocEnd) =
            c0 :: (pt ++ tpq) := by
          rw [htpq]
          simp
        have hc0 := dropWhile_head_false notNetlocEnd _ _ _ hdrop
        rcases (notNetlocEnd_false_iff c0).mp hc0 with h | h | h
        · show startsWithStr (ofString "/") (c0 :: pt) = true
          rw [h]
          exact (startsWith_slash_iff _).mpr ⟨pt, rfl⟩
        · exact absurd (by rw [h]; simp : '?' ∈ c0 :: pt) hpnq
        · exact absurd (by rw [h]; simp : '#' ∈ c0 :: pt) hpnf
      · simp only [hs2, Bool.false_eq_true, if_false] at hnet
        exact absurd rfl hnet
  · -- no_scheme_path
    intro hs
    have hsf : (splitScheme u).1 = [] := by
      have h0 : (if (splitScheme u).1 = [] then ([] : Str) else (splitScheme u).1) = [] := hs
      rwa [if_nil_self] at h0
    rcases hspec with h | ⟨bef, aft, h1, h2, h3, h4, h5⟩
    · cases hpa : (splitQueryStage (splitFragStage (splitNetlocStage
          (splitScheme u).2).2).1).1 with
      | nil =>
        show splitScheme [] = ([], [])
        rfl
      | cons c0 pt =>
        show splitScheme (c0 :: pt) = ([], c0 :: pt)
        rw [hpa] at htpq hpnq hpnf
        rw [splitNetlocStage] at htpq
        by_cases hs2 : startsWithStr (ofString "//") (splitScheme u).2
        · -- path sits behind a netloc: its head is '/', '?' or '#'
          simp only [hs2, if_true] at htpq
          have hdrop : (((splitScheme u).2.drop 2).dropWhile notNetlocEnd) =
              c0 :: (pt ++ tpq) := by
            rw [htpq]
            simp
          have hc0 := dropWhile_head_false notNetlocEnd _ _ _ hdrop
          rcases (notNetlocEnd_false_iff c0).mp hc0 with hh | hh | hh
          · rw [hh]
            exact splitScheme_fail_head '/' pt (by decide)
          · exact absurd (by rw [hh]; simp : '?' ∈ c0 :: pt) hpnq
          · exact absurd (by rw [hh]; simp : '#' ∈ c0 :: pt) hpnf
        · -- no netloc: the path is a prefix of u, whose scheme scan failed
          simp only [hs2, Bool.false_eq_true, if_false] at htpq
          have hu2 : (splitScheme u).2 = u := by rw [h]
          rw [hu2] at htpq
          exact splitScheme_fail_of_prefix u (c0 :: pt) tpq (by rw [htpq]) h
    · obtain ⟨hne2, _, _, _⟩ := pyLower_scheme_props bef h2 h3 h4
      have hfst : (splitScheme u).1 = pyLower bef := by rw [h1]
      rw [hsf] at hfst
      exact absurd hfst.symm hne2

/- ### Cursor encoding (cache.py `encode_cursor` / `decode_cursor`) -/

/-- Character at an index of the URL-safe base64 alphabet
(`A-Z`, `a-z`, `0-9`, `-`, `_`). -/
def b64Char (n : Nat) : Char :=
  if n < 26 then Char.ofNat (65 + n)
  else if n < 52 then Char.ofNat (97 + (n - 26))
  else if n < 62 then Char.ofNat (48 + (n - 52))
  else if n = 62 then '-' else '_'

/-- Index of a character in the URL-safe base64 alphabet. -/
def b64Val (c : Char) : Option Nat :=
  let n := c.toNat
  if 65 ≤ n ∧ n ≤ 90 then some (n - 65)
  else if 97 ≤ n ∧ n ≤ 122 then some (n - 71)
  else if 48 ≤ n ∧ n ≤ 57 then some (n + 4)
  else if c = '-' then some 62
  else if c = '_' then some 63
  else none

/-- `base64.urlsafe_b64encode` on a byte string, as characters (its output is
ASCII, so the subsequent `.decode("utf-8")` is the identity on it): groups of
three bytes become four alphabet characters, a trailing group of one or two
bytes is padded with `=`. -/
def b64EncodeBytes : List Nat → Str
  | [] => []
  | [b1] => [b64Char (b1 / 4), b64Char (b1 % 4 * 16), '=', '=']
  | [b1, b2] =>
    [b64Char (b1 / 4), b64Char (b1 % 4 * 16 + b2 / 16), b64Char (b2 % 16 * 4), '=']
  | b1 :: b2 :: b3 :: rest =>
    b64Char (b1 / 4) :: b64Char (b1 % 4 * 16 + b2 / 16) ::
      b64Char (b2 % 16 * 4 + b3 / 64) :: b64Char (b3 % 64) ::
        b64EncodeBytes rest

/-- One full (unpadded) base64 group of `base64.urlsafe_b64decode`. -/
def b64DecodeGroup (c1 c2 c3 c4 : Char) : Option (List Nat) :=
  match b64Val c1, b64Val c2, b64Val c3, b64Val c4 with
  | some v1, some v2, some v3, some v4 =>
    some [v1 * 4 + v2 / 16, v2 % 16 * 16 + v3 / 4, v3 % 4 * 64 + v4]
  | _, _, _, _ => none

/-- `base64.urlsafe_b64decode` on canonical base64 text (four-character
groups, `=`-padding only in the final group): the inverse of
`b64EncodeBytes`.  Inputs outside this shape are rejected with `none`
(CPython instead raises or silently skips foreign bytes; `decode_cursor`
only meets canonical input through `encode_cursor`). -/
def b64DecodeBytes : Str → Option (List Nat)
  | [] => some []
  | [_] => none
  | [_, _] => none
  | [_, _, _] => none
  | c1 :: c2 :: c3 :: c4 :: rest =>
    if c3 = '=' ∧ c4 = '=' ∧ rest = [] then
      match b64Val c1, b64Val c2 with
      | some v1, some v2 => some [v1 * 4 + v2 / 16]
      | _, _ => none
    else if c4 = '=' ∧ rest = [] then
      match b64Val c1, b64Val c2, b64Val c3 with
      | some v1, some v2, some v3 =>
        some [v1 * 4 + v2 / 16, v2 % 16 * 16 + v3 / 4]
      | _, _, _ => none
    else
      match b64DecodeGroup c1 c2 c3 c4, b64DecodeBytes rest with
      | some bs, some rest2 => some (bs ++ rest2)
      | _, _ => none

theorem b64Val_b64Char : ∀ n < 64, b64Val (b64Char n) = some n := by decide

theorem b64Char_ne_eq : ∀ n < 64, b64Char n ≠ '=' := by decide

theorem b64_roundtrip (bs : List Nat) (h : ∀ b ∈ bs, b < 256) :
    b64DecodeBytes (b64EncodeBytes bs) = some bs := by
  induction bs using b64EncodeBytes.induct with
  | case1 => rfl
  | case2 b1 =>
    have hb1 : b1 < 256 := h b1 (by simp)
    rw [b64EncodeBytes, b64DecodeBytes]
    simp only [and_self, and_true, reduceIte]
    rw [b64Val_b64Char (b1 / 4) (by omega), b64Val_b64Char (b1 % 4 * 16) (by omega)]
    simp only [Option.some.injEq, List.cons.injEq, and_true]
    omega
  | case3 b1 b2 =>
    have hb1 : b1 < 256 := h b1 (by simp)
    have hb2 : b2 < 256 := h b2 (by simp)
    rw [b64EncodeBytes, b64DecodeBytes]
    have hne : ¬(b64Char (b2 % 16 * 4) = '=' ∧ '=' = '=' ∧ ([] : Str) = []) := by
      intro hcontra
      exact b64Char_ne_eq (b2 % 16 * 4) (by omega) hcontra.1
    rw [if_neg hne, if_pos ⟨rfl, rfl⟩]
    rw [b64Val_b64Char (b1 / 4) (by omega),
      b64Val_b64Char (b1 % 4 * 16 + b2 / 16) (by omega),
      b64Val_b64Char (b2 % 16 * 4) (by omega)]
    simp only [Option.some.injEq, List.cons.injEq, and_true]
    omega
  | case4 b1 b2 b3 rest ih =>
    have hb1 : b1 < 256 := h b1 (by simp)
    have hb2 : b2 < 256 := h b2 (by simp)
    have hb3 : b3 < 256 := h b3 (by simp)
    rw [b64EncodeBytes, b64DecodeBytes]
    have hne1 : ¬(b64Char (b2 % 16 * 4 + b3 / 64) = '=' ∧
        b64Char (b3 % 64) = '=' ∧ b64EncodeBytes rest = []) := by
      intro hcontra
      exact b64Char_ne_eq (b2 % 16 * 4 + b3 / 64) (by omega) hcontra.1
    have hne2 : ¬(b64Char (b3 % 64) = '=' ∧ b64EncodeBytes rest = []) := by
      intro hcontra
      exact b64Char_ne_eq (b3 % 64) (by omega) hcontra.1
    rw [if_neg hne1, if_neg hne2, b64DecodeGroup]
    rw [b64Val_b64Char (b1 / 4) (by omega),
      b64Val_b64Char (b1 % 4 * 16 + b2 / 16) (by omega),
      b64Val_b64Char (b2 % 16 * 4 + b3 / 64) (by omega),
      b64Val_b64Char (b3 % 64) (by omega)]
    rw [ih (fun b hb => h b (by simp [hb]))]
    simp only [List.cons_append, List.nil_append, Option.some.injEq, List.cons.injEq,
      and_true]
    refine ⟨by omega, by omega, by omega⟩

/-- Value of a decimal digit string (the accumulator pass of Python `int`). -/
def digitsToNat (s : Str) : Nat :=
  s.foldl (fun acc c => acc * 10 + (c.toNat - 48)) 0

/-- Python `int(s)` on a plain decimal literal: an optional sign followed by
one or more digits (surrounding whitespace and `_` separators, which
`encode_cursor` never produces, are not modeled). -/
def pyInt (s : Str) : Option Int :=
  match s with
  | [] => none
  | c :: rest =>
    if c = '-' then
      if rest ≠ [] ∧ rest.all isAsciiDigitC then some (-(digitsToNat rest : Int))
      else none
    else if c = '+' then
      if rest ≠ [] ∧ rest.all isAsciiDigitC then some ((digitsToNat rest : Int))
      else none
    else if (c :: rest).all isAsciiDigitC then some ((digitsToNat (c :: rest) : Int))
    else none

theorem digitsToNat_append_digit (a : Str) (c : Char) :
    digitsToNat (a ++ [c]) = digitsToNat a * 10 + (c.toNat - 48) := by
  rw [digitsToNat, digitsToNat, List.foldl_append]
  rfl

theorem natToDigitsAux_spec (fuel n : Nat) (h : n ≤ fuel) :
    (natToDigitsAux fuel n).all isAsciiDigitC = true ∧
    natToDigitsAux fuel n ≠ [] ∧
    digitsToNat (natToDigitsAux fuel n) = n := by
  have hdig : ∀ m < 10, isAsciiDigitC (Char.ofNat (48 + m)) = true ∧
      (Char.ofNat (48 + m)).toNat = 48 + m := by decide
  induction fuel generalizing n with
  | zero =>
    have hn : n = 0 := by omega
    subst hn
    exact ⟨by decide, by decide, by decide⟩
  | succ fuel ih =>
    rw [natToDigitsAux]
    by_cases hn : n < 10
    · rw [if_pos hn]
      obtain ⟨h1, h2⟩ := hdig n hn
      refine ⟨by simp [h1], by simp, ?_⟩
      rw [digitsToNat]
      simp only [List.foldl_cons, List.foldl_nil]
      omega
    · rw [if_neg hn]
      obtain ⟨ha, hne, hval⟩ := ih (n / 10) (by omega)
      obtain ⟨h1, h2⟩ := hdig (n % 10) (by omega)
      refine ⟨?_, by simp, ?_⟩
      · rw [List.all_append]
        simp [ha, h1]
      · rw [digitsToNat_append_digit, hval, h2]
        omega

theorem natToDigits_spec (n : Nat) :
    (natToDigits n).all isAsciiDigitC = true ∧ natToDigits n ≠ [] ∧
      digitsToNat (natToDigits n) = n :=
  natToDigitsAux_spec n n (Nat.le_refl n)

theorem pyInt_natToDigits (n : Nat) : pyInt (natToDigits n) = some (n : Int) := by
  obtain ⟨ha, hne, hval⟩ := natToDigits_spec n
  cases hd : natToDigits n with
  | nil => exact absurd hd hne
  | cons c rest =>
    rw [hd] at ha hval
    have hc : isAsciiDigitC c = true := by
      rw [List.all_cons] at ha
      exact ((Bool.and_eq_true _ _).mp ha).1
    have hcm : c ≠ '-' := by
      intro hEq
      rw [hEq] at hc
      exact absurd hc (by decide)
    have hcp : c ≠ '+' := by
      intro hEq
      rw [hEq] at hc
      exact absurd hc (by decide)
    rw [pyInt, if_neg hcm, if_neg hcp, if_pos ha, hval]

/-- `cache.encode_cursor`: UTF-8-encode `f"{scan_id}:{offset}"` and URL-safe
base64 it. -/
def encode_cursor (scan_id : Str) (offset : Nat) : Str :=
  b64EncodeBytes (utf8Encode (scan_id ++ ':' :: natToDigits offset))

/-- `cache.decode_cursor`: base64-decode, UTF-8-decode, split once on `:`,
parse the offset with `int`.  `none` stands for the exceptions CPython
raises on a malformed cursor (base64/UTF-8 errors, a payload with no `:`
making the tuple unpacking fail, or a non-numeric offset). -/
def decode_cursor (cursor : Str) : Option (Str × Int) :=
  match b64DecodeBytes cursor with
  | none => none
  | some raw =>
    match splitOnce ':' (utf8Decode raw) with
    | none => none
    | some (scan_id, offset_text) =>
      match pyInt offset_text with
      | none => none
      | some n => some (scan_id, n)

/-- C10: cursor encoding round-trips — for every `scan_id` containing no `:`
and every natural offset, `decode_cursor (encode_cursor scan_id offset)`
recovers exactly `(scan_id, offset)`. -/
theorem C10_cursor_roundtrip (scan_id : Str) (offset : Nat) (h : ':' ∉ scan_id) :
    decode_cursor (encode_cursor scan_id offset) =
      some (scan_id, (offset : Int)) := by
  have h1 : b64DecodeBytes (encode_cursor scan_id offset) =
      some (utf8Encode (scan_id ++ ':' :: natToDigits offset)) := by
    rw [encode_cursor]
    exact b64_roundtrip _ (fun b hb => utf8Encode_lt_256 _ b hb)
  rw [decode_cursor, h1]
  simp only [utf8Decode_encode,
    splitOnce_append_sep ':' scan_id (natToDigits offset) h, pyInt_natToDigits]

/-- C10 witness: the round trip at the concrete cursor
`("scan-42", 17)`. -/
theorem C10_cursor_roundtrip_witness :
    ':' ∉ ofString "scan-42" ∧
    decode_cursor (encode_cursor (ofString "scan-42") 17) =
      some (ofString "scan-42", (17 : Int)) :=
  ⟨by decide, C10_cursor_roundtrip (ofString "scan-42") 17 (by decide)⟩

/- ### Normalization: tracking-parameter removal and idempotence -/

theorem mem_joinAmp (fs : List Str) (c : Char) (hc : c ∈ joinAmp fs) :
    c = '&' ∨ ∃ f ∈ fs, c ∈ f := by
  induction fs with
  | nil => cases hc
  | cons x rest ih =>
    cases rest with
    | nil => exact Or.inr ⟨x, by simp, by simpa [joinAmp] using hc⟩
    | cons y r2 =>
      rw [joinAmp] at hc
      rcases List.mem_append.mp hc with h | h
      · exact Or.inr ⟨x, by simp, h⟩
      · rcases List.mem_cons.mp h with h2 | h2
        · exact Or.inl h2
        · rcases ih h2 with h3 | ⟨f, hf, hcf⟩
          · exact Or.inl h3
          · exact Or.inr ⟨f, List.mem_cons_of_mem x hf, hcf⟩

theorem urlencode_no_hash (q : List (Str × List Str)) : '#' ∉ urlencode q := by
  intro hc
  rw [urlencode_eq_join] at hc
  rcases mem_joinAmp _ _ hc with h | ⟨f, hf, hcf⟩
  · exact absurd h (by decide)
  · obtain ⟨k, v, hfv⟩ := mem_encFields q f hf
    rw [hfv] at hcf
    rcases List.mem_append.mp hcf with h | h
    · exact (quoteOut_ne _ (mem_quotePlus_ok k _ h)).2.2.1 rfl
    · rcases List.mem_cons.mp h with h2 | h2
      · exact absurd h2 (by decide)
      · exact (quoteOut_ne _ (mem_quotePlus_ok v _ h2)).2.2.1 rfl

/-- The query dict built inside `_normalize_product_url`: the parsed query of
`u` with tracking keys filtered out. -/
def cleanedQuery (u : Str) : List (Str × List Str) :=
  (parse_qs (urlsplit u).query).filter (fun kv => !isTrackingKey kv.1)

theorem normalize_unfold (u : Str) :
    normalizeProductUrl u =
      urlunsplit { urlsplit u with query := urlencode (cleanedQuery u) } := rfl

theorem urlsplit_normalize (u : Str) :
    urlsplit (normalizeProductUrl u) =
      { urlsplit u with query := urlencode (cleanedQuery u) } := by
  rw [normalize_unfold]
  apply urlsplit_urlunsplit
  have wf := urlsplit_wf u
  exact { scheme_ok := wf.scheme_ok, netloc_ok := wf.netloc_ok,
          path_nq := wf.path_nq, path_nf := wf.path_nf,
          query_nf := urlencode_no_hash _,
          netloc_path := wf.netloc_path, no_scheme_path := wf.no_scheme_path }

theorem parse_qs_cleaned (u : Str) :
    parse_qs (urlencode (cleanedQuery u)) = cleanedQuery u := by
  refine parse_qs_urlencode _ ?_ ?_ ?_
  · exact List.Nodup.sublist ((List.filter_sublist _).map Prod.fst)
      (parse_qs_keys_nodup (urlsplit u).query)
  · intro kv hkv
    exact (parse_qs_vals _ kv (List.mem_of_mem_filter hkv)).1
  · intro kv hkv v hv
    exact (parse_qs_vals _ kv (List.mem_of_mem_filter hkv)).2 v hv

theorem cleaned_filter_self (u : Str) :
    (cleanedQuery u).filter (fun kv => !isTrackingKey kv.1) = cleanedQuery u := by
  refine List.filter_eq_self.mpr ?_
  intro kv hkv
  rw [cleanedQuery] at hkv
  exact (List.mem_filter.mp hkv).2

theorem normalize_idem (u : Str) :
    normalizeProductUrl (normalizeProductUrl u) = normalizeProductUrl u := by
  have h1 : cleanedQuery (normalizeProductUrl u) = cleanedQuery u := by
    rw [cleanedQuery, urlsplit_normalize u]
    show (parse_qs (urlencode (cleanedQuery u))).filter
      (fun kv => !isTrackingKey kv.1) = cleanedQuery u
    rw [parse_qs_cleaned u, cleaned_filter_self u]
  conv_lhs => rw [normalize_unfold (normalizeProductUrl u)]
  rw [h1, urlsplit_normalize u, normalize_unfold u]

/-- C6: COUNTEREXAMPLE to "preserving ... all remaining query parameters".
The non-tracking parameter `keep` carries a blank value in the input URL
`http://example.com/p?cid=1&keep=&b=2`; `_normalize_product_url` drops it
(Python's `parse_qs` defaults to `keep_blank_values=False`), so the output
`http://example.com/p?b=2` no longer mentions `keep` although `keep` is not
in the tracking set. -/
theorem C6_normalization_counterexample :
    isTrackingKey (ofString "keep") = false ∧
    containsStr (ofString "keep")
      (ofString "http://example.com/p?cid=1&keep=&b=2") = true ∧
    normalizeProductUrl (ofString "http://example.com/p?cid=1&keep=&b=2") =
      ofString "http://example.com/p?b=2" ∧
    containsStr (ofString "keep")
      (normalizeProductUrl (ofString "http://example.com/p?cid=1&keep=&b=2")) =
      false := by
  decide

/-- C6 (amended): `_normalize_product_url` is idempotent; it preserves the
parsed scheme, netloc, path and fragment; its output query parses to exactly
the non-tracking entries of the input's *parsed* query — so tracking
parameters are removed, and in addition any parameter whose value is blank is
dropped because `parse_qs` discards blank values; no tracking key ever
appears in the output query. -/
theorem C6_normalization_amended (u : Str) :
    normalizeProductUrl (normalizeProductUrl u) = normalizeProductUrl u ∧
    (urlsplit (normalizeProductUrl u)).scheme = (urlsplit u).scheme ∧
    (urlsplit (normalizeProductUrl u)).netloc = (urlsplit u).netloc ∧
    (urlsplit (normalizeProductUrl u)).path = (urlsplit u).path ∧
    (urlsplit (normalizeProductUrl u)).fragment = (urlsplit u).fragment ∧
    parse_qs (urlsplit (normalizeProductUrl u)).query =
      (parse_qs (urlsplit u).query).filter (fun kv => !isTrackingKey kv.1) ∧
    ∀ kv ∈ parse_qs (urlsplit (normalizeProductUrl u)).query,
      isTrackingKey kv.1 = false := by
  refine ⟨normalize_idem u, ?_, ?_, ?_, ?_, ?_, ?_⟩
  · rw [urlsplit_normalize u]
  · rw [urlsplit_normalize u]
  · rw [urlsplit_normalize u]
  · rw [urlsplit_normalize u]
  · rw [urlsplit_normalize u]
    show parse_qs (urlencode (cleanedQuery u)) =
      (parse_qs (urlsplit u).query).filter (fun kv => !isTrackingKey kv.1)
    rw [parse_qs_cleaned u, cleanedQuery]
  · intro kv hkv
    rw [urlsplit_normalize u] at hkv
    have hkv2 : kv ∈ cleanedQuery u := by
      rw [← parse_qs_cleaned u]
      exact hkv
    rw [cleanedQuery] at hkv2
    have h := (List.mem_filter.mp hkv2).2
    simpa using h

/- ### Size tokens (`_extract_size_tokens` / `_is_reasonable_size_number`)

The two size regexes and the two cleanup `re.sub`s are compiled by hand into
backtracking matchers.  `\w`, `\d` and `\s` are modeled by their ASCII
classes (the size vocabulary and all pattern literals are ASCII). -/

/-- Is an optional character a regex word character (`\b` treats the ends of
the string as non-word)? -/
def wordOpt : Option Char → Bool
  | none => false
  | some c => isWordC c

/-- Regex `\b`: a word boundary lies between two adjacent characters (or a
string end and a character) iff exactly one side is a word character. -/
def wb (a b : Option Char) : Bool := wordOpt a != wordOpt b

/-- Case-insensitive literal match of `lit` against a prefix of `s`,
returning consumed text (original case) and remainder. -/
def litMatchCI : Str → Str → Option (Str × Str)
  | [], r => some ([], r)
  | _ :: _, [] => none
  | lc :: lrest, c :: rest =>
    if upperC c = upperC lc then
      match litMatchCI lrest rest with
      | some (a, r) => some (c :: a, r)
      | none => none
    else none

/-- Sequence two backtracking stages: all ways to run `first`, then `next`
on its remainder, in backtracking priority order. -/
def seqCands (first : List (Str × Str)) (next : Str → List (Str × Str)) :
    List (Str × Str) :=
  first.flatMap (fun ar => (next ar.2).map (fun br => (ar.1 ++ br.1, br.2)))

/-- `(?:UK|US|EU)?` (IGNORECASE): candidates in backtracking order — each
matching alternative first (in pattern order), then the empty option. -/
def pfxCandsNum (s : Str) : List (Str × Str) :=
  (match s with
   | c1 :: c2 :: rest =>
     (if upperC c1 = 'U' ∧ upperC c2 = 'K' then [([c1, c2], rest)] else []) ++
     (if upperC c1 = 'U' ∧ upperC c2 = 'S' then [([c1, c2], rest)] else []) ++
     (if upperC c1 = 'E' ∧ upperC c2 = 'U' then [([c1, c2], rest)] else [])
   | _ => []) ++ [([], s)]

/-- `\s?`: greedy — consume one whitespace character if present, else (and
as fallback) nothing. -/
def spCands (s : Str) : List (Str × Str) :=
  (match s with
   | c :: rest => if isPySpace c then [([c], rest)] else []
   | [] => []) ++ [([], s)]

/-- `\d{1,2}`: greedy — two digits before one. -/
def digitCands (s : Str) : List (Str × Str) :=
  match s with
  | c1 :: c2 :: rest =>
    (if isAsciiDigitC c1 && isAsciiDigitC c2 then [([c1, c2], rest)] else []) ++
    (if isAsciiDigitC c1 then [([c1], c2 :: rest)] else [])
  | [c1] => if isAsciiDigitC c1 then [([c1], [])] else []
  | [] => []

/-- `(?:\.\d)?`: greedy — a dot and a digit if present, then nothing. -/
def fracCands (s : Str) : List (Str × Str) :=
  (match s with
   | c1 :: c2 :: rest =>
     if c1 = '.' && isAsciiDigitC c2 then [([c1, c2], rest)] else []
   | _ => []) ++ [([], s)]

/-- `(?:-\d{1,2}(?:\.\d)?)?`: greedy — the dash alternative (with its inner
backtracking) first, then nothing. -/
def rangeCands (s : Str) : List (Str × Str) :=
  (match s with
   | c :: rest =>
     if c = '-' then
       seqCands ((digitCands rest).map (fun ar => (c :: ar.1, ar.2))) fracCands
     else []
   | [] => []) ++ [([], s)]

/-- `SIZE_NUMBER_REGEX` match attempt at the current position (`prev` is the
character before the position, for `\b`): the first candidate, in
backtracking order, whose end also lies on a word boundary. -/
def matchNumAt (prev : Option Char) (s : Str) : Option (Str × Str) :=
  if wb prev s.head? then
    ((seqCands (seqCands (seqCands (seqCands (pfxCandsNum s) spCands)
        digitCands) fracCands) rangeCands).filter
      (fun ar => wb ar.1.getLast? ar.2.head?)).head?
  else none

/-- The alternatives of `SIZE_TOKEN_REGEX`, in pattern order. -/
def ALPHA_SIZE_TOKENS : List Str :=
  [ofString "XXXS", ofString "XXS", ofString "XS", ofString "S", ofString "M",
   ofString "L", ofString "XL", ofString "XXL", ofString "XXXL",
   ofString "ONE SIZE", ofString "OS", ofString "OSFA", ofString "PETITE",
   ofString "REGULAR", ofString "TALL"]

/-- The alternatives of the noise-word `re.sub` in `_extract_size_tokens`,
in pattern order. -/
def NOISE_WORDS : List Str :=
  [ofString "sort by", ofString "prev", ofString "next", ofString "choose size",
   ofString "find my size", ofString "join the waitlist", ofString "low stock"]

/-- `\b(alt1|alt2|...)\b` (IGNORECASE) match attempt at the current
position: the first alternative, in pattern order, that matches literally
and ends on a word boundary. -/
def altMatchAt (alts : List Str) (prev : Option Char) (s : Str) :
    Option (Str × Str) :=
  if wb prev s.head? then
    (alts.filterMap (fun lit =>
      match litMatchCI lit s with
      | some (a, r) => if wb a.getLast? r.head? then some (a, r) else none
      | none => none)).head?
  else none

/-- `re.findall` scan: try a match at each position, record non-overlapping
matches left to right (all patterns here consume at least one character;
the empty-match guard only makes the recursion structurally total). -/
def reFindAllAux (m : Option Char → Str → Option (Str × Str)) :
    Nat → Option Char → Str → List Str
  | _, _, [] => []
  | 0, _, _ => []
  | fuel + 1, prev, c :: rest =>
    match m prev (c :: rest) with
    | some (a, r2) =>
      if a = [] then reFindAllAux m fuel (some c) rest
      else a :: reFindAllAux m fuel a.getLast? r2
    | none => reFindAllAux m fuel (some c) rest

/-- `re.sub(pattern, " ", s)` scan: each non-overlapping match is replaced
by one space. -/
def reSubAux (m : Option Char → Str → Option (Str × Str)) :
    Nat → Option Char → Str → Str
  | _, _, [] => []
  | 0, _, s => s
  | fuel + 1, prev, c :: rest =>
    match m prev (c :: rest) with
    | some (a, r2) =>
      if a = [] then c :: reSubAux m fuel (some c) rest
      else ' ' :: reSubAux m fuel a.getLast? r2
    | none => c :: reSubAux m fuel (some c) rest

def sizeTokenFindall (s : Str) : List Str :=
  reFindAllAux (altMatchAt ALPHA_SIZE_TOKENS) s.length none s

def sizeNumberFindall (s : Str) : List Str :=
  reFindAllAux matchNumAt s.length none s

/-- `\b\d+\s*reviews?\b` (IGNORECASE) match attempt.  `\d+` and `\s*` are
taken greedily with no backtracking: their character classes and the
following literal `r` are pairwise disjoint, so the greedy extent is the
only possible one.  The trailing `s?` is greedy with fallback, each option
subject to the final `\b`. -/
def matchReviewsAt (prev : Option Char) (s : Str) : Option (Str × Str) :=
  if wb prev s.head? then
    match s.takeWhile isAsciiDigitC with
    | [] => none
    | _ :: _ =>
      let d := s.takeWhile isAsciiDigitC
      let r1 := s.dropWhile isAsciiDigitC
      let sp := r1.takeWhile isPySpace
      let r2 := r1.dropWhile isPySpace
      match litMatchCI (ofString "review") r2 with
      | none => none
      | some (a, r3) =>
        match r3 with
        | c :: r4 =>
          if upperC c = 'S' ∧ wb (some c) r4.head? = true then
            some (d ++ sp ++ a ++ [c], r4)
          else if wb a.getLast? r3.head? then some (d ++ sp ++ a, r3)
          else none
        | [] =>
          if wb a.getLast? none then some (d ++ sp ++ a, []) else none
  else none

def reviewsSub (s : Str) : Str := reSubAux matchReviewsAt s.length none s

def noiseSub (s : Str) : Str :=
  reSubAux (altMatchAt NOISE_WORDS) s.length none s

/-- `str.replace("/", " ")`. -/
def replaceSlash (s : Str) : Str := s.map (fun c => if c = '/' then ' ' else c)

/-- Python `float(s)` for strings of digits and dots (the only characters
`re.sub(r"[^0-9.]", "", ...)` can leave): at most one dot and at least one
digit, read as an exact rational.  (`float` rounds to binary; on these
short digit strings rounding never crosses the integer threshold 30, so the
exact rational compares to 30 exactly as the float does.) -/
def pyFloatParse (s : Str) : Option ℚ :=
  match splitOnce '.' s with
  | none =>
    if s ≠ [] ∧ s.all isAsciiDigitC then some ((digitsToNat s : ℚ)) else none
  | some (a, b) =>
    if '.' ∉ b ∧ (a ≠ [] ∨ b ≠ []) ∧ a.all isAsciiDigitC = true ∧
        b.all isAsciiDigitC = true then
      some ((digitsToNat a : ℚ) + (digitsToNat b : ℚ) / (10 : ℚ) ^ b.length)
    else none

/-- `float(numeric) <= 30` on a digits-and-dots string, in exact integer
arithmetic: a value `A + B/10^k` is at most 30 iff `A*10^k + B ≤ 30*10^k`
(`floatLe30_iff` below proves this form equal to the rational comparison). -/
def floatLe30 (numeric : Str) : Bool :=
  match splitOnce '.' numeric with
  | none =>
    !numeric.isEmpty && numeric.all isAsciiDigitC &&
      decide (digitsToNat numeric ≤ 30)
  | some (a, b) =>
    decide ('.' ∉ b) && (!a.isEmpty || !b.isEmpty) &&
      a.all isAsciiDigitC && b.all isAsciiDigitC &&
      decide (digitsToNat a * 10 ^ b.length + digitsToNat b ≤ 30 * 10 ^ b.length)

/-- `_is_reasonable_size_number`: strip every character outside `[0-9.]`,
reject if nothing is left or `float` fails, else keep iff the value is at
most 30. -/
def isReasonableSizeNumber (token : Str) : Bool :=
  floatLe30 (token.filter (fun c => isAsciiDigitC c || c = '.'))

theorem floatLe30_iff (s : Str) :
    floatLe30 s = true ↔ ∃ v : ℚ, pyFloatParse s = some v ∧ v ≤ 30 := by
  cases hsp : splitOnce '.' s with
  | none =>
    simp only [floatLe30, pyFloatParse, hsp]
    by_cases h1 : s = []
    · subst h1
      simp
    · by_cases h2 : s.all isAsciiDigitC
      · have hE : s.isEmpty = false := by
          cases s with
          | nil => exact absurd rfl h1
          | cons c r => rfl
        rw [if_pos ⟨h1, h2⟩]
        simp only [hE, h2, Bool.not_false, Bool.true_and, Bool.and_true,
          decide_eq_true_eq, Option.some.injEq]
        constructor
        · intro h
          exact ⟨(digitsToNat s : ℚ), rfl, by exact_mod_cast h⟩
        · rintro ⟨v, hv, hle⟩
          rw [← hv] at hle
          exact_mod_cast hle
      · simp [h1, h2]
  | some ab =>
    obtain ⟨a, b⟩ := ab
    simp only [floatLe30, pyFloatParse, hsp]
    by_cases hd : '.' ∈ b
    · simp [hd]
    · by_cases hne : a = [] ∧ b = []
      · simp [hne.1, hne.2]
      · have hne2 : a ≠ [] ∨ b ≠ [] := by
          by_cases ha : a = []
          · exact Or.inr (fun hb => hne ⟨ha, hb⟩)
          · exact Or.inl ha
        by_cases ha2 : a.all isAsciiDigitC
        · by_cases hb2 : b.all isAsciiDigitC
          · have hcond : '.' ∉ b ∧ (a ≠ [] ∨ b ≠ []) ∧
                a.all isAsciiDigitC = true ∧ b.all isAsciiDigitC = true :=
              ⟨hd, hne2, ha2, hb2⟩
            rw [if_pos hcond]
            have hbool : (decide ('.' ∉ b) && (!a.isEmpty || !b.isEmpty) &&
                a.all isAsciiDigitC && b.all isAsciiDigitC &&
                decide (digitsToNat a * 10 ^ b.length + digitsToNat b ≤
                  30 * 10 ^ b.length)) = true ↔
                digitsToNat a * 10 ^ b.length + digitsToNat b ≤
                  30 * 10 ^ b.length := by
              rcases hne2 with h | h <;>
                simp [hd, h, ha2, hb2, List.isEmpty_iff]
            rw [hbool]
            simp only [Option.some.injEq, exists_eq_left']
            have hpow : (0 : ℚ) < (10 : ℚ) ^ b.length := by positivity
            have hrw : (digitsToNat a : ℚ) + (digitsToNat b : ℚ) / (10 : ℚ) ^ b.length =
                ((digitsToNat a * 10 ^ b.length + digitsToNat b : ℕ) : ℚ) /
                  (10 : ℚ) ^ b.length := by
              push_cast
              field_simp
            have h30 : (30 : ℚ) * (10 : ℚ) ^ b.length =
                ((30 * 10 ^ b.length : ℕ) : ℚ) := by
              push_cast
              ring
            rw [hrw, div_le_iff₀ hpow, h30, Nat.cast_le]
          · simp [hd, ha2, hb2, hne2]
        · simp [hd, ha2, hne2]

/-- `_extract_size_tokens`: clean review counts, noise words and slashes,
then collect upper-cased alphabetic size tokens followed by the
space-stripped numeric tokens that pass `_is_reasonable_size_number`. -/
def extractSizeTokens (text : Str) : List Str :=
  let cleaned := replaceSlash (noiseSub (reviewsSub text))
  (sizeTokenFindall cleaned).map pyUpper ++
    ((sizeNumberFindall cleaned).map
      (fun t => (pyUpper t).filter (fun c => c ≠ ' '))).filter
        isReasonableSizeNumber

/-- C7: numeric size-token acceptance boundary.  For every input text the
extracted tokens are the alphabetic regex matches followed by exactly those
normalized numeric regex matches that `_is_reasonable_size_number` keeps;
a token is kept iff the digits-and-dots residue parses to a value ≤ 30
(boundary inclusive).  Concretely `"US 7.5"` yields `["US7.5"]`, `"EU 40"`
yields `[]` (40 > 30), and the boundary sits exactly at 30:
`"UK 30"` is kept, `"UK 31"` is rejected. -/
theorem C7_size_number_boundary :
    (∀ text : Str, extractSizeTokens text =
      (sizeTokenFindall (replaceSlash (noiseSub (reviewsSub text)))).map pyUpper ++
        ((sizeNumberFindall (replaceSlash (noiseSub (reviewsSub text)))).map
          (fun t => (pyUpper t).filter (fun c => c ≠ ' '))).filter
            isReasonableSizeNumber) ∧
    (∀ tok : Str, isReasonableSizeNumber tok = true ↔
      ∃ v : ℚ, pyFloatParse (tok.filter (fun c => isAsciiDigitC c || c = '.')) =
        some v ∧ v ≤ 30) ∧
    extractSizeTokens (ofString "US 7.5") = [ofString "US7.5"] ∧
    extractSizeTokens (ofString "EU 40") = [] ∧
    extractSizeTokens (ofString "UK 30") = [ofString "UK30"] ∧
    extractSizeTokens (ofString "UK 31") = [] := by
  exact ⟨fun text => rfl, fun tok => floatLe30_iff _, by decide, by decide,
    by decide, by decide⟩

/- ### Python/JSON values (payloads and structured data) -/

/-- A Python value as produced by `.json()` / `json.loads`. -/
inductive PyVal where
  | str (s : Str)
  | num (n : Int)
  | bool (b : Bool)
  | null
  | list (xs : List PyVal)
  | dict (entries : List (Str × PyVal))

/-- Python truthiness (`if v:`). -/
def pyTruthy : PyVal → Bool
  | .str s => !s.isEmpty
  | .num n => decide (n ≠ 0)
  | .bool b => b
  | .null => false
  | .list xs => !xs.isEmpty
  | .dict d => !d.isEmpty

/-- `dict.get(k)` (entry lists are built with unique keys). -/
def dictGet (d : List (Str × PyVal)) (k : Str) : Option PyVal :=
  match d.find? (fun kv => kv.1 = k) with
  | some kv => some kv.2
  | none => none

def optTruthy : Option PyVal → Bool
  | none => false
  | some v => pyTruthy v

/-- Python iteration (`for x in v`): lists yield elements, strings yield
one-character strings, dicts yield their keys.  Iterating a number, bool or
`None` raises `TypeError` (which would abort the crawl); not modeled. -/
def pyItems : PyVal → List PyVal
  | .list xs => xs
  | .str s => s.map (fun c => PyVal.str [c])
  | .dict d => d.map (fun kv => PyVal.str kv.1)
  | _ => []

/-- Decimal digits of an integer (Python `str(n)`). -/
def intToDigits (n : Int) : Str :=
  if n < 0 then '-' :: natToDigits n.natAbs else natToDigits n.toNat

/-- Python `str(v)` / f-string formatting for scalar values.  The `repr`
of containers is not modeled (no claim formats a container). -/
def pyStrOf : PyVal → Str
  | .str s => s
  | .num n => intToDigits n
  | .bool true => ofString "True"
  | .bool false => ofString "False"
  | .null => ofString "None"
  | .list _ => ofString "[...]"
  | .dict _ => ofString "[...]"

/- ### Catalog crawling (`_crawl_catalog_urls` and helpers) -/

/-- The slice of `ScrapeConfig` the crawl reads.  `pagination_selector` and
`pagination_param` are `Optional[str]`; `max_products` defaults to 75. -/
structure ScrapeCfg where
  baseUrl : Str
  paginationSelector : Option Str
  paginationParam : Option Str
  maxProducts : Nat

def DEFAULT_MAX_PRODUCTS : Nat := 75

def PAGINATION_SELECTORS : List Str :=
  [ofString "a[rel='next']", ofString "a[aria-label*='Next']",
   ofString "a:has-text('Next')", ofString "button:has-text('Next')"]

def DEFAULT_PAGINATION_PARAM : Str := ofString "page"

/-- What the browser exposes of one catalog page: the product links found
(after optional scrolling), and for each selector string the locator count
and the first match's `href` attribute. -/
structure PageView where
  productUrls : List Str
  locCount : Str → Nat
  locHref : Str → Option Str

/-- The ordered selector list of `_find_next_page_url`: the site-specific
override (when truthy) first, then the generic `PAGINATION_SELECTORS`. -/
def selectorList (cfg : ScrapeCfg) : List Str :=
  (match cfg.paginationSelector with
   | some sel => if sel ≠ [] then [sel] else []
   | none => []) ++ PAGINATION_SELECTORS

/-- The selector loop of `_find_next_page_url`: skip falsy selectors and
zero-count locators; the first present match with a truthy `href` wins. -/
def findHref (pv : PageView) : List Str → Option Str
  | [] => none
  | sel :: rest =>
    if sel = [] then findHref pv rest
    else if pv.locCount sel = 0 then findHref pv rest
    else
      match pv.locHref sel with
      | some href => if href ≠ [] then some href else findHref pv rest
      | none => findHref pv rest

/-- `self.config.pagination_param or DEFAULT_PAGINATION_PARAM`. -/
def paginationParamOf (cfg : ScrapeCfg) : Str :=
  match cfg.paginationParam with
  | some p => if p ≠ [] then p else DEFAULT_PAGINATION_PARAM
  | none => DEFAULT_PAGINATION_PARAM

/-- `_find_next_page_url` (base.py lines 253-277): a selector hit yields
`(urljoin(base, href), fallback-param guess)`; with no selector hit the
param guess itself is returned as the next URL, with no fallback. -/
def findNextPageUrl (cfg : ScrapeCfg) (pv : PageView) (currentUrl : Str)
    (nextPage : Nat) : Option Str × Option Str :=
  match findHref pv (selectorList cfg) with
  | some href =>
    (some (urljoin cfg.baseUrl href),
     some (withPaginationParam currentUrl (paginationParamOf cfg) nextPage))
  | none =>
    (some (withPaginationParam currentUrl (paginationParamOf cfg) nextPage), none)

/-- The per-page dedup loop of `_crawl_catalog_urls` (lines 219-227):
returns the updated `collected`, `seen_products` and `new_count`;
collection stops once `max_products` is reached. -/
def collectUrls (maxP : Nat) : List Str → List Str → List Str →
    List Str × List Str × Nat
  | [], collected, _seen => (collected, _seen, 0)
  | url :: rest, collected, seen =>
    let normalized := normalizeProductUrl url
    if normalized ∈ seen then collectUrls maxP rest collected seen
    else
      let collected2 := collected ++ [url]
      let seen2 := seen ++ [normalized]
      if maxP ≤ collected2.length then (collected2, seen2, 1)
      else
        let r := collectUrls maxP rest collected2 seen2
        (r.1, r.2.1, r.2.2 + 1)

/-- The loop state of `_crawl_catalog_urls` (sets are kept as
insertion-ordered duplicate-free lists). -/
structure CrawlState where
  collected : List Str
  seenProducts : List Str
  visitedPages : List Str
  currentUrl : Option Str
  pendingFallback : Option Str
  pageIndex : Nat
deriving DecidableEq

def initState (startUrl : Str) : CrawlState :=
  { collected := [], seenProducts := [], visitedPages := [],
    currentUrl := some startUrl, pendingFallback := none, pageIndex := 1 }

/-- One iteration of the `_crawl_catalog_urls` `while` body (lines 211-249)
after the top-of-loop guards have passed: `.inl` = a `break` with the state
at that point, `.inr` = the state for the next iteration. -/
def crawlBody (cfg : ScrapeCfg) (world : Str → PageView) (st : CrawlState)
    (u : Str) : CrawlState ⊕ CrawlState :=
  let visited2 := st.visitedPages ++ [u]
  let pv := world u
  let r := collectUrls cfg.maxProducts pv.productUrls st.collected st.seenProducts
  let nf := findNextPageUrl cfg pv u (st.pageIndex + 1)
  if pv.productUrls = [] ∨ r.2.2 = 0 then
    match st.pendingFallback with
    | some pf =>
      if pf ≠ [] ∧ pf ∉ visited2 then
        .inr { collected := r.1, seenProducts := r.2.1, visitedPages := visited2,
               currentUrl := some pf, pendingFallback := none,
               pageIndex := st.pageIndex + 1 }
      else
        .inl { collected := r.1, seenProducts := r.2.1, visitedPages := visited2,
               currentUrl := some u, pendingFallback := st.pendingFallback,
               pageIndex := st.pageIndex }
    | none =>
      .inl { collected := r.1, seenProducts := r.2.1, visitedPages := visited2,
             currentUrl := some u, pendingFallback := none,
             pageIndex := st.pageIndex }
  else
    let pending2 : Option Str :=
      match nf.2, nf.1 with
      | some f, some n => if f ≠ [] ∧ n ≠ [] ∧ f ≠ n then some f else none
      | _, _ => none
    match nf.1 with
    | some n =>
      if n = [] ∨ n ∈ visited2 then
        .inl { collected := r.1, seenProducts := r.2.1, visitedPages := visited2,
               currentUrl := some u, pendingFallback := pending2,
               pageIndex := st.pageIndex }
      else
        .inr { collected := r.1, seenProducts := r.2.1, visitedPages := visited2,
               currentUrl := some n, pendingFallback := pending2,
               pageIndex := st.pageIndex + 1 }
    | none =>
      .inl { collected := r.1, seenProducts := r.2.1, visitedPages := visited2,
             currentUrl := some u, pendingFallback := pending2,
             pageIndex := st.pageIndex }

/-- The `while` loop of `_crawl_catalog_urls` (lines 207-249), fuel-indexed
(`none` = fuel exhausted; the C5 theorem shows `2*max_products + 2` fuel
always suffices).  Every exit of the Python loop returns the state at that
point.  Navigation failures (`page.goto` raising, which would abort the
whole crawl with an exception) are not modeled: `world` is total. -/
def crawlLoop (cfg : ScrapeCfg) (world : Str → PageView) :
    Nat → CrawlState → Option CrawlState
  | 0, _ => none
  | fuel + 1, st =>
    match st.currentUrl with
    | none => some st
    | some u =>
      if u = [] then some st
      else if cfg.maxProducts ≤ st.collected.length then some st
      else if u ∈ st.visitedPages then some st
      else
        match crawlBody cfg world st u with
        | .inl stop => some stop
        | .inr next => crawlLoop cfg world fuel next

/- ### Shopify fast path (`_crawl_shopify_catalog_urls`) -/

/-- Outcome of `context.request.get(...)` plus `.json()`: a transport
exception, or a status with the parse result (`none` = JSON decode error). -/
inductive Fetch where
  | err
  | resp (status : Nat) (json : Option PyVal)

/-- Schemes for which `urlparse` splits `;`-params off the path
(CPython `uses_params`, the entries reachable here). -/
def USES_PARAMS : List Str :=
  [[], ofString "ftp", ofString "hdl", ofString "prospero", ofString "http",
   ofString "imap", ofString "https", ofString "shttp", ofString "rtsp",
   ofString "rtsps", ofString "rtspu", ofString "sip", ofString "sips",
   ofString "mms", ofString "sftp", ofString "tel"]

/-- CPython `urllib.parse._splitparams`: split the path's last segment at
its first `;`. -/
def splitParams (p : Str) : Str × Str :=
  if '/' ∈ p then
    let seg := (p.reverse.takeWhile (fun c => c ≠ '/')).reverse
    let pre := p.take (p.length - seg.length)
    match splitOnce ';' seg with
    | some (a, b) => (pre ++ a, b)
    | none => (p, [])
  else
    match splitOnce ';' p with
    | some (a, b) => (a, b)
    | none => (p, [])

/-- The `path` component of `urlparse` (params split off when the scheme
uses them). -/
def urlparsePath (u : Str) : Str :=
  let parsed := urlsplit u
  if parsed.scheme ∈ USES_PARAMS ∧ ';' ∈ parsed.path then
    (splitParams parsed.path).1
  else parsed.path

def pyRstripSlash (s : Str) : Str :=
  (s.reverse.dropWhile (fun c => c = '/')).reverse

/-- The guards and base construction at the top of
`_crawl_shopify_catalog_urls` (lines 280-290): `none` = the fast path
returns `[]` before any request. -/
def shopifyBase (startUrl : Str) : Option Str :=
  if containsStr (ofString "/collections/") startUrl then
    let parsed := urlsplit startUrl
    let path := pyRstripSlash (urlparsePath startUrl)
    if path = [] then none
    else some (parsed.scheme ++ ofString "://" ++ parsed.netloc ++ path)
  else none

def shopifyApiUrl (base : Str) (pageIndex : Nat) : Str :=
  base ++ ofString "/products.json?limit=250&page=" ++ natToDigits pageIndex

/-- The per-payload product loop (lines 314-324): for each dict product
with a truthy handle, append the *normalized* URL if unseen; stop at the
budget. -/
def shopifyCollect (cfg : ScrapeCfg) : List PyVal → List Str → List Str →
    List Str × List Str
  | [], collected, seen => (collected, seen)
  | product :: rest, collected, seen =>
    let handle : Option PyVal :=
      match product with
      | .dict d => dictGet d (ofString "handle")
      | _ => none
    match handle with
    | some h =>
      if pyTruthy h then
        let url := urljoin cfg.baseUrl (ofString "/products/" ++ pyStrOf h)
        let normalized := normalizeProductUrl url
        let cs :=
          if normalized ∈ seen then (collected, seen)
          else (collected ++ [normalized], seen ++ [normalized])
        if cfg.maxProducts ≤ cs.1.length then cs
        else shopifyCollect cfg rest cs.1 cs.2
      else shopifyCollect cfg rest collected seen
    | none => shopifyCollect cfg rest collected seen

/-- The `while` loop of `_crawl_shopify_catalog_urls` (lines 293-326),
fuel-indexed.  Transport errors, statuses ≥ 400 and JSON failures abandon
the fast path with `[]`; a falsy `products` payload breaks with what was
collected. -/
def shopifyLoop (cfg : ScrapeCfg) (fetch : Str → Fetch) (base : Str) :
    Nat → Nat → List Str → List Str → Option (List Str)
  | 0, _, _, _ => none
  | fuel + 1, pageIndex, collected, seen =>
    if cfg.maxProducts ≤ collected.length then some collected
    else
      match fetch (shopifyApiUrl base pageIndex) with
      | .err => some []
      | .resp status json =>
        if 400 ≤ status then some []
        else
          match json with
          | none => some []
          | some payload =>
            match (match payload with
                   | .dict d => dictGet d (ofString "products")
                   | _ => none) with
            | some pval =>
              if pyTruthy pval then
                shopifyLoop cfg fetch base fuel (pageIndex + 1)
                  (shopifyCollect cfg (pyItems pval) collected seen).1
                  (shopifyCollect cfg (pyItems pval) collected seen).2
              else some collected
            | none => some collected

/-- `_crawl_shopify_catalog_urls` (`if not collected: return []` is the
identity on the list). -/
def crawlShopify (cfg : ScrapeCfg) (fetch : Str → Fetch) (fuel : Nat)
    (startUrl : Str) : Option (List Str) :=
  match shopifyBase startUrl with
  | none => some []
  | some base => shopifyLoop cfg fetch base fuel 1 [] []

/-- `_crawl_catalog_urls` (lines 195-251): the Shopify fast path first; its
result is returned iff non-empty, else the generic DOM crawl runs. -/
def crawlCatalogUrls (cfg : ScrapeCfg) (fetch : Str → Fetch)
    (world : Str → PageView) (fuel : Nat) (startUrl : Str) : Option (List Str) :=
  match crawlShopify cfg fetch fuel startUrl with
  | none => none
  | some shopifyUrls =>
    if shopifyUrls ≠ [] then some shopifyUrls
    else (crawlLoop cfg world fuel (initState startUrl)).map
      (fun st => st.collected)

/- ### Crawl invariants -/

theorem collectUrls_len (maxP : Nat) (urls : List Str) : ∀ c s : List Str,
    (collectUrls maxP urls c s).1.length =
      c.length + (collectUrls maxP urls c s).2.2 := by
  induction urls with
  | nil => intro c s; simp [collectUrls]
  | cons url rest ih =>
    intro c s
    rw [collectUrls]
    by_cases hn : normalizeProductUrl url ∈ s
    · simp only [hn, if_pos]
      exact ih c s
    · simp only [hn, if_neg, reduceIte]
      simp only [List.length_append, List.length_singleton]
      by_cases hb : maxP ≤ c.length + 1
      · simp [hb]
      · simp only [hb, if_neg, reduceIte]
        have h2 := ih (c ++ [url]) (s ++ [normalizeProductUrl url])
        simp only [List.length_append, List.length_singleton] at h2 ⊢
        omega

theorem collectUrls_budget (maxP : Nat) (urls : List Str) : ∀ c s : List Str,
    c.length < maxP → (collectUrls maxP urls c s).1.length ≤ maxP := by
  induction urls with
  | nil => intro c s h; simp [collectUrls]; omega
  | cons url rest ih =>
    intro c s h
    rw [collectUrls]
    by_cases hn : normalizeProductUrl url ∈ s
    · simp only [hn, if_pos]
      exact ih c s h
    · simp only [hn, if_neg, reduceIte]
      simp only [List.length_append, List.length_singleton]
      by_cases hb : maxP ≤ c.length + 1
      · simp only [hb, if_pos]
        simp only [List.length_append, List.length_singleton]
        omega
      · simp only [hb, if_neg, reduceIte]
        exact ih (c ++ [url]) (s ++ [normalizeProductUrl url])
          (by simp only [List.length_append, List.length_singleton]; omega)

theorem collectUrls_inv (maxP : Nat) (urls : List Str) : ∀ c s : List Str,
    (∀ u ∈ c, normalizeProductUrl u ∈ s) →
    (c.map normalizeProductUrl).Nodup →
    (∀ u ∈ (collectUrls maxP urls c s).1,
        normalizeProductUrl u ∈ (collectUrls maxP urls c s).2.1) ∧
      ((collectUrls maxP urls c s).1.map normalizeProductUrl).Nodup := by
  induction urls with
  | nil =>
    intro c s h1 h2
    simpa [collectUrls] using ⟨h1, h2⟩
  | cons url rest ih =>
    intro c s h1 h2
    rw [collectUrls]
    by_cases hn : normalizeProductUrl url ∈ s
    · simp only [hn, if_pos]
      exact ih c s h1 h2
    · simp only [hn, if_neg, reduceIte]
      have h1' : ∀ u ∈ c ++ [url],
          normalizeProductUrl u ∈ s ++ [normalizeProductUrl url] := by
        intro u hu
        rcases List.mem_append.mp hu with h | h
        · exact List.mem_append.mpr (Or.inl (h1 u h))
        · rw [List.mem_singleton.mp h]
          exact List.mem_append.mpr (Or.inr (List.mem_singleton.mpr rfl))
      have h2' : ((c ++ [url]).map normalizeProductUrl).Nodup := by
        rw [List.map_append]
        refine List.Nodup.append h2 (by simp) ?_
        intro x hx hy
        simp only [List.map_cons, List.map_nil, List.mem_singleton] at hy
        rw [List.mem_map] at hx
        obtain ⟨v, hv, hvx⟩ := hx
        rw [hy] at hvx
        exact hn (hvx ▸ h1 v hv)
      by_cases hb : maxP ≤ (c ++ [url]).length
      · simp only [hb, if_pos]
        exact ⟨h1', h2'⟩
      · simp only [hb, if_neg, reduceIte]
        exact ih (c ++ [url]) (s ++ [normalizeProductUrl url]) h1' h2'

/-- The state carried by either outcome of `crawlBody`. -/
def stOf : CrawlState ⊕ CrawlState → CrawlState
  | .inl s => s
  | .inr s => s

/-- Every state `crawlBody` produces carries the updated collection, seen
set and visited list. -/
theorem crawlBody_shape (cfg : ScrapeCfg) (world : Str → PageView)
    (st : CrawlState) (u : Str) :
    (stOf (crawlBody cfg world st u)).collected =
      (collectUrls cfg.maxProducts (world u).productUrls
        st.collected st.seenProducts).1 ∧
    (stOf (crawlBody cfg world st u)).seenProducts =
      (collectUrls cfg.maxProducts (world u).productUrls
        st.collected st.seenProducts).2.1 ∧
    (stOf (crawlBody cfg world st u)).visitedPages =
      st.visitedPages ++ [u] := by
  rw [crawlBody]
  repeat' split
  all_goals exact ⟨rfl, rfl, rfl⟩

theorem crawlBody_inr_measure (cfg : ScrapeCfg) (world : Str → PageView)
    (st : CrawlState) (u : Str) (st2 : CrawlState)
    (h : crawlBody cfg world st u = .inr st2) :
    st.collected.length ≤ st2.collected.length ∧
    ((st2.pendingFallback = none ∧ st.pendingFallback ≠ none) ∨
      st.collected.length + 1 ≤ st2.collected.length) := by
  have hlen := collectUrls_len cfg.maxProducts (world u).productUrls
    st.collected st.seenProducts
  simp only [crawlBody] at h
  split at h
  · rename_i hempty
    split at h
    · rename_i pf hpf
      split at h
      · injection h with h2
        rw [← h2]
        constructor
        · show st.collected.length ≤ (collectUrls cfg.maxProducts
            (world u).productUrls st.collected st.seenProducts).1.length
          omega
        · refine Or.inl ⟨rfl, ?_⟩
          rw [hpf]
          simp
      · cases h
    · cases h
  · rename_i hfull
    have hcount : (collectUrls cfg.maxProducts (world u).productUrls
        st.collected st.seenProducts).2.2 ≠ 0 := by
      intro hc
      exact hfull (Or.inr hc)
    split at h
    · split at h
      · cases h
      · injection h with h2
        rw [← h2]
        constructor
        · show st.collected.length ≤ (collectUrls cfg.maxProducts
            (world u).productUrls st.collected st.seenProducts).1.length
          omega
        · refine Or.inr ?_
          show st.collected.length + 1 ≤ (collectUrls cfg.maxProducts
            (world u).productUrls st.collected st.seenProducts).1.length
          omega
    · cases h

/-- The combined loop invariant of `_crawl_catalog_urls`: the seen set
covers the collected URLs' normalizations, collected URLs are distinct
under normalization, the visited list is duplicate-free, and the budget
holds. -/
def CrawlInv (cfg : ScrapeCfg) (st : CrawlState) : Prop :=
  (∀ u ∈ st.collected, normalizeProductUrl u ∈ st.seenProducts) ∧
  (st.collected.map normalizeProductUrl).Nodup ∧
  st.visitedPages.Nodup ∧
  st.collected.length ≤ cfg.maxProducts

theorem stOf_eq (c : CrawlState ⊕ CrawlState) (s : CrawlState)
    (h : c = .inl s ∨ c = .inr s) : stOf c = s := by
  rcases h with h | h <;> rw [h] <;> rfl

theorem crawlBody_inv (cfg : ScrapeCfg) (world : Str → PageView)
    (st : CrawlState) (u : Str)
    (hinv : CrawlInv cfg st)
    (hbud : st.collected.length < cfg.maxProducts)
    (hu : u ∉ st.visitedPages) :
    CrawlInv cfg (stOf (crawlBody cfg world st u)) := by
  obtain ⟨hc1, hc2, hc3, _⟩ := hinv
  obtain ⟨hs1, hs2, hs3⟩ := crawlBody_shape cfg world st u
  obtain ⟨hi1, hi2⟩ := collectUrls_inv cfg.maxProducts (world u).productUrls
    st.collected st.seenProducts hc1 hc2
  refine ⟨?_, ?_, ?_, ?_⟩
  · rw [hs1, hs2]
    exact hi1
  · rw [hs1]
    exact hi2
  · rw [hs3]
    refine List.Nodup.append hc3 (by simp) ?_
    intro x hx hy
    rw [List.mem_singleton] at hy
    rw [hy] at hx
    exact hu hx
  · rw [hs1]
    exact collectUrls_budget cfg.maxProducts (world u).productUrls
      st.collected st.seenProducts hbud

theorem crawlLoop_inv (cfg : ScrapeCfg) (world : Str → PageView) :
    ∀ fuel (st st' : CrawlState), CrawlInv cfg st →
      crawlLoop cfg world fuel st = some st' → CrawlInv cfg st' := by
  intro fuel
  induction fuel with
  | zero =>
    intro st st' hinv hc
    rw [crawlLoop] at hc
    cases hc
  | succ fuel ih =>
    intro st st' hinv hc
    rw [crawlLoop] at hc
    split at hc
    · injection hc with h2
      rw [← h2]
      exact hinv
    · rename_i u hueq
      split at hc
      · injection hc with h2
        rw [← h2]
        exact hinv
      · split at hc
        · injection hc with h2
          rw [← h2]
          exact hinv
        · rename_i hbud
          split at hc
          · injection hc with h2
            rw [← h2]
            exact hinv
          · rename_i hvis
            split at hc
            · rename_i stop hstop
              injection hc with h2
              rw [← h2, ← stOf_eq _ stop (Or.inl hstop)]
              exact crawlBody_inv cfg world st u hinv (by omega) hvis
            · rename_i next hnext
              refine ih next st' ?_ hc
              rw [← stOf_eq _ next (Or.inr hnext)]
              exact crawlBody_inv cfg world st u hinv (by omega) hvis

/-- `1` iff a fallback URL is pending. -/
def pendingBit (st : CrawlState) : Nat :=
  match st.pendingFallback with
  | none => 0
  | some _ => 1

theorem pendingBit_le (st : CrawlState) : pendingBit st ≤ 1 := by
  rw [pendingBit]
  split <;> omega

/-- The loop always terminates: `2*(budget remaining) + pending + 1` fuel
suffices, because every iteration either collects a new product or consumes
the single pending fallback. -/
theorem crawlLoop_term (cfg : ScrapeCfg) (world : Str → PageView) :
    ∀ fuel (st : CrawlState),
      2 * (cfg.maxProducts - st.collected.length) + pendingBit st + 1 ≤ fuel →
      (crawlLoop cfg world fuel st).isSome = true := by
  intro fuel
  induction fuel with
  | zero =>
    intro st h
    exact absurd h (by omega)
  | succ fuel ih =>
    intro st h
    rw [crawlLoop]
    split
    · rfl
    · rename_i u hueq
      split
      · rfl
      · split
        · rfl
        · rename_i hbud
          split
          · rfl
          · split
            · rfl
            · rename_i next hnext
              apply ih
              have hm := crawlBody_inr_measure cfg world st u next hnext
              have hb2 := pendingBit_le next
              rcases hm.2 with ⟨hp2, hp1⟩ | hadv
              · have hbit2 : pendingBit next = 0 := by
                  rw [pendingBit, hp2]
                have hbit1 : pendingBit st = 1 := by
                  rw [pendingBit]
                  split
                  · rename_i hn
                    exact absurd hn hp1
                  · rfl
                rw [hbit2]
                rw [hbit1] at h
                have hmono : cfg.maxProducts - next.collected.length ≤
                    cfg.maxProducts - st.collected.length :=
                  Nat.sub_le_sub_left hm.1 _
                omega
              · have hlt : st.collected.length < cfg.maxProducts := by omega
                have hsub : cfg.maxProducts - next.collected.length + 1 ≤
                    cfg.maxProducts - st.collected.length := by omega
                have hble := pendingBit_le st
                omega

theorem shopifyCollect_inv (cfg : ScrapeCfg) (products : List PyVal) :
    ∀ c s : List Str,
      (∀ u ∈ c, u ∈ s ∧ normalizeProductUrl u = u) → c.Nodup →
      (∀ u ∈ (shopifyCollect cfg products c s).1,
          u ∈ (shopifyCollect cfg products c s).2 ∧
          normalizeProductUrl u = u) ∧
        (shopifyCollect cfg products c s).1.Nodup := by
  induction products with
  | nil =>
    intro c s h1 h2
    exact ⟨h1, h2⟩
  | cons product rest ih =>
    intro c s h1 h2
    simp only [shopifyCollect]
    split
    · rename_i h hh
      split
      · split
        · rename_i hdup
          split
          · exact ⟨h1, h2⟩
          · exact ih c s h1 h2
        · rename_i hfresh
          have h1' : ∀ u ∈ c ++ [normalizeProductUrl
              (urljoin cfg.baseUrl (ofString "/products/" ++ pyStrOf h))],
              u ∈ s ++ [normalizeProductUrl
                (urljoin cfg.baseUrl (ofString "/products/" ++ pyStrOf h))] ∧
              normalizeProductUrl u = u := by
            intro u hu
            rcases List.mem_append.mp hu with hm | hm
            · exact ⟨List.mem_append.mpr (Or.inl (h1 u hm).1), (h1 u hm).2⟩
            · rw [List.mem_singleton.mp hm]
              exact ⟨List.mem_append.mpr (Or.inr (List.mem_singleton.mpr rfl)),
                normalize_idem _⟩
          have h2' : (c ++ [normalizeProductUrl
              (urljoin cfg.baseUrl (ofString "/products/" ++ pyStrOf h))]).Nodup := by
            refine List.Nodup.append h2 (by simp) ?_
            intro x hx hy
            rw [List.mem_singleton] at hy
            rw [hy] at hx
            exact hfresh (h1 _ hx).1
          split
          · exact ⟨h1', h2'⟩
          · exact ih _ _ h1' h2'
      · exact ih c s h1 h2
    · exact ih c s h1 h2

theorem shopifyCollect_budget (cfg : ScrapeCfg) (products : List PyVal) :
    ∀ c s : List Str, c.length < cfg.maxProducts →
      (shopifyCollect cfg products c s).1.length ≤ cfg.maxProducts := by
  induction products with
  | nil =>
    intro c s h
    exact Nat.le_of_lt h
  | cons product rest ih =>
    intro c s h
    simp only [shopifyCollect]
    split
    · rename_i hv hh
      split
      · split
        · rename_i hdup
          split
          · exact Nat.le_of_lt h
          · exact ih c s h
        · rename_i hfresh
          split
          · rename_i hb
            simp only [List.length_append, List.length_singleton]
            omega
          · rename_i hb
            refine ih _ _ ?_
            simp only [List.length_append, List.length_singleton] at hb ⊢
            omega
      · exact ih c s h
    · exact ih c s h

theorem shopifyLoop_inv (cfg : ScrapeCfg) (fetch : Str → Fetch) (base : Str) :
    ∀ fuel k (c s : List Str) (l : List Str),
      (∀ u ∈ c, u ∈ s ∧ normalizeProductUrl u = u) → c.Nodup →
      c.length ≤ cfg.maxProducts →
      shopifyLoop cfg fetch base fuel k c s = some l →
      (l.map normalizeProductUrl).Nodup ∧ l.length ≤ cfg.maxProducts := by
  intro fuel
  induction fuel with
  | zero =>
    intro k c s l h1 h2 h3 hl
    rw [shopifyLoop] at hl
    cases hl
  | succ fuel ih =>
    intro k c s l h1 h2 h3 hl
    have hcase : l = c ∨ l = [] ∨
        (∃ products, shopifyLoop cfg fetch base fuel (k + 1)
          (shopifyCollect cfg products c s).1
          (shopifyCollect cfg products c s).2 = some l ∧
          c.length < cfg.maxProducts) := by
      rw [shopifyLoop] at hl
      split at hl
      · exact Or.inl (Option.some.inj hl).symm
      · rename_i hbud
        split at hl
        · exact Or.inr (Or.inl (Option.some.inj hl).symm)
        · split at hl
          · exact Or.inr (Or.inl (Option.some.inj hl).symm)
          · split at hl
            · exact Or.inr (Or.inl (Option.some.inj hl).symm)
            · rename_i payload
              split at hl
              · rename_i pval hp
                split at hl
                · exact Or.inr (Or.inr ⟨pyItems pval, hl, by omega⟩)
                · exact Or.inl (Option.some.inj hl).symm
              · exact Or.inl (Option.some.inj hl).symm
    have hmapc : c.map normalizeProductUrl = c := by
      rw [List.map_congr_left (fun u hu => (h1 u hu).2)]
      simp
    rcases hcase with h | h | ⟨products, hrec, hlt⟩
    · rw [h, hmapc]
      exact ⟨h2, h ▸ h3⟩
    · rw [h]
      exact ⟨by simp, by simp⟩
    · obtain ⟨hi1, hi2⟩ := shopifyCollect_inv cfg products c s h1 h2
      exact ih (k + 1) _ _ l hi1 hi2
        (shopifyCollect_budget cfg products c s hlt) hrec

/- ### Concrete worlds used by the crawl theorems -/

def exampleCfg : ScrapeCfg :=
  { baseUrl := ofString "http://s", paginationSelector := none,
    paginationParam := none, maxProducts := DEFAULT_MAX_PRODUCTS }

def pageEmpty : PageView :=
  { productUrls := [], locCount := fun _ => 0, locHref := fun _ => none }

/-- A catalog whose only page has one product and no pagination markup. -/
def worldNoNext : Str → PageView := fun u =>
  if u = ofString "http://s/c" then
    { productUrls := [ofString "http://s/p1"], locCount := fun _ => 0,
      locHref := fun _ => none }
  else pageEmpty

/-- Page 1 links to page 2; page 2 repeats page 1's product and its `Next`
link points back to the already-visited page 1. -/
def worldFallback : Str → PageView := fun u =>
  if u = ofString "http://s/c" then
    { productUrls := [ofString "http://s/p1"], locCount := fun _ => 1,
      locHref := fun _ => some (ofString "/c2") }
  else if u = ofString "http://s/c2" then
    { productUrls := [ofString "http://s/p1"], locCount := fun _ => 1,
      locHref := fun _ => some (ofString "/c") }
  else pageEmpty

/-- Page 1's `Next` link points back to page 1 itself. -/
def worldSelfNext : Str → PageView := fun u =>
  if u = ofString "http://s/c" then
    { productUrls := [ofString "http://s/p1"], locCount := fun _ => 1,
      locHref := fun _ => some (ofString "/c") }
  else pageEmpty

def shopifyStart : Str := ofString "http://s/collections/all"

def payloadOneProduct : PyVal :=
  .dict [(ofString "products",
    .list [.dict [(ofString "handle", .str (ofString "h1"))]])]

def payloadNoProducts : PyVal := .dict [(ofString "products", .list [])]

/-- One product on API page 1, then empty pages. -/
def fetchOnePage : Str → Fetch := fun u =>
  if u = shopifyApiUrl (ofString "http://s/collections/all") 1 then
    .resp 200 (some payloadOneProduct)
  else .resp 200 (some payloadNoProducts)

def fetchTransportErr : Str → Fetch := fun _ => .err

def fetchEmptyFirstPage : Str → Fetch := fun _ =>
  .resp 200 (some payloadNoProducts)

/- ### Claim theorems: dedup and budget -/

/-- C3: dedup invariant.  For every configuration, environment, fuel and
start URL, the collected product-URL list of either pagination strategy —
and hence of `_crawl_catalog_urls` — contains no two entries with the same
`_normalize_product_url` image. -/
theorem C3_dedup (cfg : ScrapeCfg) (fetch : Str → Fetch)
    (world : Str → PageView) (fuel : Nat) (start : Str) :
    (∀ l, crawlShopify cfg fetch fuel start = some l →
      (l.map normalizeProductUrl).Nodup) ∧
    (∀ st', crawlLoop cfg world fuel (initState start) = some st' →
      (st'.collected.map normalizeProductUrl).Nodup) ∧
    (∀ l, crawlCatalogUrls cfg fetch world fuel start = some l →
      (l.map normalizeProductUrl).Nodup) := by
  have hshop : ∀ l, crawlShopify cfg fetch fuel start = some l →
      (l.map normalizeProductUrl).Nodup := by
    intro l hl
    rw [crawlShopify] at hl
    split at hl
    · rw [← Option.some.inj hl]
      simp
    · exact (shopifyLoop_inv cfg fetch _ fuel 1 [] [] l (by simp) (by simp)
        (by simp) hl).1
  have hgen : ∀ st', crawlLoop cfg world fuel (initState start) = some st' →
      (st'.collected.map normalizeProductUrl).Nodup := by
    intro st' hst
    exact (crawlLoop_inv cfg world fuel _ st'
      ⟨by simp [initState], by simp [initState], by simp [initState],
        by simp [initState]⟩ hst).2.1
  refine ⟨hshop, hgen, ?_⟩
  intro l hl
  rw [crawlCatalogUrls] at hl
  split at hl
  · cases hl
  · rename_i shopUrls hshopeq
    split at hl
    · rw [← Option.some.inj hl]
      exact hshop shopUrls hshopeq
    · obtain ⟨st', hst, hcol⟩ := Option.map_eq_some'.mp hl
      rw [← hcol]
      exact hgen st' hst

/-- C3 witness: a dedup run through the Shopify fast path at a concrete
world. -/
theorem C3_dedup_witness :
    crawlCatalogUrls exampleCfg fetchOnePage worldNoNext 152 shopifyStart =
      some [ofString "http://s/products/h1"] ∧
    (([ofString "http://s/products/h1"]).map normalizeProductUrl).Nodup :=
  ⟨by decide,
   (C3_dedup exampleCfg fetchOnePage worldNoNext 152 shopifyStart).2.2 _
     (by decide)⟩

/-- C4: budget invariant.  For every configuration (`max_products` defaults
to `DEFAULT_MAX_PRODUCTS = 75`), environment, fuel and start URL, the
collected list of either strategy — and of `_crawl_catalog_urls` — never
exceeds `max_products`; the quantification over fuel covers every partial
run, so the bound holds at all times. -/
theorem C4_budget (cfg : ScrapeCfg) (fetch : Str → Fetch)
    (world : Str → PageView) (fuel : Nat) (start : Str) :
    (∀ l, crawlShopify cfg fetch fuel start = some l →
      l.length ≤ cfg.maxProducts) ∧
    (∀ st', crawlLoop cfg world fuel (initState start) = some st' →
      st'.collected.length ≤ cfg.maxProducts) ∧
    (∀ l, crawlCatalogUrls cfg fetch world fuel start = some l →
      l.length ≤ cfg.maxProducts) := by
  have hshop : ∀ l, crawlShopify cfg fetch fuel start = some l →
      l.length ≤ cfg.maxProducts := by
    intro l hl
    rw [crawlShopify] at hl
    split at hl
    · rw [← Option.some.inj hl]
      simp
    · exact (shopifyLoop_inv cfg fetch _ fuel 1 [] [] l (by simp) (by simp)
        (by simp) hl).2
  have hgen : ∀ st', crawlLoop cfg world fuel (initState start) = some st' →
      st'.collected.length ≤ cfg.maxProducts := by
    intro st' hst
    exact (crawlLoop_inv cfg world fuel _ st'
      ⟨by simp [initState], by simp [initState], by simp [initState],
        by simp [initState]⟩ hst).2.2.2
  refine ⟨hshop, hgen, ?_⟩
  intro l hl
  rw [crawlCatalogUrls] at hl
  split at hl
  · cases hl
  · rename_i shopUrls hshopeq
    split at hl
    · rw [← Option.some.inj hl]
      exact hshop shopUrls hshopeq
    · obtain ⟨st', hst, hcol⟩ := Option.map_eq_some'.mp hl
      rw [← hcol]
      exact hgen st' hst

/-- C4 witness: the budget bound at a concrete crawl through both
strategies' composition. -/
theorem C4_budget_witness :
    crawlCatalogUrls exampleCfg fetchOnePage worldNoNext 152 shopifyStart =
      some [ofString "http://s/products/h1"] ∧
    ([ofString "http://s/products/h1"]).length ≤ exampleCfg.maxProducts :=
  ⟨by decide,
   (C4_budget exampleCfg fetchOnePage worldNoNext 152 shopifyStart).2.2 _
     (by decide)⟩

/- ### Claim theorems: pagination advance and termination -/

/-- C2: COUNTEREXAMPLE to "no selector match implies the crawl stops at
that page".  In `worldNoNext` the only catalog page yields one product and
no pagination selector matches, yet the crawl navigates onward to the
query-param-incremented guess `http://s/c?page=2` (which becomes the second
visited page). -/
theorem C2_next_guess_counterexample :
    findHref (worldNoNext (ofString "http://s/c")) (selectorList exampleCfg) =
      none ∧
    withPaginationParam (ofString "http://s/c") (paginationParamOf exampleCfg)
      2 = ofString "http://s/c?page=2" ∧
    (crawlLoop exampleCfg worldNoNext 152
      (initState (ofString "http://s/c"))).map (fun st => st.visitedPages) =
      some [ofString "http://s/c", ofString "http://s/c?page=2"] := by
  decide

/-- C2 (amended): when no selector in the ordered `next` list matches,
`_find_next_page_url` returns the query-param-incremented guess *as the
next URL* (with no fallback), and a page that yielded new product links
advances the crawl to that guess whenever it is non-empty and unvisited —
the crawl does not stop at that page. -/
theorem C2_next_guess_amended (cfg : ScrapeCfg) (world : Str → PageView)
    (fuel : Nat) (st : CrawlState) (u : Str)
    (hcur : st.currentUrl = some u) (hne : u ≠ [])
    (hbud : st.collected.length < cfg.maxProducts)
    (hvis : u ∉ st.visitedPages)
    (hsel : findHref (world u) (selectorList cfg) = none)
    (hprod : (world u).productUrls ≠ [])
    (hnew : (collectUrls cfg.maxProducts (world u).productUrls st.collected
      st.seenProducts).2.2 ≠ 0)
    (hguess_ne : withPaginationParam u (paginationParamOf cfg)
      (st.pageIndex + 1) ≠ [])
    (hguess_fresh : withPaginationParam u (paginationParamOf cfg)
      (st.pageIndex + 1) ∉ st.visitedPages ++ [u]) :
    findNextPageUrl cfg (world u) u (st.pageIndex + 1) =
      (some (withPaginationParam u (paginationParamOf cfg) (st.pageIndex + 1)),
        none) ∧
    crawlLoop cfg world (fuel + 1) st =
      crawlLoop cfg world fuel
        { collected := (collectUrls cfg.maxProducts (world u).productUrls
            st.collected st.seenProducts).1,
          seenProducts := (collectUrls cfg.maxProducts (world u).productUrls
            st.collected st.seenProducts).2.1,
          visitedPages := st.visitedPages ++ [u],
          currentUrl := some (withPaginationParam u (paginationParamOf cfg)
            (st.pageIndex + 1)),
          pendingFallback := none,
          pageIndex := st.pageIndex + 1 } := by
  have hfind : findNextPageUrl cfg (world u) u (st.pageIndex + 1) =
      (some (withPaginationParam u (paginationParamOf cfg) (st.pageIndex + 1)),
        none) := by
    rw [findNextPageUrl, hsel]
  refine ⟨hfind, ?_⟩
  have hbud2 : ¬ cfg.maxProducts ≤ st.collected.length := by omega
  have hbody : crawlBody cfg world st u = .inr
      { collected := (collectUrls cfg.maxProducts (world u).productUrls
          st.collected st.seenProducts).1,
        seenProducts := (collectUrls cfg.maxProducts (world u).productUrls
          st.collected st.seenProducts).2.1,
        visitedPages := st.visitedPages ++ [u],
        currentUrl := some (withPaginationParam u (paginationParamOf cfg)
          (st.pageIndex + 1)),
        pendingFallback := none,
        pageIndex := st.pageIndex + 1 } := by
    have hor : ¬((world u).productUrls = [] ∨
        (collectUrls cfg.maxProducts (world u).productUrls st.collected
          st.seenProducts).2.2 = 0) := by
      intro hc
      rcases hc with hc | hc
      · exact hprod hc
      · exact hnew hc
    have hor2 : ¬(withPaginationParam u (paginationParamOf cfg)
        (st.pageIndex + 1) = [] ∨
        withPaginationParam u (paginationParamOf cfg) (st.pageIndex + 1) ∈
          st.visitedPages ++ [u]) := by
      intro hc
      rcases hc with hc | hc
      · exact hguess_ne hc
      · exact hguess_fresh hc
    rw [crawlBody]
    simp only [hfind, hor, if_neg, reduceIte, hor2]
  rw [crawlLoop, hcur]
  simp only [hne, reduceIte, hbud2, hvis, not_false_eq_true, hbody]

/-- C2 amended witness: the one-page world with no selector match advances
to the concrete guess `http://s/c?page=2`. -/
theorem C2_next_guess_amended_witness :
    findHref (worldNoNext (ofString "http://s/c")) (selectorList exampleCfg) =
      none ∧
    crawlLoop exampleCfg worldNoNext 152 (initState (ofString "http://s/c")) =
      crawlLoop exampleCfg worldNoNext 151
        { collected := (collectUrls exampleCfg.maxProducts
            (worldNoNext (ofString "http://s/c")).productUrls
            (initState (ofString "http://s/c")).collected
            (initState (ofString "http://s/c")).seenProducts).1,
          seenProducts := (collectUrls exampleCfg.maxProducts
            (worldNoNext (ofString "http://s/c")).productUrls
            (initState (ofString "http://s/c")).collected
            (initState (ofString "http://s/c")).seenProducts).2.1,
          visitedPages := (initState (ofString "http://s/c")).visitedPages ++
            [ofString "http://s/c"],
          currentUrl := some (withPaginationParam (ofString "http://s/c")
            (paginationParamOf exampleCfg)
            ((initState (ofString "http://s/c")).pageIndex + 1)),
          pendingFallback := none,
          pageIndex := (initState (ofString "http://s/c")).pageIndex + 1 } :=
  ⟨by decide,
   (C2_next_guess_amended exampleCfg worldNoNext 151
     (initState (ofString "http://s/c")) (ofString "http://s/c") rfl
     (by decide) (by decide) (by decide) (by decide) (by decide) (by decide)
     (by decide) (by decide)).2⟩

/-- C5: COUNTEREXAMPLE to "a next URL already in the visited set stops the
crawl immediately, regardless of other signals".  In `worldFallback`,
page 2's structural next URL is the already-visited page 1; but because
page 2 yielded no new products the crawl instead retries the pending
fallback URL and visits a third page. -/
theorem C5_visited_counterexample :
    (findNextPageUrl exampleCfg (worldFallback (ofString "http://s/c2"))
      (ofString "http://s/c2") 3).1 = some (ofString "http://s/c") ∧
    (crawlLoop exampleCfg worldFallback 152
      (initState (ofString "http://s/c"))).map (fun st => st.visitedPages) =
      some [ofString "http://s/c", ofString "http://s/c2",
        ofString "http://s/c?page=2"] := by
  decide

/-- C5 (amended): the generic crawl visits each page URL at most once
(`visited` is duplicate-free), always terminates — `2*max_products + 2`
fuel suffices for every environment — and in the spec's scenario B (page 1
whose `Next` link points back to page 1) it stops after one page with no
fallback retry. -/
theorem C5_termination_amended :
    (∀ (cfg : ScrapeCfg) (world : Str → PageView) (fuel : Nat) (start : Str)
      (st' : CrawlState),
      crawlLoop cfg world fuel (initState start) = some st' →
      st'.visitedPages.Nodup) ∧
    (∀ (cfg : ScrapeCfg) (world : Str → PageView) (fuel : Nat) (start : Str),
      2 * cfg.maxProducts + 2 ≤ fuel →
      (crawlLoop cfg world fuel (initState start)).isSome = true) ∧
    (crawlLoop exampleCfg worldSelfNext 152
      (initState (ofString "http://s/c"))).map
        (fun st => (st.visitedPages, st.collected)) =
      some ([ofString "http://s/c"], [ofString "http://s/p1"]) := by
  refine ⟨?_, ?_, by decide⟩
  · intro cfg world fuel start st' h
    exact (crawlLoop_inv cfg world fuel _ st'
      ⟨by simp [initState], by simp [initState], by simp [initState],
        by simp [initState]⟩ h).2.2.1
  · intro cfg world fuel start h
    refine crawlLoop_term cfg world fuel (initState start) ?_
    have hpb : pendingBit (initState start) = 0 := rfl
    have hcol : (initState start).collected.length = 0 := rfl
    rw [hpb, hcol]
    omega

/-- C5 amended witness: termination at a concrete cyclic world within the
`2*max_products + 2` fuel bound. -/
theorem C5_termination_amended_witness :
    2 * exampleCfg.maxProducts + 2 ≤ 152 ∧
    (crawlLoop exampleCfg worldFallback 152
      (initState (ofString "http://s/c"))).isSome = true :=
  ⟨by decide,
   C5_termination_amended.2.1 exampleCfg worldFallback 152
     (ofString "http://s/c") (by decide)⟩

/- ### Claim theorem: fast-path failure policy -/

/-- C8: fast-path failure policy.  On any page of the Shopify fast path, a
transport error, an HTTP status ≥ 400 or a JSON-decode failure makes the
fast path return `[]` (discarding anything collected so far); a falsy
`products` payload is a normal break with the URLs collected so far — at
the first page that is `[]`, a legitimate "no fast path" signal; and the
generic DOM crawl runs if and only if the fast path result is empty. -/
theorem C8_fastpath_policy :
    (∀ (cfg : ScrapeCfg) (fetch : Str → Fetch) (base : Str) (fuel k : Nat)
        (c s : List Str), c.length < cfg.maxProducts →
      fetch (shopifyApiUrl base k) = .err →
      shopifyLoop cfg fetch base (fuel + 1) k c s = some []) ∧
    (∀ (cfg : ScrapeCfg) (fetch : Str → Fetch) (base : Str) (fuel k : Nat)
        (c s : List Str) (status : Nat) (json : Option PyVal),
      c.length < cfg.maxProducts →
      fetch (shopifyApiUrl base k) = .resp status json → 400 ≤ status →
      shopifyLoop cfg fetch base (fuel + 1) k c s = some []) ∧
    (∀ (cfg : ScrapeCfg) (fetch : Str → Fetch) (base : Str) (fuel k : Nat)
        (c s : List Str) (status : Nat),
      c.length < cfg.maxProducts →
      fetch (shopifyApiUrl base k) = .resp status none → ¬ 400 ≤ status →
      shopifyLoop cfg fetch base (fuel + 1) k c s = some []) ∧
    (∀ (cfg : ScrapeCfg) (fetch : Str → Fetch) (base : Str) (fuel k : Nat)
        (c s : List Str) (status : Nat) (payload : PyVal),
      c.length < cfg.maxProducts →
      fetch (shopifyApiUrl base k) = .resp status (some payload) →
      ¬ 400 ≤ status →
      optTruthy (match payload with
        | PyVal.dict d => dictGet d (ofString "products")
        | _ => none) = false →
      shopifyLoop cfg fetch base (fuel + 1) k c s = some c) ∧
    (∀ (cfg : ScrapeCfg) (fetch : Str → Fetch) (world : Str → PageView)
        (fuel : Nat) (start : Str) (l : List Str),
      crawlShopify cfg fetch fuel start = some l →
      crawlCatalogUrls cfg fetch world fuel start =
        (if l = [] then
          (crawlLoop cfg world fuel (initState start)).map
            (fun st => st.collected)
        else some l)) := by
  refine ⟨?_, ?_, ?_, ?_, ?_⟩
  · intro cfg fetch base fuel k c s hb hf
    have hb2 : ¬ cfg.maxProducts ≤ c.length := by omega
    rw [shopifyLoop, if_neg hb2, hf]
  · intro cfg fetch base fuel k c s status json hb hf hst
    have hb2 : ¬ cfg.maxProducts ≤ c.length := by omega
    rw [shopifyLoop, if_neg hb2, hf]
    simp only [if_pos hst]
  · intro cfg fetch base fuel k c s status hb hf hst
    have hb2 : ¬ cfg.maxProducts ≤ c.length := by omega
    rw [shopifyLoop, if_neg hb2, hf]
    simp only [if_neg hst]
  · intro cfg fetch base fuel k c s status payload hb hf hst hprod
    have hb2 : ¬ cfg.maxProducts ≤ c.length := by omega
    rw [shopifyLoop, if_neg hb2, hf]
    simp only [if_neg hst]
    cases hp : (match payload with
      | PyVal.dict d => dictGet d (ofString "products")
      | _ => none) with
    | none => rfl
    | some pval =>
      rw [hp] at hprod
      have hpt : pyTruthy pval = false := hprod
      simp only [hpt, Bool.false_eq_true, if_false]
  · intro cfg fetch world fuel start l hl
    rw [crawlCatalogUrls, hl]
    by_cases he : l = []
    · simp [he]
    · simp [he]

/-- C8 witness: a transport error on the first API page at a concrete world
aborts the fast path with `[]`. -/
theorem C8_fastpath_policy_witness :
    fetchTransportErr (shopifyApiUrl (ofString "http://s/collections/all") 1) =
      Fetch.err ∧
    shopifyLoop exampleCfg fetchTransportErr
      (ofString "http://s/collections/all") 152 1 [] [] = some [] :=
  ⟨rfl,
   C8_fastpath_policy.1 exampleCfg fetchTransportErr
     (ofString "http://s/collections/all") 151 1 [] [] (by decide) rfl⟩

/- ### Product pages (`_scrape_product`, `_availability` and helpers) -/

/-- `_clean_text` whitespace collapsing (`re.sub(r"\s+", " ", text)`): the
flag records whether the previous character was whitespace. -/
def collapseWsAux : Bool → Str → Str
  | _, [] => []
  | prevSp, c :: rest =>
    if isPySpace c then
      if prevSp then collapseWsAux true rest
      else ' ' :: collapseWsAux true rest
    else c :: collapseWsAux false rest

def collapseWs (s : Str) : Str := collapseWsAux false s

/-- `_clean_text`: collapse whitespace, strip, `or None`. -/
def cleanText (s : Str) : Option Str :=
  let c := pyStrip (collapseWs s)
  if c = [] then none else some c

/-- Order-preserving dedup (`list(dict.fromkeys(...))`). -/
def dedupAux : List Str → List Str → List Str
  | [], _ => []
  | x :: rest, seen =>
    if x ∈ seen then dedupAux rest seen
    else x :: dedupAux rest (x :: seen)

def dedupFirst (l : List Str) : List Str := dedupAux l []

def DESCRIPTION_BLACKLIST : List Str :=
  [ofString "strictly necessary cookies", ofString "delivery time",
   ofString "shipping method", ofString "free above", ofString "cookie",
   ofString "cookies", ofString "sort by", ofString "prev", ofString "next",
   ofString "wishlist", ofString "shipping"]

/-- `re.split(r"(?<=[.!?])\s+", s)`: split at each maximal whitespace run
that follows `.`, `!` or `?` (the accumulator holds the current part
reversed; fuel is the remaining length). -/
def splitSentAux : Nat → Str → Str → List Str
  | _, acc, [] => [acc.reverse]
  | 0, acc, rest => [acc.reverse ++ rest]
  | fuel + 1, acc, c :: rest =>
    if isPySpace c && (match acc with
        | p :: _ => p = '.' || p = '!' || p = '?'
        | [] => false) then
      acc.reverse :: splitSentAux fuel [] (rest.dropWhile isPySpace)
    else splitSentAux fuel (c :: acc) rest

def splitSentences (s : Str) : List Str := splitSentAux s.length [] s

/-- `_clean_description`: clean, split into sentences, drop any sentence
containing a blacklisted phrase, re-join, `or None`. -/
def cleanDescription : Option Str → Option Str
  | none => none
  | some text =>
    if text = [] then none
    else
      match cleanText text with
      | none => none
      | some cleaned =>
        let filtered := (splitSentences cleaned).filter (fun part =>
          !(DESCRIPTION_BLACKLIST.any (fun b => containsStr b (pyLower part))))
        let joined := pyStrip (List.intercalate [' '] filtered)
        if joined = [] then none else some joined

/-- `_normalize_availability` (base.py lines 562-574). -/
def normalizeAvailability (text : Str) : Option Str :=
  let lowered := pyLower text
  if containsStr (ofString "outofstock") lowered ||
      containsStr (ofString "out of stock") lowered ||
      containsStr (ofString "sold out") lowered then
    some (ofString "out_of_stock")
  else if containsStr (ofString "instock") lowered ||
      containsStr (ofString "in stock") lowered ||
      containsStr (ofString "available") lowered then
    some (ofString "in_stock")
  else if containsStr (ofString "waitlist") lowered then
    some (ofString "out_of_stock")
  else none

def ADD_TO_CART_SELECTORS : List Str :=
  [ofString "button:has-text('Add to Cart')",
   ofString "button:has-text('Add to Bag')",
   ofString "button:has-text('Add to Basket')"]

/-- One JSON-LD script on a page: its raw text and the outcome of
`json.loads(raw.strip())` — the parse outcome is environment data
(`none` = `JSONDecodeError`). -/
structure LdScript where
  raw : Str
  parsed : Option PyVal

/-- What the browser exposes of one product page.  `navOk` is whether
`page.goto` succeeded; `cartDisabled` is the `is_disabled()` result for a
button selector's first match, already `False` when the call raised
(`except: disabled = False`). -/
structure ProductPage where
  navOk : Bool
  count : Str → Nat
  innerText : Str → Str
  allInner : Str → List Str
  cartDisabled : Str → Bool
  ldScripts : List LdScript

/-- `_first_text`: first selector with a present match whose cleaned inner
text is non-empty. -/
def firstText (pg : ProductPage) : List Str → Option Str
  | [] => none
  | sel :: rest =>
    if pg.count sel = 0 then firstText pg rest
    else
      match cleanText (pg.innerText sel) with
      | some t => some t
      | none => firstText pg rest

/-- `_all_texts`: first selector with present matches and a non-empty list
of cleaned texts, deduplicated keeping first occurrences. -/
def allTexts (pg : ProductPage) : List Str → List Str
  | [] => []
  | sel :: rest =>
    if pg.count sel = 0 then allTexts pg rest
    else
      match (pg.allInner sel).filterMap cleanText with
      | [] => allTexts pg rest
      | t :: ts => dedupFirst (t :: ts)

/-- `_filter_sizes`: extract size tokens from every candidate text, strip,
drop blanks, dedup. -/
def filterSizes (sizes : List Str) : List Str :=
  dedupFirst (((sizes.map extractSizeTokens).flatten.map pyStrip).filter
    (fun t => t ≠ []))

/-- `_extract_product_fields` (base.py lines 488-509): the JSON-LD product
dict reduced to cleaned `name`/`description`/`price`/`availability`
entries (a cleaned value of `None` is stored as `null`).  A
`priceSpecification` value that is present but not a dict would raise in
Python; not modeled. -/
def extractProductFields (d : List (Str × PyVal)) : List (Str × PyVal) :=
  (match dictGet d (ofString "name") with
   | some (.str s) =>
     [(ofString "name", match cleanText s with
        | some t => PyVal.str t
        | none => PyVal.null)]
   | _ => []) ++
  (match dictGet d (ofString "description") with
   | some (.str s) =>
     [(ofString "description", match cleanDescription (some s) with
        | some t => PyVal.str t
        | none => PyVal.null)]
   | _ => []) ++
  (match (match dictGet d (ofString "offers") with
          | some (.list (x :: _)) => some x
          | other => other) with
   | some (.dict od) =>
     (match (if optTruthy (dictGet od (ofString "price")) then
              dictGet od (ofString "price")
            else
              match dictGet od (ofString "priceSpecification") with
              | some (.dict pd) => dictGet pd (ofString "price")
              | _ => none) with
      | some PyVal.null => []
      | some v => [(ofString "price", PyVal.str (pyStrOf v))]
      | none => []) ++
     (match dictGet od (ofString "availability") with
      | some (.str s) =>
        [(ofString "availability", match normalizeAvailability s with
           | some t => PyVal.str t
           | none => PyVal.null)]
      | _ => [])
   | _ => [])

/- Size of a `PyVal` (bounds the recursion depth of
`_find_product_json_ld`). -/
mutual
def pyValSize : PyVal → Nat
  | .list xs => pyListSize xs + 1
  | .dict d => pyDictSize d + 1
  | _ => 1
def pyListSize : List PyVal → Nat
  | [] => 0
  | x :: rest => pyValSize x + pyListSize rest
def pyDictSize : List (Str × PyVal) → Nat
  | [] => 0
  | kv :: rest => pyValSize kv.2 + pyDictSize rest
end

/-- `_find_product_json_ld` (base.py lines 475-486), fuel-indexed (called
with `pyValSize payload`, which bounds the recursion depth): first Product
node of a list; a dict is a Product if its `@type` equals `"Product"`,
else its `@graph` is searched. -/
def findProductJsonLd : Nat → PyVal → List (Str × PyVal)
  | 0, _ => []
  | fuel + 1, payload =>
    match payload with
    | .list xs =>
      (((xs.map (fun x => findProductJsonLd fuel x)).filter
        (fun found => !found.isEmpty)).headD [])
    | .dict d =>
      if (match dictGet d (ofString "@type") with
          | some (.str t) => decide (t = ofString "Product")
          | _ => false) then
        extractProductFields d
      else
        match dictGet d (ofString "@graph") with
        | some g => findProductJsonLd fuel g
        | none => []
    | _ => []

def findProductJsonLdTop (payload : PyVal) : List (Str × PyVal) :=
  findProductJsonLd (pyValSize payload) payload

/-- The script loop of `_extract_json_ld`: skip blank raws and parse
failures; the first script whose payload yields a non-empty product dict
wins. -/
def extractJsonLdLoop : List LdScript → List (Str × PyVal)
  | [] => []
  | sc :: rest =>
    if pyStrip sc.raw = [] then extractJsonLdLoop rest
    else
      match sc.parsed with
      | none => extractJsonLdLoop rest
      | some payload =>
        match findProductJsonLdTop payload with
        | [] => extractJsonLdLoop rest
        | kv :: kvs => kv :: kvs

/-- `_extract_json_ld` (a zero script count and an empty script list
coincide in a real browser). -/
def extractJsonLd (pg : ProductPage) : List (Str × PyVal) :=
  if pg.ldScripts.isEmpty then [] else extractJsonLdLoop pg.ldScripts

/-- The add-to-cart probe at the end of `_availability`: the first present
button decides — disabled means out of stock, enabled means in stock. -/
def cartProbe (pg : ProductPage) : List Str → Option Str
  | [] => none
  | sel :: rest =>
    if pg.count sel = 0 then cartProbe pg rest
    else if pg.cartDisabled sel then some (ofString "out_of_stock")
    else some (ofString "in_stock")

/-- `_availability` (base.py lines 576-599): DOM availability text first
(keyword-normalized, with a `low stock` fallback reading), otherwise —
including when the DOM text normalizes to nothing — the add-to-cart button
probe. -/
def availabilityOf (availSels : List Str) (pg : ProductPage) : Option Str :=
  match firstText pg availSels with
  | some text =>
    (match normalizeAvailability text with
     | some n => some n
     | none =>
       if containsStr (ofString "low stock") (pyLower text) then
         some (ofString "in_stock")
       else cartProbe pg ADD_TO_CART_SELECTORS)
  | none => cartProbe pg ADD_TO_CART_SELECTORS

/-- The selector lists and site name `_scrape_product` reads from
`ScrapeConfig`. -/
structure ProductCfg where
  siteName : Str
  nameSelectors : List Str
  priceSelectors : List Str
  sizeSelectors : List Str
  availabilitySelectors : List Str
  descriptionSelectors : List Str

/-- The dict `_scrape_product` returns. -/
structure ProductRecord where
  site : Str
  name : Str
  price : Option Str
  url : Str
  sizes : List Str
  availability : Option Str
  description : Option Str
deriving DecidableEq

/-- `dict.get(k)` specialised to the string-valued entries the JSON-LD
product dict stores (`None`, `null` and missing keys coincide). -/
def jsonStrGet (d : List (Str × PyVal)) (k : Str) : Option Str :=
  match dictGet d k with
  | some (.str s) => some s
  | _ => none

/-- The name fallback chain of `_scrape_product`: DOM selectors first, then
the JSON-LD `name` (which is stored cleaned, so `null` or empty means no
name). -/
def nameOf (cfg : ProductCfg) (pg : ProductPage) : Option Str :=
  match firstText pg cfg.nameSelectors with
  | some n => some n
  | none =>
    match jsonStrGet (extractJsonLd pg) (ofString "name") with
    | some s => if s ≠ [] then some s else none
    | none => none

/-- `_scrape_product` (base.py lines 383-427): `none` for a navigation
failure or a missing name; otherwise a record with every remaining field
filled on a best-effort basis. -/
def scrapeProduct (cfg : ProductCfg) (pg : ProductPage) (url : Str) :
    Option ProductRecord :=
  if pg.navOk = false then none
  else
    match nameOf cfg pg with
    | none => none
    | some name =>
      some
        { site := cfg.siteName
          name := name
          price :=
            match firstText pg cfg.priceSelectors with
            | some p => some p
            | none => jsonStrGet (extractJsonLd pg) (ofString "price")
          url := url
          sizes := filterSizes (allTexts pg cfg.sizeSelectors)
          availability :=
            match availabilityOf cfg.availabilitySelectors pg with
            | some a => some a
            | none => jsonStrGet (extractJsonLd pg) (ofString "availability")
          description :=
            cleanDescription
              (match firstText pg cfg.descriptionSelectors with
               | some d => some d
               | none =>
                 jsonStrGet (extractJsonLd pg) (ofString "description")) }

/- ### Default selector lists (`config.py`) and concrete product pages -/

def DEFAULT_NAME_SELECTORS : List Str :=
  [ofString "[data-testid='product-title']",
   ofString "[data-testid*='product-name']", ofString "h1[itemprop='name']",
   ofString "h1[class*='product']", ofString "h1"]

def DEFAULT_PRICE_SELECTORS : List Str :=
  [ofString "[data-testid*='price']", ofString "[itemprop='price']",
   ofString "[class*='price']", ofString "[data-price]"]

def DEFAULT_SIZE_SELECTORS : List Str :=
  [ofString "button[aria-label*='Size']", ofString "[data-testid*='size'] button",
   ofString "[class*='size'] button", ofString "select[name*='size'] option"]

def DEFAULT_AVAILABILITY_SELECTORS : List Str :=
  [ofString "[data-testid*='availability']", ofString "[class*='availability']",
   ofString "[class*='stock']"]

def DEFAULT_DESCRIPTION_SELECTORS : List Str :=
  [ofString "[data-testid='product-description']",
   ofString "[class*='description']", ofString "[itemprop='description']"]

def exampleProductCfg : ProductCfg :=
  { siteName := ofString "site",
    nameSelectors := DEFAULT_NAME_SELECTORS,
    priceSelectors := DEFAULT_PRICE_SELECTORS,
    sizeSelectors := DEFAULT_SIZE_SELECTORS,
    availabilitySelectors := DEFAULT_AVAILABILITY_SELECTORS,
    descriptionSelectors := DEFAULT_DESCRIPTION_SELECTORS }

/-- A product page with a name, no DOM availability text, an *enabled*
add-to-cart button, and JSON-LD structured data whose offer availability is
`OutOfStock`. -/
def pgButtonJson : ProductPage :=
  { navOk := true,
    count := fun sel =>
      if sel = ofString "h1" then 1
      else if sel = ofString "button:has-text('Add to Cart')" then 1
      else 0,
    innerText := fun sel => if sel = ofString "h1" then ofString "Shirt" else [],
    allInner := fun _ => [],
    cartDisabled := fun _ => false,
    ldScripts := [⟨ofString "x",
      some (PyVal.dict
        [(ofString "@type", PyVal.str (ofString "Product")),
         (ofString "offers", PyVal.dict
           [(ofString "availability",
             PyVal.str (ofString "http://schema.org/OutOfStock"))])])⟩] }

/-- A product page whose DOM availability text reads `Sold Out` while its
JSON-LD offer availability is `InStock`. -/
def pgSoldOut : ProductPage :=
  { navOk := true,
    count := fun sel =>
      if sel = ofString "h1" then 1
      else if sel = ofString "[data-testid*='availability']" then 1
      else 0,
    innerText := fun sel =>
      if sel = ofString "h1" then ofString "Shirt"
      else if sel = ofString "[data-testid*='availability']" then
        ofString "Sold Out"
      else [],
    allInner := fun _ => [],
    cartDisabled := fun _ => false,
    ldScripts := [⟨ofString "x",
      some (PyVal.dict
        [(ofString "@type", PyVal.str (ofString "Product")),
         (ofString "offers", PyVal.dict
           [(ofString "availability", PyVal.str (ofString "InStock"))])])⟩] }

/- ### Claim theorems: availability chain and the name hard-fail -/

theorem cleanText_ne_nil (s t : Str) (h : cleanText s = some t) : t ≠ [] := by
  rw [cleanText] at h
  split at h
  · cases h
  · rename_i hc
    rw [Option.some.inj h] at hc
    exact hc

theorem firstText_ne_nil (pg : ProductPage) (sels : List Str) (t : Str)
    (h : firstText pg sels = some t) : t ≠ [] := by
  induction sels with
  | nil => cases h
  | cons sel rest ih =>
    rw [firstText] at h
    split at h
    · exact ih h
    · split at h
      · rename_i t2 hc
        exact (Option.some.inj h) ▸ cleanText_ne_nil _ _ hc
      · exact ih h

theorem nameOf_some_ne_nil (cfg : ProductCfg) (pg : ProductPage) (name : Str)
    (h : nameOf cfg pg = some name) : name ≠ [] := by
  rw [nameOf] at h
  split at h
  · rename_i n hn
    exact (Option.some.inj h) ▸ firstText_ne_nil pg cfg.nameSelectors n hn
  · split at h
    · rename_i s hs
      split at h
      · rename_i hne
        exact (Option.some.inj h) ▸ hne
      · cases h
    · cases h

/-- C1: COUNTEREXAMPLE to "structured-data availability is consulted before
the add-to-cart button probe".  On `pgButtonJson` the DOM yields no
availability signal and the structured data says `OutOfStock`, but the
code's button probe runs *first* and the enabled button makes the product
`in_stock`. -/
theorem C1_availability_counterexample :
    firstText pgButtonJson exampleProductCfg.availabilitySelectors = none ∧
    jsonStrGet (extractJsonLd pgButtonJson) (ofString "availability") =
      some (ofString "out_of_stock") ∧
    (scrapeProduct exampleProductCfg pgButtonJson (ofString "http://s/p")).map
      (fun r => r.availability) = some (some (ofString "in_stock")) := by
  decide

/-- C1 (amended): the availability chain is (1) DOM availability-selector
text through the keyword normalizer, with an unmatched text containing
`low stock` read as `in_stock`; (2) otherwise — including when the DOM text
exists but normalizes to nothing — the add-to-cart button probe (disabled
⇒ out of stock, enabled ⇒ in stock); (3) the structured-data availability
is used only when `_availability` as a whole returned nothing; and DOM
text `Sold Out` beats structured `InStock`. -/
theorem C1_availability_amended (cfg : ProductCfg) (pg : ProductPage)
    (url : Str) (hnav : pg.navOk = true) :
    (∀ rec, scrapeProduct cfg pg url = some rec →
      rec.availability =
        match availabilityOf cfg.availabilitySelectors pg with
        | some a => some a
        | none => jsonStrGet (extractJsonLd pg) (ofString "availability")) ∧
    (∀ text n, firstText pg cfg.availabilitySelectors = some text →
      normalizeAvailability text = some n →
      availabilityOf cfg.availabilitySelectors pg = some n) ∧
    (∀ text, firstText pg cfg.availabilitySelectors = some text →
      normalizeAvailability text = none →
      containsStr (ofString "low stock") (pyLower text) = false →
      availabilityOf cfg.availabilitySelectors pg =
        cartProbe pg ADD_TO_CART_SELECTORS) ∧
    (firstText pg cfg.availabilitySelectors = none →
      availabilityOf cfg.availabilitySelectors pg =
        cartProbe pg ADD_TO_CART_SELECTORS) ∧
    (scrapeProduct exampleProductCfg pgSoldOut (ofString "http://s/p")).map
      (fun r => r.availability) = some (some (ofString "out_of_stock")) := by
  refine ⟨?_, ?_, ?_, ?_, by decide⟩
  · intro rec h
    rw [scrapeProduct] at h
    simp only [hnav, Bool.true_eq_false, if_false] at h
    split at h
    · cases h
    · rw [← Option.some.inj h]
  · intro text n htext hnorm
    rw [availabilityOf]
    simp only [htext, hnorm]
  · intro text htext hnorm hlow
    rw [availabilityOf]
    simp only [htext, hnorm, hlow, Bool.false_eq_true, if_false]
  · intro hnone
    rw [availabilityOf]
    simp only [hnone]

/-- C1 amended witness: on `pgButtonJson` the DOM availability text is
absent, so `_availability` is the button probe. -/
theorem C1_availability_amended_witness :
    pgButtonJson.navOk = true ∧
    firstText pgButtonJson exampleProductCfg.availabilitySelectors = none ∧
    availabilityOf exampleProductCfg.availabilitySelectors pgButtonJson =
      cartProbe pgButtonJson ADD_TO_CART_SELECTORS :=
  ⟨rfl, by decide,
   (C1_availability_amended exampleProductCfg pgButtonJson
     (ofString "http://s/p") rfl).2.2.2.1 (by decide)⟩

/-- C9: after a successful navigation, `_scrape_product` drops the product
iff the name chain (DOM selectors, then JSON-LD) is empty, and every
emitted record carries that chain's non-empty name — no other missing
field causes a drop. -/
theorem C9_name_only_hard_fail (cfg : ProductCfg) (pg : ProductPage)
    (url : Str) (hnav : pg.navOk = true) :
    (scrapeProduct cfg pg url = none ↔ nameOf cfg pg = none) ∧
    (∀ rec, scrapeProduct cfg pg url = some rec →
      rec.name ≠ [] ∧ nameOf cfg pg = some rec.name) := by
  rw [scrapeProduct]
  simp only [hnav, Bool.true_eq_false, if_false]
  cases hn : nameOf cfg pg with
  | none =>
    refine ⟨by simp, ?_⟩
    intro rec h
    cases h
  | some name =>
    constructor
    · simp
    · intro rec h
      have hname : rec.name = name := by
        rw [← Option.some.inj h]
      rw [hname]
      exact ⟨nameOf_some_ne_nil cfg pg name hn, rfl⟩

/-- C9 witness: on `pgSoldOut` (which has a DOM name), the drop condition
is exactly the emptiness of the name chain. -/
theorem C9_name_only_hard_fail_witness :
    pgSoldOut.navOk = true ∧
    (scrapeProduct exampleProductCfg pgSoldOut (ofString "http://s/p") =
        none ↔
      nameOf exampleProductCfg pgSoldOut = none) :=
  ⟨rfl, (C9_name_only_hard_fail exampleProductCfg pgSoldOut
    (ofString "http://s/p") rfl).1⟩

end Scraper
